import Mathlib

/-!
# dcstream: the buffered stream layer of `src/dcs_stream.c`

A shallow embedding of the buffering layer (`dcs_stream.c`) and a verification
of its specification.

Modelling conventions.

* A byte (`unsigned char`) is a `Fin 256`; `int` and `ssize_t` results are `Int`;
  `size_t` values are `Nat`, and the `size_t` subtractions on stream fields go
  through `size_sub`, which wraps modulo `2 ^ 64` when the subtrahend is larger.
* The transport (`dcs_compr_*`, declared in `dcs_compr.h`) is a parameter: a
  record of functions over an arbitrary transport state `T`.
* A `dcs_stream *` argument is a non-null stream value; operations return the
  updated stream next to the C return value.  Nullable data pointers
  (`dest`, `src`, `*dest`) are `Option`s.
* The destination block of `dcs_getuntil` is the list of the bytes allocated for
  it.  A store at an index outside the block does not change the list and is
  recorded in the flag `overrun` of the result; what the C program does after
  such a store is not defined, and a result with `overrun` set describes the
  values the function computes, not a guarantee about the program.
* `realloc` succeeds when the allocator parameter `alloc_ok` grants the size and
  the size is at most `PTRDIFF_MAX`, the largest size of an object; the doubling
  `outsize <<= 1` wraps modulo `2 ^ 64`.
* Loops whose termination depends on the state or on the transport are given
  fuel: they return `none` when the fuel runs out, and the theorems show that
  enough fuel always produces a result.
-/

namespace Dcs

/-! ## Data model -/

/-- An `unsigned char`. -/
abbrev Byte := Fin 256

/-- Width in bits of `size_t`. -/
def SIZE_BITS : Nat := 64

/-- Subtraction of `size_t` values: exact when `b ≤ a`, wrapping modulo
`2 ^ SIZE_BITS` otherwise. -/
def size_sub (a b : Nat) : Nat :=
  if b ≤ a then a - b else 2 ^ SIZE_BITS - (b - a) % 2 ^ SIZE_BITS

/-- The helper `dcs_size_min` of `dcs_util.h`. -/
def dcs_size_min (a b : Nat) : Nat := if a < b then a else b

/-- The transport capability of `dcs_compr.h`, over a transport state `T`.

* `dcs_compr_read c buf len cap` is `dcs_compr_read(compr, buf, &len, cap)`:
  it receives the buffer and the current `len` and returns the new transport
  state, the new buffer contents, the new `len` and the status.
* `dcs_compr_write c buf len` is `dcs_compr_write(compr, buf, len)`.
* `dcs_compr_flush`, `dcs_compr_close` return the new state and the status. -/
structure Transport (T : Type) where
  dcs_compr_read : T → List Byte → Nat → Nat → T × List Byte × Nat × Int
  dcs_compr_write : T → List Byte → Nat → T × Int
  dcs_compr_flush : T → T × Int
  dcs_compr_close : T → T × Int

/-- The `dcs_stream` record of `dcs_stream.h`, as used by `dcs_stream.c`. -/
structure dcs_stream (T : Type) where
  compr : T
  buf : List Byte
  len : Nat
  cap : Nat
  pos : Nat
  prevous_getc : Int
  fp_eof : Bool
  read : Bool
deriving DecidableEq, Repr

/-- Read of `buf[i]`; a read outside the allocated buffer yields `0`. -/
def buf_at (buf : List Byte) (i : Nat) : Byte := buf.getD i 0

/-- The effect of `memcpy(dst + off, src, src.length)` on the bytes of `dst`. -/
def memcpy (dst : List Byte) (off : Nat) (src : List Byte) : List Byte :=
  dst.take off ++ src ++ dst.drop (off + src.length)

/-- A zero-filled block, as returned by `calloc(1, n)`. -/
def calloc (n : Nat) : List Byte := List.replicate n 0

/-! ## Fill and drain -/

/-- The function `_dcs_fillbuf`. -/
def _dcs_fillbuf {T : Type} (tr : Transport T) (stream : dcs_stream T) :
    dcs_stream T × Int :=
  if !stream.read then (stream, -1)
  else
    let r := tr.dcs_compr_read stream.compr stream.buf stream.len stream.cap
    let s1 := { stream with compr := r.1, buf := r.2.1, len := r.2.2.1 }
    let s2 := if s1.len < s1.cap then { s1 with fp_eof := true } else s1
    ({ s2 with pos := 0, prevous_getc := -1 }, r.2.2.2)

/-- The function `_dcs_writebuf`. -/
def _dcs_writebuf {T : Type} (tr : Transport T) (stream : dcs_stream T) :
    dcs_stream T × Int :=
  let r := tr.dcs_compr_write stream.compr stream.buf stream.len
  ({ stream with compr := r.1, len := 0, pos := 0 }, r.2)

/-- Modelled from the spec: `dcs_eof` is declared in `dcs_stream.h`, which is not
part of the sources; the source is at its end once it has been found exhausted
and every buffered byte has been consumed (`position == length`). -/
def dcs_eof {T : Type} (stream : dcs_stream T) : Bool :=
  stream.fp_eof && stream.pos == stream.len

/-- The function `dcs_moredata`: `<0` on error, `0` at the end of the source,
`1` when there is data to process. -/
def dcs_moredata {T : Type} (tr : Transport T) (stream : dcs_stream T) :
    dcs_stream T × Int :=
  if !stream.read then (stream, -1)
  else if !stream.fp_eof && stream.pos == stream.len then
    let r := _dcs_fillbuf tr stream
    if r.2 != 0 then (r.1, -1)
    else (r.1, if dcs_eof r.1 then 0 else 1)
  else (stream, if dcs_eof stream then 0 else 1)

/-! ## Open, close, resize, flush -/

/-- The function `_dcs_init`; `bufsize` is the constant `DCS_BUFSIZE` of
`dcs_stream.h`, `mode` is `none` for a null pointer, `malloc_ok` and
`calloc_ok` tell whether the two allocations succeed.  The field `compr` is
not set by `_dcs_init`, so the result is a stream over `Unit`; `none` is the
null pointer. -/
def _dcs_init (bufsize : Nat) (mode : Option (List Char))
    (malloc_ok calloc_ok : Bool) : Option (dcs_stream Unit) :=
  match mode with
  | none => none
  | some m =>
    let mode0 : Char := m.headD (Char.ofNat 0)
    if mode0 ≠ 'r' ∧ mode0 ≠ 'w' then none
    else if !malloc_ok then none
    else if !calloc_ok then none
    else some
      { compr := (), buf := calloc bufsize, len := 0, pos := 0, cap := bufsize,
        prevous_getc := -1, fp_eof := false, read := decide (mode0 = 'r') }

/-- The function `_dcs_close`: the state the transport is left in and the
status returned to the caller. -/
def _dcs_close {T : Type} (tr : Transport T) (stream : dcs_stream T) : T × Int :=
  let s1 := if !stream.read && decide (stream.pos > 0)
    then (_dcs_writebuf tr stream).1 else stream
  tr.dcs_compr_close s1.compr

/-- The function `dcs_setbufsize`; `alloc_ok n` tells whether an allocation of
`n` bytes succeeds. -/
def dcs_setbufsize {T : Type} (alloc_ok : Nat → Bool) (stream : dcs_stream T)
    (size : Nat) : dcs_stream T × Int :=
  if size = 0 then (stream, -1)
  else if stream.pos ≠ 0 ∨ stream.len ≠ 0 ∨ stream.fp_eof = true then (stream, -1)
  else if !alloc_ok size then (stream, -1)
  else ({ stream with buf := calloc size, cap := size }, 0)

/-- The function `dcs_flush`. -/
def dcs_flush {T : Type} (tr : Transport T) (stream : dcs_stream T) :
    dcs_stream T × Int :=
  if stream.read then (stream, -1)
  else if stream.pos = 0 then (stream, 0)
  else
    let w := tr.dcs_compr_write stream.compr stream.buf stream.len
    let f := tr.dcs_compr_flush w.1
    ({ stream with compr := f.1, len := 0, pos := 0 }, Int.lor w.2 f.2)

/-! ## Bulk read and write -/

/-- The loop of `dcs_read`: `bdest` is the destination, `read` the number of
bytes copied so far.  The result is the stream, the destination and `read`
when the loop exits. -/
def dcs_read_loop {T : Type} (tr : Transport T) (size : Nat) :
    Nat → dcs_stream T → List Byte → Nat → Option (dcs_stream T × List Byte × Nat)
  | 0, _, _, _ => none
  | fuel + 1, stream, bdest, read =>
    if read < size then
      let m := dcs_moredata tr stream
      if m.2 ≠ 0 then
        let tocpy := dcs_size_min (size_sub m.1.len m.1.pos) (size - read)
        let bdest1 := memcpy bdest read ((m.1.buf.drop m.1.pos).take tocpy)
        dcs_read_loop tr size fuel { m.1 with pos := m.1.pos + tocpy } bdest1
          (read + tocpy)
      else some (m.1, bdest, read)
    else some (stream, bdest, read)

/-- The function `dcs_read`; `dest` is `none` for a null pointer. -/
def dcs_read {T : Type} (tr : Transport T) (fuel : Nat) (stream : dcs_stream T)
    (dest : Option (List Byte)) (size : Nat) :
    Option (dcs_stream T × Option (List Byte) × Int) :=
  match dest with
  | none => some (stream, none, -1)
  | some bdest =>
    if !stream.read then some (stream, dest, -1)
    else
      match dcs_read_loop tr size fuel stream bdest 0 with
      | none => none
      | some r => some ({ r.1 with prevous_getc := -1 }, some r.2.1, (r.2.2 : Int))

/-- The loop of `dcs_write`: `wrote` is the number of bytes accepted so far; the
result is the stream and the value returned by `dcs_write`. -/
def dcs_write_loop {T : Type} (tr : Transport T) (bsrc : List Byte) (size : Nat) :
    Nat → dcs_stream T → Nat → Option (dcs_stream T × Int)
  | 0, _, _ => none
  | fuel + 1, stream, wrote =>
    if wrote < size then
      let tocpy := dcs_size_min (size_sub stream.cap stream.pos) (size - wrote)
      let buf1 := memcpy stream.buf stream.pos ((bsrc.drop wrote).take tocpy)
      let s1 := { stream with buf := buf1, pos := stream.pos + tocpy,
                              len := stream.pos + tocpy }
      if s1.pos = s1.cap then
        let w := _dcs_writebuf tr s1
        if w.2 ≠ 0 then some (w.1, -1)
        else dcs_write_loop tr bsrc size fuel w.1 (wrote + tocpy)
      else dcs_write_loop tr bsrc size fuel s1 (wrote + tocpy)
    else some (stream, (wrote : Int))

/-- The function `dcs_write`; `src` is `none` for a null pointer. -/
def dcs_write {T : Type} (tr : Transport T) (fuel : Nat) (stream : dcs_stream T)
    (src : Option (List Byte)) (size : Nat) : Option (dcs_stream T × Int) :=
  match src with
  | none => some (stream, -1)
  | some bsrc =>
    if stream.read then some (stream, -1)
    else dcs_write_loop tr bsrc size fuel stream 0

/-! ## Single characters -/

/-- The function `dcs_getc`. -/
def dcs_getc {T : Type} (tr : Transport T) (stream : dcs_stream T) :
    dcs_stream T × Int :=
  if !stream.read then (stream, -1)
  else
    let m := dcs_moredata tr stream
    if m.2 ≠ 1 then (m.1, -1)
    else
      let chr : Int := ((buf_at m.1.buf m.1.pos).val : Int)
      ({ m.1 with pos := m.1.pos + 1, prevous_getc := chr }, chr)

/-- The function `dcs_ungetc`. -/
def dcs_ungetc {T : Type} (stream : dcs_stream T) : dcs_stream T × Int :=
  if !stream.read then (stream, -1)
  else if stream.prevous_getc < 0 then (stream, -1)
  else if ((buf_at stream.buf (size_sub stream.pos 1)).val : Int) = stream.prevous_getc then
    ({ stream with pos := size_sub stream.pos 1, prevous_getc := -1 }, 0)
  else (stream, -1)

/-! ## Delimiter-terminated read -/

/-- The search `memchr(s, c, s.length)`: the index of the first `c` in `s`. -/
def memchr : List Byte → Byte → Option Nat
  | [], _ => none
  | b :: bs, c => if b = c then some 0 else (memchr bs c).map (· + 1)

/-- The block returned by a successful `realloc(out, n)`: `n` bytes that start
with the bytes of the old block; `none` is the null pointer. -/
def realloc (out : Option (List Byte)) (n : Nat) : List Byte :=
  (out.getD []).take n ++ List.replicate (n - (out.getD []).length) 0

/-- The largest size of an object, `PTRDIFF_MAX` of `stdint.h`. -/
def PTRDIFF_MAX : Nat := 2 ^ (SIZE_BITS - 1) - 1

/-- Whether `realloc(out, n)` returns a block: the allocator `alloc_ok` grants
the request, and no block has more than `PTRDIFF_MAX` bytes (the C library
returns null for a larger request).  This is what ends the growth loop of
`dcs_getuntil` when no size that the doubling reaches is large enough. -/
def realloc_ok (alloc_ok : Nat → Bool) (n : Nat) : Bool :=
  alloc_ok n && decide (n ≤ PTRDIFF_MAX)

/-- The inner loop of `dcs_getuntil`, which grows the destination until
`bytes_to_delim` more bytes fit.  The result is `out`, `outsize` and whether
every `realloc` succeeded; when one fails, `out` and `outsize` are the values
last stored in `*dest` and `*size`.  The shift `outsize <<= 1` of a `size_t`
is a doubling modulo `2 ^ SIZE_BITS`. -/
def dcs_getuntil_grow (alloc_ok : Nat → Bool) (bytes_to_delim outpos : Nat) :
    Nat → Option (List Byte) → Nat → Option (Option (List Byte) × Nat × Bool)
  | 0, _, _ => none
  | fuel + 1, out, outsize =>
    if out = none ∨ bytes_to_delim > size_sub outsize outpos then
      let outsize1 := if outsize < 64 then 64 else (outsize * 2) % 2 ^ SIZE_BITS
      if !realloc_ok alloc_ok outsize1 then some (out, outsize, false)
      else dcs_getuntil_grow alloc_ok bytes_to_delim outpos fuel
        (some (realloc out outsize1)) outsize1
    else some (out, outsize, true)

/-- What `dcs_getuntil` leaves behind: the stream, `*dest`, `*size`, the value
returned, and `overrun`: whether some store of the call (a byte copied by
`memcpy`, or the marker `out[outpos] = 0`) went to an index that is not in the
destination block.  `dest` holds the bytes of the block itself; after an overrun
the bytes outside the block, and the behaviour of the C program, are not
described by it. -/
structure getuntil_result (T : Type) where
  stream : dcs_stream T
  dest : Option (List Byte)
  size : Nat
  ret : Int
  overrun : Bool
deriving DecidableEq, Repr

/-- The outer loop of `dcs_getuntil`.  `gfuel` bounds each run of the inner
loop, the first `Nat` argument bounds the outer loop.  The block `out` is a list
of as many bytes as were allocated for it, whatever `outsize` says.  The stores
of `memcpy` and of `out[outpos] = 0` change the bytes of the block at the indices
that are in it; a store at an index that is not in the block leaves the block as
it is and sets `overrun`.  Since the marker goes right after the bytes copied,
some store is outside the block exactly when the index of the marker,
`outpos + bytes_to_delim`, is. -/
def dcs_getuntil_loop {T : Type} (tr : Transport T) (alloc_ok : Nat → Bool)
    (delim : Byte) (gfuel : Nat) :
    Nat → dcs_stream T → Option (List Byte) → Nat → Nat → Bool → Bool →
      Option (getuntil_result T)
  | 0, _, _, _, _, _, _ => none
  | fuel + 1, stream, out, outsize, outpos, found, overrun =>
    if found then some ⟨stream, out, outsize, (outpos : Int), overrun⟩
    else
      let m := dcs_moredata tr stream
      if m.2 = 0 then some ⟨m.1, out, outsize, (outpos : Int), overrun⟩
      else
        let buffer_start := m.1.buf.drop m.1.pos
        let buffer_len := size_sub m.1.len m.1.pos
        let delim_pos := memchr (buffer_start.take buffer_len) delim
        let bytes_to_delim := match delim_pos with
          | some i => i + 1
          | none => buffer_len
        match dcs_getuntil_grow alloc_ok bytes_to_delim outpos gfuel out outsize with
        | none => none
        | some (out1, outsize1, false) => some ⟨m.1, out1, outsize1, -1, overrun⟩
        | some (out1, outsize1, true) =>
          let block := out1.getD []
          let out2 := (memcpy block outpos (buffer_start.take bytes_to_delim)).take
            block.length
          let out3 := out2.set (outpos + bytes_to_delim) 0
          dcs_getuntil_loop tr alloc_ok delim gfuel fuel
            { m.1 with pos := m.1.pos + bytes_to_delim } (some out3) outsize1
            (outpos + bytes_to_delim) delim_pos.isSome
            (overrun || decide (block.length ≤ outpos + bytes_to_delim))

/-- The function `dcs_getuntil`; `dest` and `size` are the values of `*dest` and
`*size` (the two handles themselves are not null). -/
def dcs_getuntil {T : Type} (tr : Transport T) (alloc_ok : Nat → Bool) (fuel : Nat)
    (stream : dcs_stream T) (dest : Option (List Byte)) (size : Nat) (delim : Byte) :
    Option (getuntil_result T) :=
  if !stream.read then some ⟨stream, dest, size, -1, false⟩
  else dcs_getuntil_loop tr alloc_ok delim fuel fuel stream dest size 0 false false

/-! ## Transports used in the statements -/

/-- A call received by a transport. -/
inductive Call where
  | read (cap : Nat)
  | write (bytes : List Byte)
  | flush
  | close
deriving DecidableEq, Repr

/-- A transport that records every call it receives, in order, next to the state
of the transport `tr` it forwards to. -/
def traced {T : Type} (tr : Transport T) : Transport (T × List Call) where
  dcs_compr_read c buf len cap :=
    let r := tr.dcs_compr_read c.1 buf len cap
    ((r.1, c.2 ++ [Call.read cap]), r.2)
  dcs_compr_write c buf len :=
    let r := tr.dcs_compr_write c.1 buf len
    ((r.1, c.2 ++ [Call.write (buf.take len)]), r.2)
  dcs_compr_flush c :=
    let r := tr.dcs_compr_flush c.1
    ((r.1, c.2 ++ [Call.flush]), r.2)
  dcs_compr_close c :=
    let r := tr.dcs_compr_close c.1
    ((r.1, c.2 ++ [Call.close]), r.2)

/-- The plain (identity) transport of a read stream over a finite source: the
state is the part of the source not yet handed to the stream; a read never
fails and delivers `min cap remaining` bytes at the start of the buffer. -/
def plain_source : Transport (List Byte) where
  dcs_compr_read rest buf _ cap :=
    (rest.drop cap, memcpy buf 0 (rest.take cap), (rest.take cap).length, 0)
  dcs_compr_write rest _ _ := (rest, -1)
  dcs_compr_flush rest := (rest, -1)
  dcs_compr_close rest := (rest, 0)

/-- The plain (identity) transport of a write stream: the state is the list of
the writes received so far, each with the bytes it was handed; no call fails. -/
def plain_sink : Transport (List (List Byte)) where
  dcs_compr_read ws buf len _ := (ws, buf, len, -1)
  dcs_compr_write ws buf len := (ws ++ [buf.take len], 0)
  dcs_compr_flush ws := (ws, 0)
  dcs_compr_close ws := (ws, 0)

/-- A freshly opened stream of capacity `cap` over the transport state `compr`:
the record `_dcs_init` builds with `DCS_BUFSIZE = cap`, with its transport set. -/
def fresh_stream {T : Type} (compr : T) (read : Bool) (cap : Nat) : dcs_stream T :=
  { compr := compr, buf := calloc cap, len := 0, pos := 0, cap := cap,
    prevous_getc := -1, fp_eof := false, read := read }

/-! ## Sequences of calls and stream invariants -/

/-- A caller that hands the inputs `ds` to successive `dcs_write` calls, each
with the size of its input; the result is the stream and the values returned. -/
def write_all {T : Type} (tr : Transport T) (fuel : Nat) :
    dcs_stream T → List (List Byte) → Option (dcs_stream T × List Int)
  | s, [] => some (s, [])
  | s, x :: xs =>
    match dcs_write tr fuel s (some x) x.length with
    | none => none
    | some r =>
      match write_all tr fuel r.1 xs with
      | none => none
      | some q => some (q.1, r.2 :: q.2)

/-- The bytes of a read stream over `plain_source` that have not been delivered
to the caller: the unconsumed bytes of the buffer, then the rest of the source. -/
def undelivered (s : dcs_stream (List Byte)) : List Byte :=
  (s.buf.take s.len).drop s.pos ++ s.compr

/-- Well-formedness of a read stream: the invariant of §3 of the specification,
with the buffer holding `cap` bytes. -/
structure read_wf {T : Type} (s : dcs_stream T) : Prop where
  is_read : s.read = true
  cap_pos : 1 ≤ s.cap
  pos_le : s.pos ≤ s.len
  len_le : s.len ≤ s.cap
  buf_len : s.buf.length = s.cap

/-- Well-formedness of a write stream: the invariant of §3 of the specification,
with the buffer holding `cap` bytes. -/
structure write_wf {T : Type} (s : dcs_stream T) : Prop where
  is_write : s.read = false
  pos_lt : s.pos < s.cap
  len_eq : s.len = s.pos
  buf_len : s.buf.length = s.cap
  no_eof : s.fp_eof = false

/-- The shortest start of `u` that ends with `delim`, or all of `u` when `delim`
does not occur in it. -/
def span_until (delim : Byte) : List Byte → List Byte
  | [] => []
  | b :: bs => if b = delim then [b] else b :: span_until delim bs

/-- The state of a write stream of capacity `c` over `plain_sink` after the bytes
`d` have been accepted: every write received so far has `c` bytes, and the
writes followed by the pending bytes of the buffer are `d`. -/
structure sink_inv (c : Nat) (d : List Byte) (s : dcs_stream (List (List Byte))) :
    Prop where
  wf : write_wf s
  cap_eq : s.cap = c
  chunks : ∀ w ∈ s.compr, w.length = c
  content : s.compr.flatten ++ s.buf.take s.pos = d

/-- The state of a read stream over `plain_source`: well-formed, and once the
source has been found exhausted nothing of it is left in the transport. -/
structure source_inv (s : dcs_stream (List Byte)) : Prop where
  wf : read_wf s
  eof_rest : s.fp_eof = true → s.compr = []

/-- The destination of `dcs_getuntil` with `outpos` bytes accumulated: a block
of `outsize` bytes, or the null pointer with nothing accumulated. -/
def dest_ok (out : Option (List Byte)) (outsize outpos : Nat) : Prop :=
  match out with
  | none => outpos = 0
  | some o => o.length = outsize ∧ outpos ≤ outsize

/-- An allocator that never fails. -/
def alloc_always : Nat → Bool := fun _ => true

/-- A call of the public interface on a stream. -/
inductive Op where
  | setbufsize (size : Nat)
  | read (dest : Option (List Byte)) (size : Nat)
  | getc
  | ungetc
  | getuntil (dest : Option (List Byte)) (size : Nat) (delim : Byte)
  | write (src : Option (List Byte)) (size : Nat)
  | flush
deriving DecidableEq, Repr

/-- One call on a stream: the stream afterwards and the value returned. -/
def step {T : Type} (tr : Transport T) (alloc_ok : Nat → Bool) (fuel : Nat)
    (s : dcs_stream T) : Op → Option (dcs_stream T × Int)
  | Op.setbufsize size => some (dcs_setbufsize alloc_ok s size)
  | Op.read dest size => (dcs_read tr fuel s dest size).map (fun r => (r.1, r.2.2))
  | Op.getc => some (dcs_getc tr s)
  | Op.ungetc => some (dcs_ungetc s)
  | Op.getuntil dest size delim =>
    (dcs_getuntil tr alloc_ok fuel s dest size delim).map (fun r => (r.stream, r.ret))
  | Op.write src size => dcs_write tr fuel s src size
  | Op.flush => some (dcs_flush tr s)

/-- A sequence of calls on a stream: the stream afterwards and, in order, each
call with the value it returned. -/
def run {T : Type} (tr : Transport T) (alloc_ok : Nat → Bool) (fuel : Nat) :
    List Op → dcs_stream T → Option (dcs_stream T × List (Op × Int))
  | [], s => some (s, [])
  | op :: ops, s =>
    match step tr alloc_ok fuel s op with
    | none => none
    | some r =>
      match run tr alloc_ok fuel ops r.1 with
      | none => none
      | some q => some (q.1, (op, r.2) :: q.2)

/-- The cursor invariant of a read stream: the cursor is within the valid bytes,
and a recorded pushback byte has a byte before the cursor. -/
structure read_inv {T : Type} (s : dcs_stream T) : Prop where
  is_read : s.read = true
  cap_pos : 1 ≤ s.cap
  pos_le : s.pos ≤ s.len
  unget_ok : 0 ≤ s.prevous_getc → 1 ≤ s.pos

/-- A read stream whose buffer has been filled with at least one byte, or whose
source has been found exhausted. -/
def used {T : Type} (s : dcs_stream T) : Prop := s.len ≠ 0 ∨ s.fp_eof = true

/-- A call that delivered at least one byte of the source to the caller,
according to the value it returned. -/
def delivered : Op × Int → Prop
  | (Op.getc, ret) => ret ≠ -1
  | (Op.read _ _, ret) => 0 < ret
  | (Op.getuntil _ _ _, ret) => 0 < ret
  | _ => False

/-- The calls that consume bytes of a read stream: `dcs_read`, `dcs_getc` and
`dcs_getuntil`. -/
def consuming : Op → Prop
  | Op.read _ _ => True
  | Op.getc => True
  | Op.getuntil _ _ _ => True
  | _ => False

/-- The relation between a read stream `s` whose source has been found exhausted
and a later state `r`: the transport state, the buffer and its valid length are
untouched, the flag is still set, and the cursor has only moved forward within
the valid bytes. -/
structure eof_step {T : Type} (s r : dcs_stream T) : Prop where
  compr_eq : r.compr = s.compr
  flag : r.fp_eof = true
  len_eq : r.len = s.len
  buf_eq : r.buf = s.buf
  is_read : r.read = true
  cap_eq : r.cap = s.cap
  pos_ge : s.pos ≤ r.pos
  pos_le : r.pos ≤ r.len

/-- The stream reached from a fresh stream of capacity 2 over the source `[5]`
(with recorded calls) by a `dcs_read` of one byte: the fill was short, and its
byte has been consumed. -/
def exhausted_example : dcs_stream (List Byte × List Call) :=
  { compr := ([], [Call.read 2]), buf := [5, 0], len := 1, cap := 2, pos := 1,
    prevous_getc := -1, fp_eof := true, read := true }

/-- A transport whose read always fails (status -1) and reports `n` valid bytes,
leaving the buffer as it is. -/
def failing_source (n : Nat) : Transport Unit where
  dcs_compr_read c buf _ _ := (c, buf, n, -1)
  dcs_compr_write c _ _ := (c, -1)
  dcs_compr_flush c := (c, -1)
  dcs_compr_close c := (c, 0)

/-- A transport of a write stream whose write always fails (status -1) after
recording the bytes it was handed, while its flush and close succeed. -/
def failing_sink : Transport (List (List Byte)) where
  dcs_compr_read ws buf len _ := (ws, buf, len, -1)
  dcs_compr_write ws buf len := (ws ++ [buf.take len], -1)
  dcs_compr_flush ws := (ws, 0)
  dcs_compr_close ws := (ws, 0)

/-- A caller that issues `k` consecutive `dcs_getc` calls: the values returned,
in order, and the stream afterwards. -/
def getc_seq {T : Type} (tr : Transport T) : Nat → dcs_stream T → List Int × dcs_stream T
  | 0, s => ([], s)
  | k + 1, s =>
    ((dcs_getc tr s).2 :: (getc_seq tr k (dcs_getc tr s).1).1,
      (getc_seq tr k (dcs_getc tr s).1).2)

/-- A transport that records every call it receives together with the status it
returned, in order, next to the state of the transport `tr` it forwards to. -/
def recorded {T : Type} (tr : Transport T) : Transport (T × List (Call × Int)) where
  dcs_compr_read c buf len cap :=
    let r := tr.dcs_compr_read c.1 buf len cap
    ((r.1, c.2 ++ [(Call.read cap, r.2.2.2)]), r.2)
  dcs_compr_write c buf len :=
    let r := tr.dcs_compr_write c.1 buf len
    ((r.1, c.2 ++ [(Call.write (buf.take len), r.2)]), r.2)
  dcs_compr_flush c :=
    let r := tr.dcs_compr_flush c.1
    ((r.1, c.2 ++ [(Call.flush, r.2)]), r.2)
  dcs_compr_close c :=
    let r := tr.dcs_compr_close c.1
    ((r.1, c.2 ++ [(Call.close, r.2)]), r.2)

/-- The bytes a recorded call handed to the transport: those of a write, none
for another call. -/
def call_bytes : Call → List Byte
  | Call.write w => w
  | _ => []

/-- The bytes handed to the transport by a list of recorded calls, in order. -/
def handed (calls : List (Call × Int)) : List Byte :=
  (calls.map (fun e => call_bytes e.1)).flatten

/-! ## Opening a stream -/

/-- Modelled from the spec: the enumeration `dcs_comp_algo` is declared in
`dcs_compr.h`, which is not part of the sources; its values are `unknown`,
`plain`, `gzip`, `bzip2` and `zstd`. -/
inductive dcs_comp_algo where
  | DCS_UNKNOWN
  | DCS_PLAIN
  | DCS_GZIP
  | DCS_BZIP2
  | DCS_ZSTD
deriving DecidableEq, Repr

/-- What `dcs_guess_compression_type` reads of the result of `stat`: the tests
`S_ISDIR`, `S_ISFIFO` and `S_ISSOCK` on `st_mode`. -/
structure file_stat where
  is_dir : Bool
  is_fifo : Bool
  is_sock : Bool
deriving DecidableEq, Repr

/-- The search `strrchr(s, c)`: the part of `s` from the last `c` on. -/
def strrchr : List Char → Char → Option (List Char)
  | [], _ => none
  | x :: xs, c =>
    match strrchr xs c with
    | some r => some r
    | none => if x = c then some (x :: xs) else none

/-- The function `dcs_fileext`: the contents of `extbuf` when it returns 0,
`none` when it returns -1.  The copy `strncpy(extbuf, lastdot, extbuflen)` keeps
the first `extbuflen` characters. -/
def dcs_fileext (filename : Option (List Char)) (extbuflen : Nat) : Option (List Char) :=
  match filename with
  | none => none
  | some f =>
    if extbuflen = 0 then none
    else
      match strrchr f '.' with
      | none => some []
      | some lastdot => some (lastdot.take extbuflen)

/-- The function `dcs_guess_compression_type`; `stat f` is the result of
`stat(f, &statres)`, `none` when it fails. -/
def dcs_guess_compression_type (stat : List Char → Option file_stat)
    (filename : List Char) : dcs_comp_algo :=
  if filename = "-".toList ∨ filename = "/dev/stdin".toList then dcs_comp_algo.DCS_PLAIN
  else
    let guess_ext : dcs_comp_algo :=
      match dcs_fileext (some filename) 4096 with
      | none => dcs_comp_algo.DCS_UNKNOWN
      | some extbuf =>
        if extbuf = ".gz".toList then dcs_comp_algo.DCS_GZIP
        else if extbuf = ".bz2".toList then dcs_comp_algo.DCS_BZIP2
        else if extbuf = ".zst".toList then dcs_comp_algo.DCS_ZSTD
        else dcs_comp_algo.DCS_PLAIN
    match stat filename with
    | some statres =>
      if statres.is_dir then dcs_comp_algo.DCS_UNKNOWN
      else if statres.is_fifo || statres.is_sock then dcs_comp_algo.DCS_PLAIN
      else guess_ext
    | none => guess_ext

/-- The outcome of `dcs_open` and `dcs_dopen`: the pointer returned (`none` is the
null pointer), or a dereference of a null `dcs_stream *`. -/
inductive open_result (T : Type) where
  | returned (stream : Option (dcs_stream T))
  | null_dereference
deriving DecidableEq, Repr

/-- The part of `dcs_open` and `dcs_dopen` after the transport has been opened:
`stream` is the result of `_dcs_init`, `compr` that of opening the transport.
Both branches read or write a field of `stream` without testing it. -/
def dcs_open_finish {T : Type} (stream : Option (dcs_stream Unit)) (compr : Option T) :
    open_result T :=
  match compr with
  | none =>
    match stream with
    | none => open_result.null_dereference
    | some _ => open_result.returned none
  | some c =>
    match stream with
    | none => open_result.null_dereference
    | some s =>
      open_result.returned (some
        { compr := c, buf := s.buf, len := s.len, cap := s.cap, pos := s.pos,
          prevous_getc := s.prevous_getc, fp_eof := s.fp_eof, read := s.read })

/-- The function `dcs_open`; `bufsize` is `DCS_BUFSIZE`, `dcs_compr_open` opens
the transport (`none` when it fails), `file` and `mode` are `none` for null
pointers. -/
def dcs_open {T : Type} (bufsize : Nat) (stat : List Char → Option file_stat)
    (dcs_compr_open : List Char → List Char → dcs_comp_algo → Option T)
    (malloc_ok calloc_ok : Bool) (file mode : Option (List Char)) (algo : dcs_comp_algo) :
    open_result T :=
  match file, mode with
  | some f, some m =>
    let algo1 := if algo = dcs_comp_algo.DCS_UNKNOWN
      then dcs_guess_compression_type stat f else algo
    if algo1 = dcs_comp_algo.DCS_UNKNOWN then open_result.returned none
    else
      dcs_open_finish (_dcs_init bufsize (some m) malloc_ok calloc_ok)
        (dcs_compr_open f m algo1)
  | _, _ => open_result.returned none

/-- The function `dcs_dopen`; `dcs_compr_dopen` opens the transport on the
descriptor `fd` (`none` when it fails). -/
def dcs_dopen {T : Type} (bufsize : Nat)
    (dcs_compr_dopen : Int → List Char → dcs_comp_algo → Option T)
    (malloc_ok calloc_ok : Bool) (fd : Int) (mode : Option (List Char))
    (algo : dcs_comp_algo) : open_result T :=
  match mode with
  | none => open_result.returned none
  | some m =>
    if algo = dcs_comp_algo.DCS_UNKNOWN then open_result.returned none
    else
      dcs_open_finish (_dcs_init bufsize (some m) malloc_ok calloc_ok)
        (dcs_compr_dopen fd m algo)

/-! ## Reachable states -/

/-- A transport whose read never reports more valid bytes than the capacity it
was asked for. -/
def good_read {T : Type} (tr : Transport T) : Prop :=
  ∀ (c : T) (buf : List Byte) (len cap : Nat), (tr.dcs_compr_read c buf len cap).2.2.1 ≤ cap

/-- The cursor invariant of a write stream: no read cursor, and the buffer is
never left full. -/
structure write_inv {T : Type} (s : dcs_stream T) : Prop where
  is_write : s.read = false
  pos_lt : s.pos < s.cap
  len_eq : s.len = s.pos

/-- The invariant kept by every call on a stream: a read stream satisfies
`read_inv` with at most `cap` valid bytes, a write stream satisfies
`write_inv`. -/
def reach_inv {T : Type} (s : dcs_stream T) : Prop :=
  (read_inv s ∧ s.len ≤ s.cap) ∨ write_inv s

/-! # Verification -/

/-! ## Fresh streams, arithmetic and memory helpers -/

theorem _dcs_init_fresh (bufsize : Nat) (m : List Char) :
    _dcs_init bufsize (some ('r' :: m)) true true = some (fresh_stream () true bufsize) ∧
      _dcs_init bufsize (some ('w' :: m)) true true = some (fresh_stream () false bufsize) := by
  constructor <;> simp [_dcs_init, fresh_stream]

theorem size_sub_of_le {a b : Nat} (h : b ≤ a) : size_sub a b = a - b := by
  simp [size_sub, h]

theorem size_sub_eq_zero {a b : Nat} (h : size_sub a b = 0) : a = b := by
  unfold size_sub at h
  split at h
  · omega
  · have : (b - a) % 2 ^ SIZE_BITS < 2 ^ SIZE_BITS := Nat.mod_lt _ (by positivity)
    omega

theorem dcs_size_min_eq (a b : Nat) : dcs_size_min a b = min a b := by
  unfold dcs_size_min
  split <;> omega

theorem memcpy_length (dst : List Byte) (off : Nat) (src : List Byte)
    (h : off + src.length ≤ dst.length) : (memcpy dst off src).length = dst.length := by
  simp [memcpy]
  omega

theorem memcpy_take (dst : List Byte) (off : Nat) (src : List Byte)
    (h : off ≤ dst.length) :
    (memcpy dst off src).take (off + src.length) = dst.take off ++ src := by
  have h1 : (dst.take off ++ src).length = off + src.length := by
    simp [List.length_take, h]
  unfold memcpy
  rw [← h1, List.take_left]

theorem memcpy_append (dst : List Byte) (off : Nat) (a b : List Byte)
    (h : off + a.length ≤ dst.length) :
    memcpy (memcpy dst off a) (off + a.length) b = memcpy dst off (a ++ b) := by
  have h0 : off ≤ dst.length := by omega
  have h1 : (dst.take off ++ a).length = off + a.length := by
    simp [List.length_take, h0]
  have e1 : (memcpy dst off a).take (off + a.length) = dst.take off ++ a :=
    memcpy_take dst off a h0
  have e2 : (memcpy dst off a).drop (off + a.length + b.length)
      = dst.drop (off + a.length + b.length) := by
    unfold memcpy
    rw [List.drop_append_eq_append_drop, h1]
    have : (dst.take off ++ a).drop (off + a.length + b.length) = [] :=
      List.drop_eq_nil_of_le (by omega)
    rw [this, List.drop_drop]
    simp only [List.nil_append]
    congr 1
    omega
  show (memcpy dst off a).take (off + a.length) ++ b
      ++ (memcpy dst off a).drop (off + a.length + b.length) = _
  rw [e1, e2]
  simp [memcpy, List.append_assoc, Nat.add_assoc]

/-! ## The write side over `plain_sink` -/

theorem dcs_write_loop_sink (c : Nat) (bsrc : List Byte) :
    ∀ (fuel wrote : Nat) (d : List Byte) (s : dcs_stream (List (List Byte))),
      sink_inv c d s → wrote ≤ bsrc.length → bsrc.length - wrote < fuel →
      ∃ s1, dcs_write_loop plain_sink bsrc bsrc.length fuel s wrote
          = some (s1, (bsrc.length : Int)) ∧ sink_inv c (d ++ bsrc.drop wrote) s1 := by
  intro fuel
  induction fuel with
  | zero => intro wrote d s _ _ h; omega
  | succ fuel ih =>
    intro wrote d s hinv hw hf
    obtain ⟨⟨hr, hlt, hlen, hbl, hne⟩, hcap, hch, hco⟩ := hinv
    unfold dcs_write_loop
    by_cases hlt2 : wrote < bsrc.length
    · simp only [hlt2, if_true]
      have hsub : size_sub s.cap s.pos = s.cap - s.pos := size_sub_of_le (by omega)
      rw [hsub, dcs_size_min_eq]
      set tocpy := min (s.cap - s.pos) (bsrc.length - wrote) with htc
      set chunk := (bsrc.drop wrote).take tocpy with hchunk
      have hcl : chunk.length = tocpy := by
        simp [hchunk, List.length_take, List.length_drop]
        omega
      have htpos : 1 ≤ tocpy := by omega
      have hrest : chunk ++ bsrc.drop (wrote + tocpy) = bsrc.drop wrote := by
        rw [hchunk, ← List.drop_drop, List.take_append_drop]
      have hbt : (memcpy s.buf s.pos chunk).take (s.pos + tocpy)
          = s.buf.take s.pos ++ chunk := by
        rw [← hcl]; exact memcpy_take _ _ _ (by omega)
      have hbl2 : (memcpy s.buf s.pos chunk).length = s.cap := by
        rw [memcpy_length _ _ _ (by omega), hbl]
      by_cases hfull : s.pos + tocpy = s.cap
      · simp only [hfull, if_true]
        have hw0 : (_dcs_writebuf plain_sink
            { s with buf := memcpy s.buf s.pos chunk, pos := s.cap, len := s.cap }).2 = 0 := rfl
        simp only [hw0, ne_eq, not_true_eq_false, if_false]
        have := ih (wrote + tocpy) (d ++ chunk) (_dcs_writebuf plain_sink
            { s with buf := memcpy s.buf s.pos chunk, pos := s.cap, len := s.cap }).1
          ?_ (by omega) (by omega)
        · obtain ⟨s1, h1, h2⟩ := this
          refine ⟨s1, h1, ?_⟩
          rw [List.append_assoc, hrest] at h2
          exact h2
        · refine ⟨⟨hr, ?_, rfl, hbl2, hne⟩, hcap, ?_, ?_⟩
          · show 0 < s.cap
            omega
          · intro w hwm
            simp only [_dcs_writebuf, plain_sink, List.mem_append, List.mem_singleton] at hwm
            rcases hwm with hwm | hwm
            · exact hch w hwm
            · rw [hwm, ← hfull, hbt]
              simp [List.length_take, hcl]
              omega
          · simp only [_dcs_writebuf, plain_sink, List.flatten_append, List.take_zero,
              List.append_nil, List.flatten_cons, List.flatten_nil]
            rw [← hfull, hbt, ← List.append_assoc, hco]
      · simp only [hfull, if_false]
        have := ih (wrote + tocpy) (d ++ chunk)
          { s with buf := memcpy s.buf s.pos chunk, pos := s.pos + tocpy,
                   len := s.pos + tocpy }
          ?_ (by omega) (by omega)
        · obtain ⟨s1, h1, h2⟩ := this
          refine ⟨s1, h1, ?_⟩
          rw [List.append_assoc, hrest] at h2
          exact h2
        · refine ⟨⟨hr, ?_, rfl, hbl2, hne⟩, hcap, hch, ?_⟩
          · show s.pos + tocpy < s.cap
            omega
          · show s.compr.flatten ++ (memcpy s.buf s.pos chunk).take (s.pos + tocpy) = _
            rw [hbt, ← List.append_assoc, hco]
    · have hweq : wrote = bsrc.length := by omega
      simp only [hlt2, if_false]
      refine ⟨s, by rw [hweq], ?_⟩
      rw [hweq, List.drop_length, List.append_nil]
      exact ⟨⟨hr, hlt, hlen, hbl, hne⟩, hcap, hch, hco⟩

theorem flatten_length_of_chunks (c : Nat) :
    ∀ (L : List (List Byte)), (∀ w ∈ L, w.length = c) → L.flatten.length = L.length * c := by
  intro L
  induction L with
  | nil => intro _; simp
  | cons x xs ih =>
    intro h
    have hx : x.length = c := h x (by simp)
    have hxs := ih (fun w hw => h w (by simp [hw]))
    simp only [List.flatten_cons, List.length_append, List.length_cons, hx, hxs]
    rw [Nat.add_mul]
    omega

theorem fresh_sink_inv (c : Nat) (hc : 1 ≤ c) :
    sink_inv c [] (fresh_stream ([] : List (List Byte)) false c) := by
  refine ⟨⟨rfl, ?_, rfl, ?_, rfl⟩, rfl, ?_, ?_⟩
  · show 0 < c
    omega
  · simp [fresh_stream, calloc]
  · intro w hw
    simp [fresh_stream] at hw
  · simp [fresh_stream]

theorem write_all_sink (c fuel : Nat) :
    ∀ (ds : List (List Byte)) (d : List Byte) (s : dcs_stream (List (List Byte))),
      sink_inv c d s → (∀ x ∈ ds, x.length < fuel) →
      ∃ s1, write_all plain_sink fuel s ds
          = some (s1, ds.map (fun x => (x.length : Int))) ∧
        sink_inv c (d ++ ds.flatten) s1 := by
  intro ds
  induction ds with
  | nil =>
    intro d s hinv _
    exact ⟨s, rfl, by simpa using hinv⟩
  | cons x xs ih =>
    intro d s hinv hf
    obtain ⟨s1, h1, hinv1⟩ :=
      dcs_write_loop_sink c x fuel 0 d s hinv (by omega) (by
        have := hf x (by simp)
        omega)
    have hw : dcs_write plain_sink fuel s (some x) x.length
        = some (s1, (x.length : Int)) := by
      simp only [dcs_write, hinv.wf.is_write, Bool.false_eq_true, if_false]
      exact h1
    obtain ⟨s2, h2, hinv2⟩ := ih (d ++ x) s1 (by simpa using hinv1)
      (fun y hy => hf y (by simp [hy]))
    refine ⟨s2, ?_, ?_⟩
    · simp only [write_all, hw, h2, List.map_cons]
    · simpa [List.append_assoc] using hinv2

theorem sink_inv_count {c : Nat} {d : List Byte} {s : dcs_stream (List (List Byte))}
    (h : sink_inv c d s) :
    s.compr.length = d.length / c ∧ s.pos = d.length % c ∧
      s.compr.flatten = d.take (c * (d.length / c)) ∧
      s.buf.take s.pos = d.drop (c * (d.length / c)) := by
  obtain ⟨⟨_, hlt, _, hbl, _⟩, hcap, hch, hco⟩ := h
  have hfl := flatten_length_of_chunks c s.compr hch
  have hc : 0 < c := by omega
  have hdl : d.length = s.compr.length * c + s.pos := by
    rw [← hco, List.length_append, hfl, List.length_take]
    omega
  have hdm := (Nat.div_mod_unique (a := d.length) (d := s.compr.length) (c := s.pos) hc).2
    ⟨by rw [hdl, Nat.mul_comm]; omega, by omega⟩
  have hfl2 : s.compr.flatten.length = c * (d.length / c) := by
    rw [hfl, hdm.1, Nat.mul_comm]
  refine ⟨hdm.1.symm, hdm.2.symm, ?_, ?_⟩
  · rw [← hfl2]
    conv_rhs => rw [← hco, List.take_left]
  · rw [← hfl2]
    conv_rhs => rw [← hco, List.drop_left]

theorem dcs_close_sink {c : Nat} {d : List Byte} {s : dcs_stream (List (List Byte))}
    (h : sink_inv c d s) :
    _dcs_close plain_sink s
      = (s.compr ++ (if d.length % c ≠ 0 then [d.drop (c * (d.length / c))] else []), 0) := by
  obtain ⟨_, hpos, _, hbuf⟩ := sink_inv_count h
  have hr := h.wf.is_write
  have hl := h.wf.len_eq
  by_cases hp : s.pos = 0
  · have : d.length % c = 0 := by omega
    simp [_dcs_close, hr, hp, this, plain_sink]
  · have h1 : ¬ d.length % c = 0 := by omega
    have h2 : 0 < s.pos := by omega
    simp [_dcs_close, hr, h2, h1, plain_sink, _dcs_writebuf, hl, hbuf]

/-- C2 (write chunking).  On a fresh write stream of capacity `c ≥ 1` over the
plain transport, `dcs_write` calls with the inputs `ds` (concatenating to `d`)
all return their own size.  When they are done the transport has received
exactly `|d| / c` writes, each of exactly `c` bytes, which concatenate to the
first `c * (|d| / c)` bytes of `d`, and the buffer holds the remaining
`|d| % c` bytes; since this holds for every list of calls, a write is issued as
soon as the buffer reaches `c` bytes.  The close issues one more write, of those
remaining bytes, iff `|d| % c ≠ 0`, and the writes then concatenate to `d`.
For `c = 4` and `d = [1,2,3,4,5]` the writes are `[1,2,3,4]` then `[5]`, and the
buffer holds `[5]` between the write and the close. -/
theorem write_chunking (c : Nat) (hc : 1 ≤ c) (ds : List (List Byte)) (fuel : Nat)
    (hfuel : ∀ x ∈ ds, x.length < fuel) :
    (∃ s, write_all plain_sink fuel (fresh_stream [] false c) ds
          = some (s, ds.map (fun x => (x.length : Int))) ∧
        s.compr.length = ds.flatten.length / c ∧
        (∀ w ∈ s.compr, w.length = c) ∧
        s.compr.flatten = ds.flatten.take (c * (ds.flatten.length / c)) ∧
        s.pos = ds.flatten.length % c ∧
        s.buf.take s.pos = ds.flatten.drop (c * (ds.flatten.length / c)) ∧
        _dcs_close plain_sink s
          = (s.compr ++ (if ds.flatten.length % c ≠ 0
              then [ds.flatten.drop (c * (ds.flatten.length / c))] else []), 0) ∧
        (_dcs_close plain_sink s).1.flatten = ds.flatten) ∧
    (∃ s4, write_all plain_sink 6 (fresh_stream [] false 4) [[1, 2, 3, 4, 5]]
          = some (s4, [5]) ∧
        s4.compr = [[1, 2, 3, 4]] ∧ s4.buf.take s4.pos = [5] ∧
        _dcs_close plain_sink s4 = ([[1, 2, 3, 4], [5]], 0)) := by
  constructor
  · obtain ⟨s, hs, hinv⟩ := write_all_sink c fuel ds [] _ (fresh_sink_inv c hc) hfuel
    rw [List.nil_append] at hinv
    obtain ⟨h1, h2, h3, h4⟩ := sink_inv_count hinv
    have hcl := dcs_close_sink hinv
    refine ⟨s, hs, h1, hinv.chunks, h3, h2, h4, hcl, ?_⟩
    rw [hcl]
    by_cases hm : ds.flatten.length % c = 0
    · have hz : s.pos = 0 := by omega
      have := hinv.content
      simp only [hz, List.take_zero, List.append_nil] at this
      simp only [ne_eq, hm, not_true_eq_false, if_false, List.append_nil]
      exact this
    · have := hinv.content
      rw [h4] at this
      simp only [ne_eq, hm, not_false_eq_true, if_true, List.flatten_append,
        List.flatten_cons, List.flatten_nil, List.append_nil]
      exact this
  · exact ⟨_, rfl, rfl, rfl, rfl⟩

/-- C2 at `c = 4`, one call with `[1,2,3,4,5]`. -/
theorem write_chunking_witness :
    (1 ≤ 4 ∧ ∀ x ∈ [[(1 : Byte), 2, 3, 4, 5]], x.length < 6) ∧
    ∃ s, write_all plain_sink 6 (fresh_stream [] false 4) [[1, 2, 3, 4, 5]]
          = some (s, [5]) ∧
        (_dcs_close plain_sink s).1.flatten = [1, 2, 3, 4, 5] := by
  have hf : ∀ x ∈ [[(1 : Byte), 2, 3, 4, 5]], x.length < 6 := by
    intro x hx
    simp only [List.mem_singleton] at hx
    rw [hx]
    decide
  obtain ⟨⟨s, hs, _, _, _, _, _, _, hcl⟩, _⟩ :=
    write_chunking 4 (by decide) [[1, 2, 3, 4, 5]] 6 hf
  exact ⟨⟨by decide, hf⟩, s, hs, hcl⟩

/-! ## Fill and `dcs_moredata` on a read stream -/

theorem _dcs_fillbuf_eq {T : Type} (tr : Transport T) (s : dcs_stream T)
    (hr : s.read = true) :
    _dcs_fillbuf tr s =
      ({ compr := (tr.dcs_compr_read s.compr s.buf s.len s.cap).1,
         buf := (tr.dcs_compr_read s.compr s.buf s.len s.cap).2.1,
         len := (tr.dcs_compr_read s.compr s.buf s.len s.cap).2.2.1,
         cap := s.cap, pos := 0, prevous_getc := -1,
         fp_eof := s.fp_eof ||
           decide ((tr.dcs_compr_read s.compr s.buf s.len s.cap).2.2.1 < s.cap),
         read := true },
        (tr.dcs_compr_read s.compr s.buf s.len s.cap).2.2.2) := by
  unfold _dcs_fillbuf
  simp only [hr, Bool.not_true, Bool.false_eq_true, if_false]
  split <;> rename_i h <;> simp [h]

theorem dcs_moredata_nofill {T : Type} (tr : Transport T) (s : dcs_stream T)
    (hr : s.read = true) (h : ¬ (s.fp_eof = false ∧ s.pos = s.len)) :
    dcs_moredata tr s = (s, if dcs_eof s then 0 else 1) := by
  unfold dcs_moredata
  rw [hr]
  by_cases hf : s.fp_eof = true
  · simp [hf]
  · have hp : ¬ s.pos = s.len := fun hp => h ⟨by simpa using hf, hp⟩
    simp [hf, hp]

theorem dcs_moredata_fill {T : Type} (tr : Transport T) (s : dcs_stream T)
    (hr : s.read = true) (hf : s.fp_eof = false) (hp : s.pos = s.len) :
    dcs_moredata tr s =
      ((_dcs_fillbuf tr s).1,
        if (_dcs_fillbuf tr s).2 ≠ 0 then -1
        else if dcs_eof (_dcs_fillbuf tr s).1 then 0 else 1) := by
  unfold dcs_moredata
  simp only [hr, hf, hp, Bool.not_true, Bool.not_false, Bool.false_eq_true, if_false,
    beq_self_eq_true, Bool.and_self, if_true, bne_iff_ne, ne_eq]
  split <;> rfl

/-! ## The read side over `plain_source` -/

theorem undelivered_step {s : dcs_stream (List Byte)}
    (h2 : s.len ≤ s.buf.length) (n : Nat) (hn : n ≤ s.len - s.pos) :
    (s.buf.drop s.pos).take n = (undelivered s).take n ∧
      undelivered { s with pos := s.pos + n } = (undelivered s).drop n := by
  have hl : ((s.buf.take s.len).drop s.pos).length = s.len - s.pos := by
    simp [List.length_drop, List.length_take, h2]
  constructor
  · unfold undelivered
    rw [List.take_append_of_le_length (by omega), List.drop_take,
      List.take_take, Nat.min_eq_left hn]
  · unfold undelivered
    rw [List.drop_append_of_le_length (by omega), List.drop_drop]

theorem undelivered_length (s : dcs_stream (List Byte)) (h1 : s.len ≤ s.buf.length) :
    (undelivered s).length = (s.len - s.pos) + s.compr.length := by
  simp [undelivered, List.length_drop, List.length_take, h1]

theorem dcs_moredata_source (s : dcs_stream (List Byte)) (h : source_inv s) :
    source_inv (dcs_moredata plain_source s).1 ∧
      undelivered (dcs_moredata plain_source s).1 = undelivered s ∧
      (dcs_moredata plain_source s).1.cap = s.cap ∧
      (dcs_moredata plain_source s).2 = (if undelivered s = [] then 0 else 1) ∧
      (undelivered s ≠ [] →
        (dcs_moredata plain_source s).1.pos < (dcs_moredata plain_source s).1.len) := by
  obtain ⟨⟨hr, hc, hpl, hlc, hbl⟩, he⟩ := h
  have hulen := undelivered_length s (by omega)
  by_cases hfill : s.fp_eof = false ∧ s.pos = s.len
  · obtain ⟨hf, hp⟩ := hfill
    have hu : undelivered s = s.compr := by
      unfold undelivered
      have : (s.buf.take s.len).drop s.pos = [] :=
        List.drop_eq_nil_of_le (by simp [List.length_take]; omega)
      rw [this, List.nil_append]
    have htl : (s.compr.take s.cap).length ≤ s.cap := by
      simp [List.length_take]
    have hfb : _dcs_fillbuf plain_source s =
        ({ compr := s.compr.drop s.cap, buf := memcpy s.buf 0 (s.compr.take s.cap),
           len := (s.compr.take s.cap).length, cap := s.cap, pos := 0,
           prevous_getc := -1,
           fp_eof := decide ((s.compr.take s.cap).length < s.cap), read := true }, 0) := by
      rw [_dcs_fillbuf_eq plain_source s hr]
      simp only [plain_source, hf, Bool.false_or]
    have hm := dcs_moredata_fill plain_source s hr hf hp
    rw [hfb] at hm
    simp only [ne_eq, not_true_eq_false, if_false] at hm
    rw [hm, hu]
    have hbl2 : (memcpy s.buf 0 (s.compr.take s.cap)).length = s.cap := by
      rw [memcpy_length _ _ _ (by omega), hbl]
    have hbt : (memcpy s.buf 0 (s.compr.take s.cap)).take (s.compr.take s.cap).length
        = s.compr.take s.cap := by
      have := memcpy_take s.buf 0 (s.compr.take s.cap) (by omega)
      simpa using this
    refine ⟨⟨⟨rfl, hc, Nat.zero_le _, htl, hbl2⟩, ?_⟩, ?_, rfl, ?_, ?_⟩
    · intro h1
      have h2 : (s.compr.take s.cap).length < s.cap := by simpa using h1
      exact List.drop_eq_nil_of_le (by
        rw [List.length_take] at h2
        omega)
    · show ((memcpy s.buf 0 (s.compr.take s.cap)).take (s.compr.take s.cap).length).drop 0
        ++ s.compr.drop s.cap = s.compr
      rw [hbt, List.drop_zero, List.take_append_drop]
    · by_cases hnil : s.compr = []
      · simp [dcs_eof, hnil]
        omega
      · have hlp : 0 < s.compr.length := List.length_pos.mpr hnil
        have : ¬ ((s.compr.take s.cap).length < s.cap ∧ 0 = (s.compr.take s.cap).length) := by
          rw [List.length_take]
          omega
        simp only [dcs_eof, hnil, if_false, Bool.and_eq_true, decide_eq_true_eq,
          beq_iff_eq, this]
    · intro hne
      show 0 < (s.compr.take s.cap).length
      rw [List.length_take]
      have : 0 < s.compr.length := List.length_pos.mpr hne
      omega
  · rw [dcs_moredata_nofill plain_source s hr hfill]
    by_cases hp : s.pos = s.len
    · have hf : s.fp_eof = true := by
        cases hfe : s.fp_eof
        · exact absurd ⟨hfe, hp⟩ hfill
        · rfl
      have hu : undelivered s = [] := by
        apply List.length_eq_zero.mp
        rw [hulen, he hf]
        simp
        omega
      refine ⟨⟨⟨hr, hc, hpl, hlc, hbl⟩, he⟩, rfl, rfl, ?_, ?_⟩
      · simp [dcs_eof, hf, hp, hu]
      · intro hne
        exact absurd hu hne
    · have hu : undelivered s ≠ [] := by
        intro h0
        have := congrArg List.length h0
        rw [hulen] at this
        simp at this
        omega
      refine ⟨⟨⟨hr, hc, hpl, hlc, hbl⟩, he⟩, rfl, rfl, ?_, ?_⟩
      · simp [dcs_eof, hp, hu]
      · intro _
        show s.pos < s.len
        omega

theorem memcpy_nil (dst : List Byte) (off : Nat) : memcpy dst off [] = dst := by
  simp [memcpy]

theorem dcs_read_loop_source (size : Nat) :
    ∀ (fuel : Nat) (s : dcs_stream (List Byte)) (bdest : List Byte) (read : Nat),
      source_inv s → read ≤ size → size ≤ bdest.length → (size - read) + 2 ≤ fuel →
      ∃ s1, dcs_read_loop plain_source size fuel s bdest read
          = some (s1, memcpy bdest read ((undelivered s).take (size - read)),
              read + min (size - read) (undelivered s).length) ∧
        source_inv s1 ∧ undelivered s1 = (undelivered s).drop (size - read) ∧
        s1.cap = s.cap := by
  intro fuel
  induction fuel with
  | zero => intro s bdest read _ _ _ h; omega
  | succ fuel ih =>
    intro s bdest read hinv hrs hbd hf
    unfold dcs_read_loop
    by_cases hlt : read < size
    · simp only [hlt, if_true]
      obtain ⟨hinv1, hu1, hcap1, hm2, hpl⟩ := dcs_moredata_source s hinv
      by_cases hnil : undelivered s = []
      · rw [hm2]
        simp only [hnil, if_true, ne_eq, not_true_eq_false, if_false, List.take_nil,
          List.length_nil, Nat.min_zero, Nat.add_zero, memcpy_nil, List.drop_nil]
        exact ⟨_, rfl, hinv1, by rw [hu1, hnil], hcap1⟩
      · rw [hm2]
        simp only [hnil, if_false, ne_eq, one_ne_zero, not_false_eq_true, if_true]
        have hpl1 := hpl hnil
        set m := (dcs_moredata plain_source s).1 with hmdef
        have hwf := hinv1.wf
        rw [size_sub_of_le hwf.pos_le, dcs_size_min_eq]
        set tocpy := min (m.len - m.pos) (size - read) with htc
        have htpos : 1 ≤ tocpy := by omega
        obtain ⟨hch, hud⟩ := undelivered_step (s := m)
          (by rw [hwf.buf_len]; exact hwf.len_le) tocpy (by omega)
        rw [hu1] at hch hud
        have hul := undelivered_length m (by rw [hwf.buf_len]; exact hwf.len_le)
        rw [hu1] at hul
        have hinv2 : source_inv { m with pos := m.pos + tocpy } := by
          refine ⟨⟨hwf.is_read, hwf.cap_pos, ?_, hwf.len_le, hwf.buf_len⟩, hinv1.eof_rest⟩
          show m.pos + tocpy ≤ m.len
          omega
        obtain ⟨s1, h1, h2, h3, h4⟩ := ih { m with pos := m.pos + tocpy }
          (memcpy bdest read ((m.buf.drop m.pos).take tocpy)) (read + tocpy) hinv2
          (by omega) (by
            rw [memcpy_length]
            · exact hbd
            · simp only [List.length_take, List.length_drop]
              omega) (by omega)
        refine ⟨s1, ?_, h2, ?_, ?_⟩
        · rw [h1, hud, hch]
          have hcl : ((undelivered s).take tocpy).length = tocpy := by
            rw [List.length_take]
            omega
          have e1 : memcpy (memcpy bdest read ((undelivered s).take tocpy)) (read + tocpy)
                (((undelivered s).drop tocpy).take (size - (read + tocpy)))
              = memcpy bdest read ((undelivered s).take (size - read)) := by
            have := memcpy_append bdest read ((undelivered s).take tocpy)
              (((undelivered s).drop tocpy).take (size - (read + tocpy)))
              (by rw [hcl]; omega)
            rw [hcl] at this
            rw [this, ← List.take_add]
            congr 2
            omega
          have e2 : read + tocpy
                + min (size - (read + tocpy)) ((undelivered s).drop tocpy).length
              = read + min (size - read) (undelivered s).length := by
            rw [List.length_drop]
            omega
          rw [e1, e2]
        · rw [h3, hud, List.drop_drop]
          congr 1
          omega
        · rw [h4]
          exact hcap1
    · have he : size - read = 0 := by omega
      simp only [hlt, if_false, he, List.take_zero, memcpy_nil, Nat.zero_min, Nat.add_zero,
        List.drop_zero]
      exact ⟨s, rfl, hinv, rfl, rfl⟩

theorem fresh_source_inv (d : List Byte) (c : Nat) (hc : 1 ≤ c) :
    source_inv (fresh_stream d true c) ∧ undelivered (fresh_stream d true c) = d := by
  refine ⟨⟨⟨rfl, hc, Nat.le_refl _, Nat.zero_le _, ?_⟩, ?_⟩, ?_⟩
  · simp [fresh_stream, calloc]
  · intro h
    simp [fresh_stream] at h
  · simp [undelivered, fresh_stream]

theorem dcs_read_source (s : dcs_stream (List Byte)) (hs : source_inv s)
    (dst : List Byte) (size fuel : Nat) (hd : size ≤ dst.length)
    (hfuel : size + 2 ≤ fuel) :
    ∃ s1 dst1, dcs_read plain_source fuel s (some dst) size
        = some (s1, some dst1, ((min size (undelivered s).length : Nat) : Int)) ∧
      dst1.take (min size (undelivered s).length)
        = (undelivered s).take (min size (undelivered s).length) ∧
      dst1.drop (min size (undelivered s).length)
        = dst.drop (min size (undelivered s).length) ∧
      undelivered s1 = (undelivered s).drop (min size (undelivered s).length) ∧
      source_inv s1 ∧ s1.cap = s.cap := by
  obtain ⟨s1, h1, h2, h3, h4⟩ :=
    dcs_read_loop_source size fuel s dst 0 hs (Nat.zero_le _) hd (by omega)
  have hr := hs.wf.is_read
  simp only [Nat.sub_zero, Nat.zero_add] at h1 h3
  have htk : (undelivered s).take size
      = (undelivered s).take (min size (undelivered s).length) := by
    rw [← List.take_take, List.take_length]
  have hlen : ((undelivered s).take size).length = min size (undelivered s).length := by
    rw [List.length_take]
  have hdr : (undelivered s).drop size
      = (undelivered s).drop (min size (undelivered s).length) := by
    rcases Nat.le_total size (undelivered s).length with h | h
    · rw [Nat.min_eq_left h]
    · rw [Nat.min_eq_right h, List.drop_eq_nil_of_le h, List.drop_length]
  refine ⟨{ s1 with prevous_getc := -1 },
    memcpy dst 0 ((undelivered s).take size), ?_, ?_, ?_, ?_, ?_, h4⟩
  · simp only [dcs_read, hr, Bool.not_true, Bool.false_eq_true, if_false, h1]
  · have := memcpy_take dst 0 ((undelivered s).take size) (Nat.zero_le _)
    rw [Nat.zero_add, hlen, List.take_zero, List.nil_append] at this
    rw [this, htk]
  · unfold memcpy
    rw [List.take_zero, List.nil_append, Nat.zero_add, ← hlen, List.drop_left]
  · show (s1.buf.take s1.len).drop s1.pos ++ s1.compr = _
    rw [← hdr, ← h3]
    rfl
  · exact ⟨⟨h2.wf.is_read, h2.wf.cap_pos, h2.wf.pos_le, h2.wf.len_le, h2.wf.buf_len⟩,
      h2.eof_rest⟩

/-- C3 (bulk read).  For a read stream of capacity at least 1 over the plain
source transport, with `u` the source bytes not yet delivered to the caller,
`dcs_read` of `size` bytes into a destination of at least `size` bytes returns
`min size |u|`, the destination then starts with exactly the next `min size |u|`
bytes of `u` and is unchanged after them, the undelivered bytes of the stream
are the rest of `u` (so successive calls deliver consecutive, non-overlapping
slices), and the result is `0` exactly when `size = 0` or `u` is empty. -/
theorem bulk_read_correct (s : dcs_stream (List Byte)) (hs : source_inv s)
    (dst : List Byte) (size fuel : Nat) (hd : size ≤ dst.length)
    (hfuel : size + 2 ≤ fuel) :
    ∃ (s1 : dcs_stream (List Byte)) (dst1 : List Byte) (ret : Nat),
      dcs_read plain_source fuel s (some dst) size
        = some (s1, some dst1, (ret : Int)) ∧
      ret = min size (undelivered s).length ∧
      dst1.take ret = (undelivered s).take ret ∧
      dst1.drop ret = dst.drop ret ∧
      undelivered s1 = (undelivered s).drop ret ∧
      source_inv s1 ∧ s1.cap = s.cap ∧
      (ret = 0 ↔ size = 0 ∨ undelivered s = []) := by
  obtain ⟨s1, dst1, h1, h2, h3, h4, h5, h6⟩ := dcs_read_source s hs dst size fuel hd hfuel
  refine ⟨s1, dst1, _, h1, rfl, h2, h3, h4, h5, h6, ?_⟩
  rw [← List.length_eq_zero]
  omega

/-- C3 on a fresh stream of capacity 2 over the source `[7, 8, 9]`, reading 2
bytes. -/
theorem bulk_read_correct_witness :
    (source_inv (fresh_stream [7, 8, 9] true 2) ∧ 2 ≤ [(0 : Byte), 0].length ∧ 2 + 2 ≤ 4) ∧
    ∃ (s1 : dcs_stream (List Byte)) (dst1 : List Byte) (ret : Nat),
      dcs_read plain_source 4 (fresh_stream [7, 8, 9] true 2) (some [0, 0]) 2
        = some (s1, some dst1, (ret : Int)) ∧
      ret = min 2 (undelivered (fresh_stream [7, 8, 9] true 2)).length ∧
      dst1.take ret = (undelivered (fresh_stream [7, 8, 9] true 2)).take ret := by
  have hs := (fresh_source_inv [7, 8, 9] 2 (by decide)).1
  obtain ⟨s1, dst1, ret, h1, h2, h3, _⟩ :=
    bulk_read_correct (fresh_stream [7, 8, 9] true 2) hs [0, 0] 2 4 (by decide) (by decide)
  exact ⟨⟨hs, by decide, by decide⟩, s1, dst1, ret, h1, h2, h3⟩

/-- C1 (round trip).  For every byte sequence `d`, every way `ds` of splitting it
into successive `dcs_write` calls and all capacities `cw ≥ 1`, `cr ≥ 1`: writing
`ds` to a fresh write stream of capacity `cw` over the plain transport and
closing it succeeds and leaves the transport holding exactly `d`; a `dcs_read`
of `|d|` bytes on a fresh read stream of capacity `cr` over that content returns
`|d|` and delivers exactly `d`; and a further `dcs_read`, of any size `n`,
returns `0` and copies nothing. -/
theorem round_trip (cw cr : Nat) (hcw : 1 ≤ cw) (hcr : 1 ≤ cr) (ds : List (List Byte))
    (fuel : Nat) (hfuel : ∀ x ∈ ds, x.length < fuel)
    (hfuel2 : ds.flatten.length + 2 ≤ fuel)
    (dst : List Byte) (hdst : dst.length = ds.flatten.length)
    (dst2 : List Byte) (n : Nat) (hn : n ≤ dst2.length) (hfuel3 : n + 2 ≤ fuel) :
    ∃ sw rets, write_all plain_sink fuel (fresh_stream [] false cw) ds = some (sw, rets) ∧
      (_dcs_close plain_sink sw).1.flatten = ds.flatten ∧
      (_dcs_close plain_sink sw).2 = 0 ∧
      ∃ sr, dcs_read plain_source fuel
            (fresh_stream (_dcs_close plain_sink sw).1.flatten true cr) (some dst)
            ds.flatten.length
          = some (sr, some ds.flatten, (ds.flatten.length : Int)) ∧
        ∃ sr2, dcs_read plain_source fuel sr (some dst2) n = some (sr2, some dst2, 0) := by
  obtain ⟨sw, hw, hinv⟩ := write_all_sink cw fuel ds [] _ (fresh_sink_inv cw hcw) hfuel
  rw [List.nil_append] at hinv
  have hcl := dcs_close_sink hinv
  obtain ⟨_, hpos, hfl, hbuf⟩ := sink_inv_count hinv
  have hcontent : (_dcs_close plain_sink sw).1.flatten = ds.flatten := by
    rw [hcl]
    have hco := hinv.content
    by_cases hm : ds.flatten.length % cw = 0
    · have hz : sw.pos = 0 := by omega
      simp only [hz, List.take_zero, List.append_nil] at hco
      simp only [ne_eq, hm, not_true_eq_false, if_false, List.append_nil]
      exact hco
    · rw [hbuf] at hco
      simp only [ne_eq, hm, not_false_eq_true, if_true, List.flatten_append,
        List.flatten_cons, List.flatten_nil, List.append_nil]
      exact hco
  refine ⟨sw, _, hw, hcontent, by rw [hcl], ?_⟩
  rw [hcontent]
  obtain ⟨hfs, hfu⟩ := fresh_source_inv ds.flatten cr hcr
  obtain ⟨sr, dst1, h1, h2, h3, h4, h5, _⟩ :=
    dcs_read_source _ hfs dst ds.flatten.length fuel (by omega) hfuel2
  rw [hfu, Nat.min_self] at h1 h2 h3 h4
  have hd1 : dst1 = ds.flatten := by
    rw [← List.take_append_drop ds.flatten.length dst1, h2, h3, List.take_length,
      List.drop_eq_nil_of_le (by omega), List.append_nil]
  rw [hd1] at h1
  rw [List.drop_length] at h4
  obtain ⟨sr2, dst3, g1, g2, g3, _⟩ := dcs_read_source sr h5 dst2 n fuel hn hfuel3
  rw [h4] at g1 g2 g3
  simp only [List.length_nil, Nat.min_zero, List.take_zero, List.drop_zero] at g1 g2 g3
  rw [g3] at g1
  exact ⟨sr, h1, sr2, g1⟩

/-- C1 at `cw = 2`, `cr = 3`, with `[1, 2, 3]` written as `[1]` then `[2, 3]`. -/
theorem round_trip_witness :
    (1 ≤ 2 ∧ 1 ≤ 3 ∧ (∀ x ∈ [[(1 : Byte)], [2, 3]], x.length < 5) ∧
      [[(1 : Byte)], [2, 3]].flatten.length + 2 ≤ 5 ∧
      [(0 : Byte), 0, 0].length = [[(1 : Byte)], [2, 3]].flatten.length ∧
      1 ≤ [(0 : Byte)].length ∧ 1 + 2 ≤ 5) ∧
    ∃ sw rets, write_all plain_sink 5 (fresh_stream [] false 2) [[1], [2, 3]]
        = some (sw, rets) ∧
      (_dcs_close plain_sink sw).1.flatten = [1, 2, 3] ∧
      (_dcs_close plain_sink sw).2 = 0 ∧
      ∃ sr, dcs_read plain_source 5
            (fresh_stream (_dcs_close plain_sink sw).1.flatten true 3) (some [0, 0, 0]) 3
          = some (sr, some [1, 2, 3], 3) ∧
        ∃ sr2, dcs_read plain_source 5 sr (some [0]) 1 = some (sr2, some [0], 0) := by
  have hf : ∀ x ∈ [[(1 : Byte)], [2, 3]], x.length < 5 := by
    intro x hx
    simp only [List.mem_cons, List.mem_singleton, List.mem_nil_iff, or_false] at hx
    rcases hx with hx | hx <;> rw [hx] <;> decide
  exact ⟨⟨by decide, by decide, hf, by decide, by decide, by decide, by decide⟩,
    round_trip 2 3 (by decide) (by decide) [[1], [2, 3]] 5 hf (by decide)
      [0, 0, 0] (by decide) [0] 1 (by decide) (by decide)⟩

/-! ## The delimiter scan over `plain_source` -/

theorem memchr_some (d : Byte) :
    ∀ (b rest : List Byte) (i : Nat), memchr b d = some i →
      i < b.length ∧ span_until d (b ++ rest) = b.take (i + 1) := by
  intro b
  induction b with
  | nil => intro rest i h; simp [memchr] at h
  | cons x xs ih =>
    intro rest i h
    unfold memchr at h
    by_cases hx : x = d
    · simp only [hx, if_true, Option.some.injEq] at h
      subst h
      simp [span_until, hx]
    · simp only [hx, if_false, Option.map_eq_some'] at h
      obtain ⟨j, hj, hji⟩ := h
      obtain ⟨h1, h2⟩ := ih rest j hj
      subst hji
      simp [span_until, hx, h2, h1]

theorem memchr_none (d : Byte) :
    ∀ (b rest : List Byte), memchr b d = none →
      d ∉ b ∧ span_until d (b ++ rest) = b ++ span_until d rest := by
  intro b
  induction b with
  | nil => intro rest _; simp
  | cons x xs ih =>
    intro rest h
    unfold memchr at h
    by_cases hx : x = d
    · simp [hx] at h
    · simp only [hx, if_false, Option.map_eq_none'] at h
      obtain ⟨h1, h2⟩ := ih rest h
      refine ⟨?_, ?_⟩
      · simp only [List.mem_cons, not_or]
        exact ⟨fun h0 => hx h0.symm, h1⟩
      · simp [span_until, hx, h2]

theorem span_until_spec (d : Byte) :
    ∀ (u : List Byte), ∃ n, span_until d u = u.take n ∧ n ≤ u.length ∧
      ((d ∉ u ∧ n = u.length) ∨ (1 ≤ n ∧ u[n - 1]? = some d ∧ d ∉ u.take (n - 1))) := by
  intro u
  induction u with
  | nil => exact ⟨0, by simp [span_until]⟩
  | cons x xs ih =>
    obtain ⟨n, h1, h2, h3⟩ := ih
    by_cases hx : x = d
    · refine ⟨1, by simp [span_until, hx], by simp, Or.inr ⟨Nat.le_refl _, by simp [hx], by simp⟩⟩
    · refine ⟨n + 1, by simp [span_until, hx, h1], by simp; omega, ?_⟩
      rcases h3 with ⟨h4, h5⟩ | ⟨h4, h5, h6⟩
      · left
        refine ⟨?_, by simp [h5]⟩
        simp only [List.mem_cons, not_or]
        exact ⟨fun h0 => hx h0.symm, h4⟩
      · right
        refine ⟨by omega, ?_, ?_⟩
        · have : n + 1 - 1 = (n - 1) + 1 := by omega
          rw [this, List.getElem?_cons_succ]
          exact h5
        · have : n + 1 - 1 = (n - 1) + 1 := by omega
          rw [this, List.take_succ_cons]
          simp only [List.mem_cons, not_or]
          exact ⟨fun h0 => hx h0.symm, h6⟩

theorem realloc_grow (out : Option (List Byte)) (n : Nat) (h : (out.getD []).length ≤ n) :
    (realloc out n).length = n ∧
      ∀ k, k ≤ (out.getD []).length → (realloc out n).take k = (out.getD []).take k := by
  unfold realloc
  rw [List.take_of_length_le h]
  refine ⟨by simp; omega, ?_⟩
  intro k hk
  rw [List.take_append_of_le_length hk]

theorem grow_size (outsize : Nat) (h : 2 * outsize ≤ PTRDIFF_MAX) :
    outsize < (if outsize < 64 then 64 else (outsize * 2) % 2 ^ SIZE_BITS) ∧
      (if outsize < 64 then 64 else (outsize * 2) % 2 ^ SIZE_BITS) ≤ PTRDIFF_MAX := by
  simp only [PTRDIFF_MAX, SIZE_BITS] at h ⊢
  split <;> omega

theorem dcs_getuntil_grow_some (alloc_ok : Nat → Bool) (hal : ∀ n, alloc_ok n = true)
    (need outpos : Nat) (hB : 2 * (need + outpos) ≤ PTRDIFF_MAX) :
    ∀ (fuel : Nat) (o : List Byte) (outsize : Nat),
      o.length = outsize → outpos ≤ outsize → (need + outpos - outsize) + 1 ≤ fuel →
      ∃ o1 outsize1, dcs_getuntil_grow alloc_ok need outpos fuel (some o) outsize
          = some (some o1, outsize1, true) ∧
        o1.length = outsize1 ∧ outpos + need ≤ outsize1 ∧
        o1.take outpos = o.take outpos ∧ outsize ≤ outsize1 := by
  intro fuel
  induction fuel with
  | zero => intro o outsize _ _ h; omega
  | succ fuel ih =>
    intro o outsize hlen hle hf
    unfold dcs_getuntil_grow
    rw [size_sub_of_le hle]
    by_cases hc : need > outsize - outpos
    · obtain ⟨hgt, hmax⟩ := grow_size outsize (by omega)
      simp only [hc, or_true, if_true, realloc_ok, hal, Bool.true_and, hmax, decide_True,
        Bool.not_true, Bool.false_eq_true, if_false]
      set outsize1 := (if outsize < 64 then 64 else (outsize * 2) % 2 ^ SIZE_BITS) with ho1
      obtain ⟨hrl, hrt⟩ := realloc_grow (some o) outsize1 (by
        simp only [Option.getD_some]
        omega)
      obtain ⟨o1, os1, h1, h2, h3, h4, h5⟩ := ih (realloc (some o) outsize1) outsize1 hrl
        (by omega) (by omega)
      refine ⟨o1, os1, h1, h2, h3, ?_, by omega⟩
      rw [h4]
      exact hrt outpos (by simp only [Option.getD_some]; omega)
    · simp only [hc, or_false, reduceCtorEq, if_false]
      exact ⟨o, outsize, rfl, hlen, by omega, rfl, Nat.le_refl _⟩

theorem dcs_getuntil_grow_ok (alloc_ok : Nat → Bool) (hal : ∀ n, alloc_ok n = true)
    (need outpos fuel : Nat) (out : Option (List Byte)) (outsize : Nat)
    (hok : dest_ok out outsize outpos) (hnone : out = none → 2 * outsize ≤ PTRDIFF_MAX)
    (hB : 2 * (need + outpos) ≤ PTRDIFF_MAX) (hf : (need + outpos - outsize) + 2 ≤ fuel) :
    ∃ o1 outsize1, dcs_getuntil_grow alloc_ok need outpos fuel out outsize
        = some (some o1, outsize1, true) ∧
      o1.length = outsize1 ∧ outpos + need ≤ outsize1 ∧
      o1.take outpos = (out.getD []).take outpos ∧ outsize ≤ outsize1 := by
  cases out with
  | some o =>
    obtain ⟨h1, h2⟩ := hok
    exact dcs_getuntil_grow_some alloc_ok hal need outpos hB fuel o outsize h1 h2 (by omega)
  | none =>
    have hz : outpos = 0 := hok
    obtain ⟨fuel1, rfl⟩ : ∃ f, fuel = f + 1 := ⟨fuel - 1, by omega⟩
    unfold dcs_getuntil_grow
    obtain ⟨hgt, hmax⟩ := grow_size outsize (hnone rfl)
    simp only [true_or, if_true, realloc_ok, hal, Bool.true_and, hmax, decide_True,
      Bool.not_true, Bool.false_eq_true, if_false]
    set outsize1 := (if outsize < 64 then 64 else (outsize * 2) % 2 ^ SIZE_BITS) with ho1
    obtain ⟨hrl, _⟩ := realloc_grow none outsize1 (by simp)
    obtain ⟨o1, os1, h1, h2, h3, _, h5⟩ := dcs_getuntil_grow_some alloc_ok hal need outpos hB
      fuel1 (realloc none outsize1) outsize1 hrl (by omega) (by omega)
    refine ⟨o1, os1, h1, h2, h3, ?_, by omega⟩
    rw [hz]
    simp

theorem take_set_self (a : Byte) : ∀ (l : List Byte) (n : Nat), (l.set n a).take n = l.take n := by
  intro l
  induction l with
  | nil => intro n; simp
  | cons x xs ih =>
    intro n
    cases n with
    | zero => simp
    | succ k => simp [List.set_cons_succ, ih k]

theorem getuntil_copy (o1 : List Byte) (outpos : Nat) (chunk : List Byte)
    (h : outpos + chunk.length ≤ o1.length) :
    ((((memcpy o1 outpos chunk).take o1.length).set (outpos + chunk.length) 0).take
        (outpos + chunk.length) = o1.take outpos ++ chunk) ∧
      (((memcpy o1 outpos chunk).take o1.length).set (outpos + chunk.length) 0).length
        = o1.length := by
  have hl := memcpy_length o1 outpos chunk h
  have ht : (memcpy o1 outpos chunk).take o1.length = memcpy o1 outpos chunk :=
    List.take_of_length_le (by omega)
  rw [ht]
  constructor
  · rw [take_set_self, memcpy_take _ _ _ (by omega)]
  · rw [List.length_set, hl]

theorem dcs_getuntil_loop_source (alloc_ok : Nat → Bool) (hal : ∀ n, alloc_ok n = true)
    (delim : Byte) (gfuel : Nat) :
    ∀ (fuel : Nat) (s : dcs_stream (List Byte)) (out : Option (List Byte))
      (outsize outpos : Nat) (overrun : Bool),
      source_inv s → dest_ok out outsize outpos →
      (out = none → 2 * outsize ≤ PTRDIFF_MAX) →
      2 * (outpos + (span_until delim (undelivered s)).length) ≤ PTRDIFF_MAX →
      (undelivered s).length + 2 ≤ fuel → outpos + (undelivered s).length + 2 ≤ gfuel →
      ∃ r, dcs_getuntil_loop plain_source alloc_ok delim gfuel fuel s out outsize outpos false
          overrun = some r ∧
        r.ret = ((outpos + (span_until delim (undelivered s)).length : Nat) : Int) ∧
        (r.dest.getD []).take (outpos + (span_until delim (undelivered s)).length)
          = (out.getD []).take outpos ++ span_until delim (undelivered s) ∧
        undelivered r.stream
          = (undelivered s).drop (span_until delim (undelivered s)).length ∧
        source_inv r.stream ∧ outsize ≤ r.size ∧ r.stream.cap = s.cap ∧
        dest_ok r.dest r.size (outpos + (span_until delim (undelivered s)).length) ∧
        (r.overrun = false → overrun = false ∧
          (outpos + (span_until delim (undelivered s)).length < r.size ∨
            ((span_until delim (undelivered s)).length = 0 ∧ r.size = outsize))) := by
  intro fuel
  induction fuel with
  | zero => intro s out outsize outpos overrun _ _ _ _ h; omega
  | succ fuel ih =>
    intro s out outsize outpos overrun hinv hok hnone hB hf hg
    unfold dcs_getuntil_loop
    simp only [Bool.false_eq_true, if_false]
    obtain ⟨hinv1, hu1, hcap1, hm2, hpl⟩ := dcs_moredata_source s hinv
    by_cases hnil : undelivered s = []
    · rw [hm2]
      simp only [hnil, if_true, span_until, List.length_nil, Nat.add_zero, List.append_nil,
        List.drop_nil]
      refine ⟨_, rfl, rfl, rfl, by rw [hu1, hnil], hinv1, Nat.le_refl _, hcap1, hok, ?_⟩
      intro h0
      exact ⟨h0, Or.inr ⟨trivial, rfl⟩⟩
    · rw [hm2]
      simp only [hnil, if_false, one_ne_zero]
      have hpl1 := hpl hnil
      set m := (dcs_moredata plain_source s).1 with hmdef
      have hwf := hinv1.wf
      have hbl : m.len ≤ m.buf.length := by rw [hwf.buf_len]; exact hwf.len_le
      rw [size_sub_of_le hwf.pos_le]
      have hul := undelivered_length m hbl
      rw [hu1] at hul
      obtain ⟨hb, _⟩ := undelivered_step (s := m) hbl (m.len - m.pos) (Nat.le_refl _)
      rw [hu1] at hb
      have hsplit : undelivered s
          = (m.buf.drop m.pos).take (m.len - m.pos) ++ (undelivered s).drop (m.len - m.pos) := by
        rw [hb, List.take_append_drop]
      have hblen : ((m.buf.drop m.pos).take (m.len - m.pos)).length = m.len - m.pos := by
        rw [hb, List.length_take]
        omega
      cases hmc : memchr ((m.buf.drop m.pos).take (m.len - m.pos)) delim with
      | some i =>
        obtain ⟨hi, hsp⟩ := memchr_some delim _ ((undelivered s).drop (m.len - m.pos)) i hmc
        rw [← hsplit] at hsp
        rw [hblen] at hi
        rw [hb, List.take_take, Nat.min_eq_left (by omega)] at hsp
        have hspl : (span_until delim (undelivered s)).length = i + 1 := by
          rw [hsp, List.length_take]
          omega
        obtain ⟨hch, hud⟩ := undelivered_step (s := m) hbl (i + 1) (by omega)
        rw [hu1] at hch hud
        obtain ⟨o1, os1, hg1, hg2, hg3, hg4, hg5⟩ := dcs_getuntil_grow_ok alloc_ok hal (i + 1)
          outpos gfuel out outsize hok hnone (by omega) (by omega)
        simp only [hg1, Option.getD_some, Option.isSome_some]
        obtain ⟨fuel1, rfl⟩ : ∃ f, fuel = f + 1 := ⟨fuel - 1, by omega⟩
        unfold dcs_getuntil_loop
        simp only [if_true]
        have hcl : ((undelivered s).take (i + 1)).length = i + 1 := by
          rw [List.length_take]
          omega
        obtain ⟨hc1, hc2⟩ := getuntil_copy o1 outpos ((undelivered s).take (i + 1))
          (by rw [hcl]; omega)
        rw [hcl] at hc1 hc2
        refine ⟨_, rfl, ?_, ?_, ?_, ?_, by simpa using hg5, hcap1, ?_, ?_⟩
        · simp only [hspl]
        · rw [hspl, hsp]
          simp only [Option.getD_some, hch, hc1, hg4]
        · simp only [hspl]
          exact hud
        · refine ⟨⟨hwf.is_read, hwf.cap_pos, ?_, hwf.len_le, hwf.buf_len⟩, hinv1.eof_rest⟩
          show m.pos + (i + 1) ≤ m.len
          omega
        · show (_ : List Byte).length = os1 ∧ _ ≤ os1
          refine ⟨?_, by omega⟩
          rw [hch, hc2, hg2]
        · intro h0
          have h0 : (overrun || decide (o1.length ≤ outpos + (i + 1))) = false := h0
          simp only [Bool.or_eq_false_iff, decide_eq_false_iff_not] at h0
          refine ⟨h0.1, Or.inl ?_⟩
          show outpos + (span_until delim (undelivered s)).length < os1
          omega
      | none =>
        obtain ⟨_, hsp⟩ := memchr_none delim _ ((undelivered s).drop (m.len - m.pos)) hmc
        rw [← hsplit, hb] at hsp
        have hcl : ((undelivered s).take (m.len - m.pos)).length = m.len - m.pos := by
          rw [List.length_take]
          omega
        have hspl : (span_until delim (undelivered s)).length
            = (m.len - m.pos)
              + (span_until delim ((undelivered s).drop (m.len - m.pos))).length := by
          rw [hsp, List.length_append, hcl]
        obtain ⟨hch, hud⟩ := undelivered_step (s := m) hbl (m.len - m.pos) (Nat.le_refl _)
        rw [hu1] at hch hud
        obtain ⟨o1, os1, hg1, hg2, hg3, hg4, hg5⟩ := dcs_getuntil_grow_ok alloc_ok hal
          (m.len - m.pos) outpos gfuel out outsize hok hnone (by omega) (by omega)
        simp only [hg1, Option.getD_some, Option.isSome_none]
        obtain ⟨hc1, hc2⟩ := getuntil_copy o1 outpos ((undelivered s).take (m.len - m.pos))
          (by rw [hcl]; omega)
        rw [hcl] at hc1 hc2
        have hinv2 : source_inv { m with pos := m.pos + (m.len - m.pos) } := by
          refine ⟨⟨hwf.is_read, hwf.cap_pos, ?_, hwf.len_le, hwf.buf_len⟩, hinv1.eof_rest⟩
          show m.pos + (m.len - m.pos) ≤ m.len
          omega
        have hok2 : dest_ok (some ((((memcpy o1 outpos
            ((m.buf.drop m.pos).take (m.len - m.pos))).take o1.length).set
              (outpos + (m.len - m.pos)) 0))) os1 (outpos + (m.len - m.pos)) := by
          rw [hch]
          exact ⟨by rw [hc2, hg2], hg3⟩
        obtain ⟨r, hr1, hr2, hr3, hr4, hr5, hr6, hr7, hr8, hr9⟩ := ih _ _ os1
          (outpos + (m.len - m.pos)) (overrun || decide (o1.length ≤ outpos + (m.len - m.pos)))
          hinv2 hok2 (fun h => by simp at h)
          (by rw [hud]; omega)
          (by rw [hud, List.length_drop]; omega)
          (by rw [hud, List.length_drop]; omega)
        rw [hud] at hr2 hr3 hr4 hr8 hr9
        refine ⟨r, hr1, ?_, ?_, ?_, hr5, by omega, by rw [hr7]; exact hcap1, ?_, ?_⟩
        · rw [hr2, hspl]
          congr 1
          omega
        · rw [hspl, ← Nat.add_assoc, hr3, hsp]
          simp only [Option.getD_some, hch, hc1, hg4, List.append_assoc]
        · rw [hr4, List.drop_drop, hspl]
        · rw [hspl, ← Nat.add_assoc]
          exact hr8
        · intro h0
          obtain ⟨h1, h2⟩ := hr9 h0
          simp only [Bool.or_eq_false_iff, decide_eq_false_iff_not] at h1
          refine ⟨h1.1, Or.inl ?_⟩
          rcases h2 with h2 | ⟨h2, h3⟩
          · omega
          · omega

/-- The delimiter scan on the calls that stay inside the destination.  For a read
stream of any capacity at least 1 over the plain source, with `u` the undelivered
bytes, any delimiter and any initial destination (a block of `size` bytes, or the
null pointer), when the allocator grants every size up to `PTRDIFF_MAX` and twice
the span is at most that: `dcs_getuntil` returns, and if none of its stores went
outside the destination block, it returns `n`, the destination is a block of
`*size` bytes that starts with the first `n` bytes of `u`, with `n < *size` when
a byte was copied, and the stream continues with the byte right after them; those
`n` bytes are `span_until delim u`, which ends with the first delimiter of `u` or
is all of `u`, and depends on `u` only. -/
theorem dcs_getuntil_span (alloc_ok : Nat → Bool) (hal : ∀ n, alloc_ok n = true)
    (s : dcs_stream (List Byte)) (hs : source_inv s) (delim : Byte)
    (dest : Option (List Byte)) (size : Nat) (hdest : dest_ok dest size 0)
    (hsize : dest = none → 2 * size ≤ PTRDIFF_MAX)
    (hspan : 2 * (span_until delim (undelivered s)).length ≤ PTRDIFF_MAX)
    (fuel : Nat) (hfuel : (undelivered s).length + 2 ≤ fuel) :
    ∃ (r : getuntil_result (List Byte)) (n : Nat),
      dcs_getuntil plain_source alloc_ok fuel s dest size delim = some r ∧
      n = (span_until delim (undelivered s)).length ∧
      span_until delim (undelivered s) = (undelivered s).take n ∧
      n ≤ (undelivered s).length ∧
      ((delim ∉ undelivered s ∧ n = (undelivered s).length) ∨
        (1 ≤ n ∧ (undelivered s)[n - 1]? = some delim ∧
          delim ∉ (undelivered s).take (n - 1))) ∧
      (r.overrun = false →
        r.ret = (n : Int) ∧ (r.dest.getD []).take n = span_until delim (undelivered s) ∧
        dest_ok r.dest r.size n ∧ (1 ≤ n → n < r.size) ∧
        undelivered r.stream = (undelivered s).drop n ∧
        source_inv r.stream ∧ r.stream.cap = s.cap ∧ size ≤ r.size) := by
  obtain ⟨r, h1, h2, h3, h4, h5, h6, h7, h8, h9⟩ := dcs_getuntil_loop_source alloc_ok hal delim
    fuel fuel s dest size 0 false hs hdest hsize (by omega) hfuel (by omega)
  simp only [Nat.zero_add, List.take_zero, List.nil_append] at h2 h3 h8 h9
  obtain ⟨k, hk1, hk2, hk3⟩ := span_until_spec delim (undelivered s)
  have hkl : (span_until delim (undelivered s)).length = k := by
    rw [hk1, List.length_take]
    omega
  refine ⟨r, k, ?_, hkl.symm, hk1, hk2, hk3, fun h0 => ?_⟩
  · simp only [dcs_getuntil, hs.wf.is_read, Bool.not_true, Bool.false_eq_true, if_false]
    exact h1
  · obtain ⟨_, h10⟩ := h9 h0
    rw [hkl] at h2 h3 h4 h8 h10
    refine ⟨h2, h3, h8, fun hn => ?_, h4, h5, h7, h6⟩
    rcases h10 with h10 | ⟨h10, _⟩
    · exact h10
    · omega

/-- With a null destination and `*size = 2 ^ 63`, the doubling wraps to 0, the
next growth gives 64, and `dcs_getuntil` ends with `*size = 64`. -/
theorem dcs_getuntil_size_wraps :
    ∃ r, dcs_getuntil plain_source alloc_always 4 (fresh_stream [1, 10] true 4) none
          (2 ^ 63) 10 = some r ∧
      r.ret = 2 ∧ r.size = 64 ∧ r.overrun = false ∧
      (r.dest.getD []).length = 64 ∧ (r.dest.getD []).take 3 = [1, 10, 0] :=
  ⟨_, rfl, rfl, rfl, rfl, rfl, rfl⟩

/-- C4 at failing inputs.  Over the plain source, with delimiter `10`.  The bytes
`[1, 2, 10]` are read into a destination block of 2 bytes: at capacity 2 the
first chunk `[1, 2]` fills the block exactly, the block is not grown, and the
marker is stored at index 2, outside the block; at capacity 4 the only chunk
does not fit, the block is grown to 64 bytes first, and every store is inside
it.  The 65 bytes `1, …, 1, 10` are read into a null destination of size 0: at
capacity 64 the first chunk fills the fresh 64-byte block exactly and the marker
is stored at index 64, outside it; at capacity 128 the block is grown to 128
bytes before the copy and every store is inside it.  Each pair of calls returns
the same count and ends with the same `*size`, and differs in whether a store
went outside the destination: that depends on how the source is chunked. -/
theorem getuntil_overrun_depends_on_chunking :
    (∃ r, dcs_getuntil plain_source alloc_always 4 (fresh_stream [1, 2, 10] true 2)
          (some [0, 0]) 2 10 = some r ∧
        r.ret = 3 ∧ r.size = 64 ∧ r.overrun = true) ∧
    (∃ r, dcs_getuntil plain_source alloc_always 4 (fresh_stream [1, 2, 10] true 4)
          (some [0, 0]) 2 10 = some r ∧
        r.ret = 3 ∧ r.size = 64 ∧ r.overrun = false ∧
        (r.dest.getD []).length = 64 ∧ (r.dest.getD []).take 4 = [1, 2, 10, 0]) ∧
    (∃ r, dcs_getuntil plain_source alloc_always 4
          (fresh_stream (List.replicate 64 1 ++ [10]) true 64) none 0 10 = some r ∧
        r.ret = 65 ∧ r.size = 128 ∧ r.overrun = true) ∧
    (∃ r, dcs_getuntil plain_source alloc_always 4
          (fresh_stream (List.replicate 64 1 ++ [10]) true 128) none 0 10 = some r ∧
        r.ret = 65 ∧ r.size = 128 ∧ r.overrun = false ∧
        (r.dest.getD []).length = 128 ∧
        (r.dest.getD []).take 66 = List.replicate 64 1 ++ [10, 0]) :=
  ⟨⟨_, rfl, rfl, rfl, rfl⟩, ⟨_, rfl, rfl, rfl, rfl, rfl, rfl⟩, ⟨_, rfl, rfl, rfl, rfl⟩,
    ⟨_, rfl, rfl, rfl, rfl, rfl, rfl⟩⟩

/-! ## Single characters and pushback -/

theorem dcs_moredata_one {T : Type} (tr : Transport T) (s : dcs_stream T)
    (hc : 1 ≤ s.cap) (h : (dcs_moredata tr s).2 = 1) :
    (dcs_moredata tr s).1.read = true ∧
      (dcs_moredata tr s).1.pos ≠ (dcs_moredata tr s).1.len ∧
      (dcs_moredata tr s).1.cap = s.cap := by
  have hr : s.read = true := by
    cases hrd : s.read
    · simp [dcs_moredata, hrd] at h
    · rfl
  by_cases hfill : s.fp_eof = false ∧ s.pos = s.len
  · obtain ⟨hf, hp⟩ := hfill
    rw [dcs_moredata_fill tr s hr hf hp] at h ⊢
    rw [_dcs_fillbuf_eq tr s hr] at h ⊢
    refine ⟨rfl, ?_, rfl⟩
    intro h0
    have h0 : 0 = (tr.dcs_compr_read s.compr s.buf s.len s.cap).2.2.1 := h0
    simp only [hf, Bool.false_or] at h
    split at h
    · omega
    · rw [dcs_eof] at h
      simp only [← h0] at h
      simp [hc] at h
      omega
  · rw [dcs_moredata_nofill tr s hr hfill] at h ⊢
    refine ⟨hr, ?_, rfl⟩
    intro hp
    have hp : s.pos = s.len := hp
    have hf : s.fp_eof = true := by
      cases hfe : s.fp_eof
      · exact absurd ⟨hfe, hp⟩ hfill
      · rfl
    simp [dcs_eof, hf, hp] at h

theorem dcs_getc_success {T : Type} (tr : Transport T) (s : dcs_stream T)
    (hc : 1 ≤ s.cap) (h : (dcs_getc tr s).2 ≠ -1) :
    ∃ m : dcs_stream T, m.read = true ∧ m.pos ≠ m.len ∧ m.cap = s.cap ∧
      dcs_getc tr s = ({ m with pos := m.pos + 1,
                                prevous_getc := ((buf_at m.buf m.pos).val : Int) },
                        ((buf_at m.buf m.pos).val : Int)) := by
  have hr : s.read = true := by
    cases hrd : s.read
    · simp [dcs_getc, hrd] at h
    · rfl
  have h1 : (dcs_moredata tr s).2 = 1 := by
    by_contra hne
    simp [dcs_getc, hr, hne] at h
  obtain ⟨g1, g2, g3⟩ := dcs_moredata_one tr s hc h1
  refine ⟨(dcs_moredata tr s).1, g1, g2, g3, ?_⟩
  simp [dcs_getc, hr, h1]

theorem dcs_getc_again {T : Type} (tr : Transport T) (m : dcs_stream T) (prev : Int)
    (hr : m.read = true) (hp : m.pos ≠ m.len) :
    dcs_getc tr { m with prevous_getc := prev }
      = ({ m with pos := m.pos + 1, prevous_getc := ((buf_at m.buf m.pos).val : Int) },
          ((buf_at m.buf m.pos).val : Int)) := by
  have hm : dcs_moredata tr { m with prevous_getc := prev }
      = ({ m with prevous_getc := prev }, 1) := by
    rw [dcs_moredata_nofill tr { m with prevous_getc := prev } hr (fun h => hp h.2)]
    simp [dcs_eof, hp]
  unfold dcs_getc
  rw [hm]
  simp [hr]

theorem dcs_ungetc_after_getc {T : Type} (m : dcs_stream T) (hr : m.read = true) :
    dcs_ungetc { m with pos := m.pos + 1,
                        prevous_getc := ((buf_at m.buf m.pos).val : Int) }
      = ({ m with prevous_getc := -1 }, 0) := by
  have h1 : size_sub (m.pos + 1) 1 = m.pos := by
    rw [size_sub_of_le (by omega)]
    omega
  have h2 : ¬ (((buf_at m.buf m.pos).val : Int) < 0) := by omega
  simp [dcs_ungetc, hr, h1, h2]

/-- C5 (unget validity).  On a stream of capacity at least 1 over any transport
(whose calls are recorded by `traced`): when `dcs_getc` succeeds, returning `b`,
an immediately following `dcs_ungetc` returns 0, the next `dcs_getc` returns `b`
again, restores the state reached by the first one and adds no call to the
record of the transport; a second `dcs_ungetc` issued right after the first one
returns -1 and leaves the stream, its position included, unchanged. -/
theorem unget_validity {T : Type} (tr : Transport T) (s : dcs_stream (T × List Call))
    (hc : 1 ≤ s.cap) (hget : (dcs_getc (traced tr) s).2 ≠ -1) :
    (dcs_ungetc (dcs_getc (traced tr) s).1).2 = 0 ∧
      dcs_getc (traced tr) (dcs_ungetc (dcs_getc (traced tr) s).1).1
        = dcs_getc (traced tr) s ∧
      (dcs_getc (traced tr) (dcs_ungetc (dcs_getc (traced tr) s).1).1).1.compr.2
        = (dcs_ungetc (dcs_getc (traced tr) s).1).1.compr.2 ∧
      dcs_ungetc (dcs_ungetc (dcs_getc (traced tr) s).1).1
        = ((dcs_ungetc (dcs_getc (traced tr) s).1).1, -1) := by
  obtain ⟨m, hr, hp, _, hg⟩ := dcs_getc_success (traced tr) s hc hget
  rw [hg]
  simp only
  rw [dcs_ungetc_after_getc m hr]
  simp only
  rw [dcs_getc_again (traced tr) m (-1) hr hp]
  refine ⟨trivial, rfl, rfl, ?_⟩
  simp [dcs_ungetc, hr]

/-- C5 on a fresh stream of capacity 2 over the source `[5, 6]`. -/
theorem unget_validity_witness :
    (1 ≤ (fresh_stream (([5, 6] : List Byte), ([] : List Call)) true 2).cap ∧
      (dcs_getc (traced plain_source) (fresh_stream ([5, 6], []) true 2)).2 ≠ -1) ∧
    (dcs_getc (traced plain_source) (fresh_stream ([5, 6], []) true 2)).2 = 5 ∧
    (dcs_ungetc (dcs_getc (traced plain_source) (fresh_stream ([5, 6], []) true 2)).1).2 = 0 ∧
    dcs_getc (traced plain_source)
        (dcs_ungetc (dcs_getc (traced plain_source) (fresh_stream ([5, 6], []) true 2)).1).1
      = dcs_getc (traced plain_source) (fresh_stream ([5, 6], []) true 2) :=
  ⟨⟨by decide, by decide⟩, rfl,
    (unget_validity plain_source (fresh_stream ([5, 6], []) true 2)
      (by decide) (by decide)).1,
    (unget_validity plain_source (fresh_stream ([5, 6], []) true 2)
      (by decide) (by decide)).2.1⟩

/-- C6 at a failing input.  On a fresh stream of capacity 4 over the source
`[97, 98, 97]`, `dcs_getc` returns 97, `dcs_getuntil` with delimiter 97 then
consumes `[98, 97]` and returns 2, and the `dcs_ungetc` that follows still
succeeds (returns 0): it steps back over the delimiter that `dcs_getuntil`
delivered, which the next `dcs_getc` returns again. -/
theorem ungetc_after_getuntil_succeeds :
    (dcs_getc plain_source (fresh_stream [97, 98, 97] true 4)).2 = 97 ∧
    ∃ r, dcs_getuntil plain_source alloc_always 5
          (dcs_getc plain_source (fresh_stream [97, 98, 97] true 4)).1 none 0 97 = some r ∧
      r.ret = 2 ∧ (r.dest.getD []).take 2 = [98, 97] ∧ r.stream.pos = 3 ∧
      (dcs_ungetc r.stream).2 = 0 ∧ (dcs_ungetc r.stream).1.pos = 2 ∧
      (dcs_getc plain_source (dcs_ungetc r.stream).1).2 = 97 :=
  ⟨rfl, _, rfl, rfl, rfl, rfl, rfl, rfl, rfl⟩

/-! ## `dcs_read` over an arbitrary transport -/

theorem dcs_moredata_read_cap {T : Type} (tr : Transport T) (s : dcs_stream T) :
    (dcs_moredata tr s).1.read = s.read ∧ (dcs_moredata tr s).1.cap = s.cap := by
  cases hr : s.read
  · simp [dcs_moredata, hr]
  · by_cases hfill : s.fp_eof = false ∧ s.pos = s.len
    · rw [dcs_moredata_fill tr s hr hfill.1 hfill.2, _dcs_fillbuf_eq tr s hr]
      exact ⟨rfl, rfl⟩
    · rw [dcs_moredata_nofill tr s hr hfill]
      exact ⟨hr, rfl⟩

theorem dcs_moredata_stuck {T : Type} (tr : Transport T) (s : dcs_stream T)
    (hr : s.read = true) (hc : 1 ≤ s.cap)
    (hp : (dcs_moredata tr s).1.pos = (dcs_moredata tr s).1.len) :
    (dcs_moredata tr s).1.fp_eof = true := by
  by_cases hfill : s.fp_eof = false ∧ s.pos = s.len
  · rw [dcs_moredata_fill tr s hr hfill.1 hfill.2, _dcs_fillbuf_eq tr s hr] at hp ⊢
    have hp : 0 = (tr.dcs_compr_read s.compr s.buf s.len s.cap).2.2.1 := hp
    show (s.fp_eof || decide ((tr.dcs_compr_read s.compr s.buf s.len s.cap).2.2.1 < s.cap))
      = true
    rw [← hp]
    simp
    right
    omega
  · rw [dcs_moredata_nofill tr s hr hfill] at hp ⊢
    have hp : s.pos = s.len := hp
    have hf : s.fp_eof = true := by
      cases hfe : s.fp_eof
      · exact absurd ⟨hfe, hp⟩ hfill
      · rfl
    exact hf

theorem dcs_moredata_at_eof {T : Type} (tr : Transport T) (s : dcs_stream T)
    (hr : s.read = true) (hf : s.fp_eof = true) :
    dcs_moredata tr s = (s, if s.pos = s.len then 0 else 1) := by
  rw [dcs_moredata_nofill tr s hr (by simp [hf])]
  simp [dcs_eof, hf]

theorem dcs_read_loop_total {T : Type} (tr : Transport T) (size : Nat) :
    ∀ (fuel : Nat) (s : dcs_stream T) (bdest : List Byte) (read : Nat),
      s.read = true → 1 ≤ s.cap →
      ((size - read) + 2 ≤ fuel ∨ (s.fp_eof = true ∧ s.pos = s.len ∧ 1 ≤ fuel)) →
      ∃ r, dcs_read_loop tr size fuel s bdest read = some r ∧
        r.1.read = true ∧ r.1.cap = s.cap := by
  intro fuel
  induction fuel with
  | zero => intro s bdest read _ _ h; omega
  | succ fuel ih =>
    intro s bdest read hr hc hf
    unfold dcs_read_loop
    by_cases hlt : read < size
    · simp only [hlt, if_true]
      obtain ⟨hmr, hmc⟩ := dcs_moredata_read_cap tr s
      rw [hr] at hmr
      by_cases hm0 : (dcs_moredata tr s).2 = 0
      · simp only [hm0, ne_eq, not_true_eq_false, if_false]
        exact ⟨_, rfl, hmr, hmc⟩
      · simp only [hm0, ne_eq, not_false_eq_true, if_true]
        rcases hf with hf | ⟨hf1, hf2, _⟩
        · rw [dcs_size_min_eq]
          obtain ⟨r, h1, h2, h3⟩ := ih
            { (dcs_moredata tr s).1 with
              pos := (dcs_moredata tr s).1.pos
                + min (size_sub (dcs_moredata tr s).1.len (dcs_moredata tr s).1.pos)
                    (size - read) }
            (memcpy bdest read (((dcs_moredata tr s).1.buf.drop (dcs_moredata tr s).1.pos).take
              (min (size_sub (dcs_moredata tr s).1.len (dcs_moredata tr s).1.pos)
                (size - read))))
            (read + min (size_sub (dcs_moredata tr s).1.len (dcs_moredata tr s).1.pos)
              (size - read))
            hmr (by rw [← hmc] at hc; exact hc) (by
              by_cases hz : size_sub (dcs_moredata tr s).1.len (dcs_moredata tr s).1.pos = 0
              · right
                have hpe := (size_sub_eq_zero hz).symm
                refine ⟨dcs_moredata_stuck tr s hr hc hpe, ?_, by omega⟩
                show (dcs_moredata tr s).1.pos + min _ _ = (dcs_moredata tr s).1.len
                rw [hz, hpe]
                simp
              · left
                omega)
          exact ⟨r, h1, h2, by rw [h3]; exact hmc⟩
        · rw [dcs_moredata_at_eof tr s hr hf1] at hm0
          simp [hf2] at hm0
    · simp only [hlt, if_false]
      exact ⟨_, rfl, hr, rfl⟩

theorem dcs_read_total {T : Type} (tr : Transport T) (s : dcs_stream T)
    (hr : s.read = true) (hc : 1 ≤ s.cap) (d : List Byte) (size fuel : Nat)
    (hf : size + 2 ≤ fuel) :
    ∃ s1 d1 ret, dcs_read tr fuel s (some d) size = some (s1, some d1, ret) ∧
      s1.prevous_getc = -1 ∧ s1.read = true ∧ s1.cap = s.cap ∧ 0 ≤ ret := by
  obtain ⟨r, h1, h2, h3⟩ := dcs_read_loop_total tr size fuel s d 0 hr hc (Or.inl (by omega))
  refine ⟨{ r.1 with prevous_getc := -1 }, r.2.1, (r.2.2 : Int), ?_, rfl, h2, h3, by omega⟩
  simp only [dcs_read, hr, Bool.not_true, Bool.false_eq_true, if_false, h1]

theorem dcs_getc_read_cap {T : Type} (tr : Transport T) (s : dcs_stream T) :
    (dcs_getc tr s).1.read = s.read ∧ (dcs_getc tr s).1.cap = s.cap := by
  obtain ⟨h1, h2⟩ := dcs_moredata_read_cap tr s
  unfold dcs_getc
  split
  · exact ⟨rfl, rfl⟩
  · simp only
    split
    · exact ⟨h1, h2⟩
    · exact ⟨h1, h2⟩

/-- C7 (pushback invalidation by bulk read).  On a read stream of capacity at
least 1 over any transport, every `dcs_read` with a non-null destination, for
every size (0 included), returns, leaves no recorded pushback byte, and the
`dcs_ungetc` that follows returns -1 and changes nothing; this holds in
particular when the `dcs_read` directly follows a `dcs_getc`. -/
theorem read_invalidates_pushback {T : Type} (tr : Transport T) (s : dcs_stream T)
    (hr : s.read = true) (hc : 1 ≤ s.cap) (d : List Byte) (size fuel : Nat)
    (hf : size + 2 ≤ fuel) :
    (∃ s1 d1 ret, dcs_read tr fuel s (some d) size = some (s1, some d1, ret) ∧
      s1.prevous_getc = -1 ∧ dcs_ungetc s1 = (s1, -1)) ∧
    (∃ s1 d1 ret, dcs_read tr fuel (dcs_getc tr s).1 (some d) size
        = some (s1, some d1, ret) ∧
      s1.prevous_getc = -1 ∧ dcs_ungetc s1 = (s1, -1)) := by
  have key : ∀ s0 : dcs_stream T, s0.read = true → 1 ≤ s0.cap →
      ∃ s1 d1 ret, dcs_read tr fuel s0 (some d) size = some (s1, some d1, ret) ∧
        s1.prevous_getc = -1 ∧ dcs_ungetc s1 = (s1, -1) := by
    intro s0 h0 hc0
    obtain ⟨s1, d1, ret, h1, h2, h3, _⟩ := dcs_read_total tr s0 h0 hc0 d size fuel hf
    refine ⟨s1, d1, ret, h1, h2, ?_⟩
    simp [dcs_ungetc, h3, h2]
  obtain ⟨g1, g2⟩ := dcs_getc_read_cap tr s
  exact ⟨key s hr hc, key _ (by rw [g1]; exact hr) (by rw [g2]; exact hc)⟩

/-- C7 after a successful `dcs_getc` on a fresh stream over `[5, 6]`, with a
`dcs_read` of size 0. -/
theorem read_invalidates_pushback_witness :
    ((fresh_stream [5, 6] true 2).read = true ∧ 1 ≤ (fresh_stream [5, 6] true 2).cap ∧
      0 + 2 ≤ 2) ∧
    (dcs_getc plain_source (fresh_stream [5, 6] true 2)).2 = 5 ∧
    ∃ s1 d1 ret, dcs_read plain_source 2 (dcs_getc plain_source (fresh_stream [5, 6] true 2)).1
        (some []) 0 = some (s1, some d1, ret) ∧
      s1.prevous_getc = -1 ∧ dcs_ungetc s1 = (s1, -1) :=
  ⟨⟨rfl, by decide, by decide⟩, rfl,
    (read_invalidates_pushback plain_source (fresh_stream [5, 6] true 2) rfl (by decide)
      [] 0 2 (by decide)).2⟩

/-! ## The cursor invariant of read streams, over an arbitrary transport -/

theorem dcs_moredata_inv {T : Type} (tr : Transport T) (s : dcs_stream T)
    (h : read_inv s) :
    read_inv (dcs_moredata tr s).1 ∧ (used s → used (dcs_moredata tr s).1) ∧
      ((dcs_moredata tr s).1.pos ≠ (dcs_moredata tr s).1.len → used (dcs_moredata tr s).1) ∧
      (s.pos ≤ (dcs_moredata tr s).1.pos → (dcs_moredata tr s).1.prevous_getc = s.prevous_getc
        ∨ (dcs_moredata tr s).1.prevous_getc = -1) := by
  obtain ⟨hr, hc, hpl, hu⟩ := h
  by_cases hfill : s.fp_eof = false ∧ s.pos = s.len
  · rw [dcs_moredata_fill tr s hr hfill.1 hfill.2, _dcs_fillbuf_eq tr s hr]
    refine ⟨⟨rfl, hc, Nat.zero_le _, ?_⟩, ?_, ?_, ?_⟩
    · intro h0
      have h0 : (0 : Int) ≤ -1 := h0
      omega
    · intro _
      by_cases hl : (tr.dcs_compr_read s.compr s.buf s.len s.cap).2.2.1 = 0
      · right
        show (s.fp_eof || decide ((tr.dcs_compr_read s.compr s.buf s.len s.cap).2.2.1 < s.cap))
          = true
        rw [hl]
        simp
        right
        omega
      · left
        exact hl
    · intro hne
      left
      intro h0
      exact hne h0.symm
    · intro _
      right
      rfl
  · rw [dcs_moredata_nofill tr s hr hfill]
    refine ⟨⟨hr, hc, hpl, hu⟩, fun h => h, ?_, fun _ => Or.inl rfl⟩
    intro hne
    left
    intro h0
    have hne : s.pos ≠ s.len := hne
    have h0 : s.len = 0 := h0
    omega

theorem dcs_getc_inv {T : Type} (tr : Transport T) (s : dcs_stream T) (h : read_inv s) :
    read_inv (dcs_getc tr s).1 ∧ (used s → used (dcs_getc tr s).1) ∧
      ((dcs_getc tr s).2 ≠ -1 → used (dcs_getc tr s).1) := by
  obtain ⟨hm1, hm2, hm3, _⟩ := dcs_moredata_inv tr s h
  have hr := h.is_read
  by_cases h1 : (dcs_moredata tr s).2 = 1
  · obtain ⟨g1, g2, g3⟩ := dcs_moredata_one tr s h.cap_pos h1
    have hg : dcs_getc tr s = ({ (dcs_moredata tr s).1 with
        pos := (dcs_moredata tr s).1.pos + 1,
        prevous_getc := ((buf_at (dcs_moredata tr s).1.buf (dcs_moredata tr s).1.pos).val : Int) },
        ((buf_at (dcs_moredata tr s).1.buf (dcs_moredata tr s).1.pos).val : Int)) := by
      simp [dcs_getc, hr, h1]
    rw [hg]
    have hu := hm3 g2
    refine ⟨⟨hm1.is_read, hm1.cap_pos, ?_, ?_⟩, fun _ => hu, fun _ => hu⟩
    · show (dcs_moredata tr s).1.pos + 1 ≤ (dcs_moredata tr s).1.len
      have := hm1.pos_le
      omega
    · intro _
      show 1 ≤ (dcs_moredata tr s).1.pos + 1
      omega
  · have hg : dcs_getc tr s = ((dcs_moredata tr s).1, -1) := by
      simp [dcs_getc, hr, h1]
    rw [hg]
    exact ⟨hm1, hm2, fun h0 => absurd rfl h0⟩

theorem dcs_ungetc_inv {T : Type} (s : dcs_stream T) (h : read_inv s) :
    read_inv (dcs_ungetc s).1 ∧ (used s → used (dcs_ungetc s).1) := by
  obtain ⟨hr, hc, hpl, hu⟩ := h
  unfold dcs_ungetc
  simp only [hr, Bool.not_true, Bool.false_eq_true, if_false]
  split
  · exact ⟨⟨hr, hc, hpl, hu⟩, fun h => h⟩
  · rename_i hp
    have hp1 : 1 ≤ s.pos := hu (by omega)
    split
    · refine ⟨⟨rfl, hc, ?_, ?_⟩, fun h => h⟩
      · show size_sub s.pos 1 ≤ s.len
        rw [size_sub_of_le hp1]
        omega
      · intro h0
        have h0 : (0 : Int) ≤ -1 := h0
        omega
    · exact ⟨⟨hr, hc, hpl, hu⟩, fun h => h⟩

theorem read_inv_advance {T : Type} (m : dcs_stream T) (h : read_inv m) (n : Nat)
    (hn : n ≤ m.len - m.pos) :
    read_inv { m with pos := m.pos + n } ∧ (used m → used { m with pos := m.pos + n }) ∧
      (1 ≤ n → m.pos ≠ m.len) := by
  obtain ⟨hr, hc, hpl, hu⟩ := h
  refine ⟨⟨hr, hc, ?_, ?_⟩, fun h => h, ?_⟩
  · show m.pos + n ≤ m.len
    omega
  · intro h0
    have := hu h0
    show 1 ≤ m.pos + n
    omega
  · intro h1
    omega

theorem dcs_read_loop_inv {T : Type} (tr : Transport T) (size : Nat) :
    ∀ (fuel : Nat) (s : dcs_stream T) (bdest : List Byte) (read : Nat)
      (r : dcs_stream T × List Byte × Nat),
      read_inv s → dcs_read_loop tr size fuel s bdest read = some r →
      read_inv r.1 ∧ (used s → used r.1) ∧ (read < r.2.2 → used r.1) ∧ read ≤ r.2.2 := by
  intro fuel
  induction fuel with
  | zero => intro s bdest read r _ h; simp [dcs_read_loop] at h
  | succ fuel ih =>
    intro s bdest read r hinv h
    unfold dcs_read_loop at h
    by_cases hlt : read < size
    · simp only [hlt, if_true] at h
      obtain ⟨hm1, hm2, hm3, _⟩ := dcs_moredata_inv tr s hinv
      by_cases hm0 : (dcs_moredata tr s).2 = 0
      · simp only [hm0, ne_eq, not_true_eq_false, if_false, Option.some.injEq] at h
        subst h
        exact ⟨hm1, hm2, fun h0 => absurd h0 (Nat.lt_irrefl _), Nat.le_refl _⟩
      · simp only [hm0, ne_eq, not_false_eq_true, if_true] at h
        rw [size_sub_of_le hm1.pos_le, dcs_size_min_eq] at h
        obtain ⟨a1, a2, a3⟩ := read_inv_advance (dcs_moredata tr s).1 hm1
          (min ((dcs_moredata tr s).1.len - (dcs_moredata tr s).1.pos) (size - read))
          (Nat.min_le_left _ _)
        obtain ⟨b1, b2, b3, b4⟩ := ih _ _ _ r a1 h
        refine ⟨b1, fun h0 => b2 (a2 (hm2 h0)), ?_, by omega⟩
        intro hlt2
        by_cases hz : min ((dcs_moredata tr s).1.len - (dcs_moredata tr s).1.pos)
            (size - read) = 0
        · rw [hz, Nat.add_zero] at b3
          exact b3 hlt2
        · exact b2 (a2 (hm3 (a3 (by omega))))
    · simp only [hlt, if_false, Option.some.injEq] at h
      subst h
      exact ⟨hinv, fun h => h, fun h0 => absurd h0 (Nat.lt_irrefl _), Nat.le_refl _⟩

theorem dcs_read_inv {T : Type} (tr : Transport T) (fuel : Nat) (s : dcs_stream T)
    (dest : Option (List Byte)) (size : Nat) (r : dcs_stream T × Option (List Byte) × Int)
    (hinv : read_inv s) (h : dcs_read tr fuel s dest size = some r) :
    read_inv r.1 ∧ (used s → used r.1) ∧ (0 < r.2.2 → used r.1) := by
  unfold dcs_read at h
  cases dest with
  | none =>
    simp only [Option.some.injEq] at h
    subst h
    exact ⟨hinv, fun h => h, fun h0 => by simp at h0⟩
  | some bdest =>
    simp only [hinv.is_read, Bool.not_true, Bool.false_eq_true, if_false] at h
    cases hl : dcs_read_loop tr size fuel s bdest 0 with
    | none => simp [hl] at h
    | some q =>
      simp only [hl, Option.some.injEq] at h
      subst h
      obtain ⟨b1, b2, b3, _⟩ := dcs_read_loop_inv tr size fuel s bdest 0 q hinv hl
      refine ⟨⟨b1.is_read, b1.cap_pos, b1.pos_le, ?_⟩, b2, ?_⟩
      · intro h0
        have h0 : (0 : Int) ≤ -1 := h0
        omega
      · intro h0
        have h0 : (0 : Int) < (q.2.2 : Int) := h0
        exact b3 (by omega)

theorem bytes_to_delim_le (b : List Byte) (delim : Byte) (n : Nat) (hb : b.length ≤ n) :
    (match memchr b delim with
      | some i => i + 1
      | none => n) ≤ n := by
  cases hmc : memchr b delim with
  | none => exact Nat.le_refl _
  | some i =>
    have := (memchr_some delim b [] i hmc).1
    show i + 1 ≤ n
    omega

theorem dcs_getuntil_loop_inv {T : Type} (tr : Transport T) (alloc_ok : Nat → Bool)
    (delim : Byte) (gfuel : Nat) :
    ∀ (fuel : Nat) (s : dcs_stream T) (out : Option (List Byte)) (outsize outpos : Nat)
      (found overrun : Bool) (r : getuntil_result T),
      read_inv s →
      dcs_getuntil_loop tr alloc_ok delim gfuel fuel s out outsize outpos found overrun
        = some r →
      read_inv r.stream ∧ (used s → used r.stream) ∧
        ((outpos : Int) < r.ret → used r.stream) := by
  intro fuel
  induction fuel with
  | zero => intro s out outsize outpos found overrun r _ h; simp [dcs_getuntil_loop] at h
  | succ fuel ih =>
    intro s out outsize outpos found overrun r hinv h
    unfold dcs_getuntil_loop at h
    by_cases hfound : found = true
    · simp only [hfound, if_true, Option.some.injEq] at h
      subst h
      exact ⟨hinv, fun h => h, fun h0 => absurd h0 (by simp)⟩
    · simp only [hfound, Bool.false_eq_true, if_false] at h
      obtain ⟨hm1, hm2, hm3, _⟩ := dcs_moredata_inv tr s hinv
      by_cases hm0 : (dcs_moredata tr s).2 = 0
      · simp only [hm0, if_true, Option.some.injEq] at h
        subst h
        exact ⟨hm1, hm2, fun h0 => absurd h0 (by simp)⟩
      · simp only [hm0, if_false] at h
        rw [size_sub_of_le hm1.pos_le] at h
        have hle := bytes_to_delim_le
          (((dcs_moredata tr s).1.buf.drop (dcs_moredata tr s).1.pos).take
            ((dcs_moredata tr s).1.len - (dcs_moredata tr s).1.pos)) delim
          ((dcs_moredata tr s).1.len - (dcs_moredata tr s).1.pos)
          (by rw [List.length_take]; exact Nat.min_le_left _ _)
        revert h hle
        generalize (match memchr (((dcs_moredata tr s).1.buf.drop (dcs_moredata tr s).1.pos).take
            ((dcs_moredata tr s).1.len - (dcs_moredata tr s).1.pos)) delim with
          | some i => i + 1
          | none => (dcs_moredata tr s).1.len - (dcs_moredata tr s).1.pos) = btd
        intro h hle
        cases hg : dcs_getuntil_grow alloc_ok btd outpos gfuel out outsize with
        | none => simp [hg] at h
        | some g =>
          obtain ⟨o1, os1, ok⟩ := g
          cases ok with
          | false =>
            simp only [hg, Option.some.injEq] at h
            subst h
            refine ⟨hm1, hm2, fun h0 => ?_⟩
            have h0 : (outpos : Int) < -1 := h0
            omega
          | true =>
            simp only [hg] at h
            obtain ⟨a1, a2, a3⟩ := read_inv_advance (dcs_moredata tr s).1 hm1 btd hle
            obtain ⟨b1, b2, b3⟩ := ih _ _ _ _ _ _ r a1 h
            refine ⟨b1, fun h0 => b2 (a2 (hm2 h0)), ?_⟩
            intro hlt
            by_cases hz : btd = 0
            · rw [hz, Nat.add_zero] at b3
              exact b3 hlt
            · exact b2 (a2 (hm3 (a3 (by omega))))

theorem dcs_getuntil_inv {T : Type} (tr : Transport T) (alloc_ok : Nat → Bool)
    (fuel : Nat) (s : dcs_stream T) (dest : Option (List Byte)) (size : Nat) (delim : Byte)
    (r : getuntil_result T) (hinv : read_inv s)
    (h : dcs_getuntil tr alloc_ok fuel s dest size delim = some r) :
    read_inv r.stream ∧ (used s → used r.stream) ∧ (0 < r.ret → used r.stream) := by
  unfold dcs_getuntil at h
  simp only [hinv.is_read, Bool.not_true, Bool.false_eq_true, if_false] at h
  obtain ⟨b1, b2, b3⟩ := dcs_getuntil_loop_inv tr alloc_ok delim fuel fuel s dest size 0
    false false r hinv h
  exact ⟨b1, b2, fun h0 => b3 (by simpa using h0)⟩

theorem dcs_setbufsize_inv {T : Type} (alloc_ok : Nat → Bool) (s : dcs_stream T)
    (size : Nat) (hinv : read_inv s) :
    read_inv (dcs_setbufsize alloc_ok s size).1 ∧
      (used s → dcs_setbufsize alloc_ok s size = (s, -1)) := by
  obtain ⟨hr, hc, hpl, hu⟩ := hinv
  unfold dcs_setbufsize
  by_cases hz : size = 0
  · simp only [hz, if_true]
    exact ⟨⟨hr, hc, hpl, hu⟩, fun _ => trivial⟩
  · simp only [hz, if_false]
    by_cases hg : s.pos ≠ 0 ∨ s.len ≠ 0 ∨ s.fp_eof = true
    · simp only [hg, if_true]
      exact ⟨⟨hr, hc, hpl, hu⟩, fun _ => trivial⟩
    · simp only [hg, if_false]
      refine ⟨?_, ?_⟩
      · split
        · exact ⟨hr, hc, hpl, hu⟩
        · exact ⟨hr, by show 1 ≤ size; omega, hpl, hu⟩
      · intro h0
        rcases h0 with h0 | h0
        · exact absurd (Or.inr (Or.inl h0)) hg
        · exact absurd (Or.inr (Or.inr h0)) hg

theorem step_inv {T : Type} (tr : Transport T) (alloc_ok : Nat → Bool) (fuel : Nat)
    (s : dcs_stream T) (op : Op) (r : dcs_stream T × Int) (hinv : read_inv s)
    (h : step tr alloc_ok fuel s op = some r) :
    read_inv r.1 ∧ (used s → used r.1) ∧ (delivered (op, r.2) → used r.1) := by
  cases op with
  | setbufsize size =>
    simp only [step, Option.some.injEq] at h
    subst h
    obtain ⟨a1, a2⟩ := dcs_setbufsize_inv alloc_ok s size hinv
    exact ⟨a1, fun h0 => by rw [a2 h0]; exact h0, fun h0 => absurd h0 (by simp [delivered])⟩
  | read dest size =>
    simp only [step, Option.map_eq_some'] at h
    obtain ⟨q, hq, rfl⟩ := h
    exact dcs_read_inv tr fuel s dest size q hinv hq
  | getc =>
    simp only [step, Option.some.injEq] at h
    subst h
    exact dcs_getc_inv tr s hinv
  | ungetc =>
    simp only [step, Option.some.injEq] at h
    subst h
    obtain ⟨a1, a2⟩ := dcs_ungetc_inv s hinv
    exact ⟨a1, a2, fun h0 => absurd h0 (by simp [delivered])⟩
  | getuntil dest size delim =>
    simp only [step, Option.map_eq_some'] at h
    obtain ⟨q, hq, rfl⟩ := h
    exact dcs_getuntil_inv tr alloc_ok fuel s dest size delim q hinv hq
  | write src size =>
    have hw : dcs_write tr fuel s src size = some (s, -1) := by
      cases src <;> simp [dcs_write, hinv.is_read]
    simp only [step, hw, Option.some.injEq] at h
    subst h
    exact ⟨hinv, fun h => h, fun h0 => absurd h0 (by simp [delivered])⟩
  | flush =>
    simp only [step, dcs_flush, hinv.is_read, if_true, Option.some.injEq] at h
    subst h
    exact ⟨hinv, fun h => h, fun h0 => absurd h0 (by simp [delivered])⟩

theorem run_inv {T : Type} (tr : Transport T) (alloc_ok : Nat → Bool) (fuel : Nat) :
    ∀ (ops : List Op) (s : dcs_stream T) (r : dcs_stream T × List (Op × Int)),
      read_inv s → run tr alloc_ok fuel ops s = some r →
      read_inv r.1 ∧ (used s → used r.1) ∧ ((∃ p ∈ r.2, delivered p) → used r.1) := by
  intro ops
  induction ops with
  | nil =>
    intro s r hinv h
    simp only [run, Option.some.injEq] at h
    subst h
    exact ⟨hinv, fun h => h, fun h0 => by simp at h0⟩
  | cons op ops ih =>
    intro s r hinv h
    unfold run at h
    cases hs : step tr alloc_ok fuel s op with
    | none => simp [hs] at h
    | some q =>
      simp only [hs] at h
      cases hr : run tr alloc_ok fuel ops q.1 with
      | none => simp [hr] at h
      | some t =>
        simp only [hr, Option.some.injEq] at h
        subst h
        obtain ⟨a1, a2, a3⟩ := step_inv tr alloc_ok fuel s op q hinv hs
        obtain ⟨b1, b2, b3⟩ := ih q.1 t a1 hr
        refine ⟨b1, fun h0 => b2 (a2 h0), ?_⟩
        rintro ⟨p, hp, hd⟩
        simp only [List.mem_cons] at hp
        rcases hp with hp | hp
        · subst hp
          exact b2 (a3 hd)
        · exact b3 ⟨p, hp, hd⟩

/-! ## Fresh streams -/

theorem fresh_read_inv {T : Type} (compr : T) (c : Nat) (hc : 1 ≤ c) :
    read_inv (fresh_stream compr true c) := by
  refine ⟨rfl, hc, Nat.le_refl _, ?_⟩
  intro h
  have h : (0 : Int) ≤ -1 := h
  omega

theorem dcs_setbufsize_fresh {T : Type} (alloc_ok : Nat → Bool) (compr : T) (read : Bool)
    (c size : Nat) (hsize : size ≠ 0) (hal : alloc_ok size = true) :
    dcs_setbufsize alloc_ok (fresh_stream compr read c) size
      = (fresh_stream compr read size, 0) := by
  simp [dcs_setbufsize, fresh_stream, hsize, hal]

/-! ## A source found exhausted -/

theorem dcs_getuntil_grow_bounded (alloc_ok : Nat → Bool) (need outpos : Nat) :
    ∀ (fuel : Nat) (out : Option (List Byte)) (outsize : Nat),
      outsize ≤ PTRDIFF_MAX →
      (need + outpos - outsize) + (if out = none then 2 else 1) ≤ fuel →
      ∃ g, dcs_getuntil_grow alloc_ok need outpos fuel out outsize = some g := by
  intro fuel
  induction fuel with
  | zero =>
    intro out outsize _ h
    split at h <;> omega
  | succ fuel ih =>
    intro out outsize hmax hf
    unfold dcs_getuntil_grow
    by_cases hc : out = none ∨ need > size_sub outsize outpos
    · simp only [hc, if_true]
      by_cases hal : realloc_ok alloc_ok
          (if outsize < 64 then 64 else (outsize * 2) % 2 ^ SIZE_BITS) = true
      · simp only [hal, Bool.not_true, Bool.false_eq_true, if_false]
        have hb : (if outsize < 64 then 64 else (outsize * 2) % 2 ^ SIZE_BITS)
            ≤ PTRDIFF_MAX := by
          simp only [realloc_ok, Bool.and_eq_true, decide_eq_true_eq] at hal
          exact hal.2
        have hgt : outsize < (if outsize < 64 then 64 else (outsize * 2) % 2 ^ SIZE_BITS) := by
          simp only [PTRDIFF_MAX, SIZE_BITS] at hmax
          split
          · omega
          · simp only [SIZE_BITS]
            omega
        apply ih _ _ hb
        simp only [reduceCtorEq, if_false]
        rcases hc with hc | hc
        · simp only [hc, if_true] at hf
          omega
        · have hlt : outsize < need + outpos := by
            by_contra hge
            rw [size_sub_of_le (by omega)] at hc
            omega
          split at hf <;> omega
      · simp only [hal, Bool.not_false, if_true]
        exact ⟨_, rfl⟩
    · simp only [hc, if_false]
      exact ⟨_, rfl⟩

theorem dcs_getuntil_grow_total (alloc_ok : Nat → Bool) (need outpos fuel : Nat)
    (out : Option (List Byte)) (outsize : Nat) (hf : need + outpos + 2 ≤ fuel) :
    ∃ g, dcs_getuntil_grow alloc_ok need outpos fuel out outsize = some g := by
  by_cases hmax : outsize ≤ PTRDIFF_MAX
  · exact dcs_getuntil_grow_bounded alloc_ok need outpos fuel out outsize hmax
      (by split <;> omega)
  · obtain ⟨fuel1, rfl⟩ : ∃ f, fuel = f + 1 := ⟨fuel - 1, by omega⟩
    unfold dcs_getuntil_grow
    by_cases hc : out = none ∨ need > size_sub outsize outpos
    · simp only [hc, if_true]
      by_cases hal : realloc_ok alloc_ok
          (if outsize < 64 then 64 else (outsize * 2) % 2 ^ SIZE_BITS) = true
      · simp only [hal, Bool.not_true, Bool.false_eq_true, if_false]
        have hb : (if outsize < 64 then 64 else (outsize * 2) % 2 ^ SIZE_BITS)
            ≤ PTRDIFF_MAX := by
          simp only [realloc_ok, Bool.and_eq_true, decide_eq_true_eq] at hal
          exact hal.2
        exact dcs_getuntil_grow_bounded alloc_ok need outpos fuel1 _ _ hb
          (by simp only [reduceCtorEq, if_false]; omega)
      · simp only [hal, Bool.not_false, if_true]
        exact ⟨_, rfl⟩
    · simp only [hc, if_false]
      exact ⟨_, rfl⟩

theorem eof_step_refl {T : Type} (s : dcs_stream T) (hr : s.read = true)
    (hf : s.fp_eof = true) (hp : s.pos ≤ s.len) : eof_step s s :=
  ⟨rfl, hf, rfl, rfl, hr, rfl, Nat.le_refl _, hp⟩

theorem eof_step_trans {T : Type} {a b c : dcs_stream T} (h1 : eof_step a b)
    (h2 : eof_step b c) : eof_step a c :=
  ⟨h2.compr_eq.trans h1.compr_eq, h2.flag, h2.len_eq.trans h1.len_eq,
    h2.buf_eq.trans h1.buf_eq, h2.is_read, h2.cap_eq.trans h1.cap_eq,
    Nat.le_trans h1.pos_ge h2.pos_ge, h2.pos_le⟩

theorem eof_step_advance {T : Type} (s : dcs_stream T) (hr : s.read = true)
    (hf : s.fp_eof = true) (n : Nat) (hn : s.pos + n ≤ s.len) (prev : Int) :
    eof_step s { s with pos := s.pos + n, prevous_getc := prev } :=
  ⟨rfl, hf, rfl, rfl, hr, rfl, Nat.le_add_right _ _, hn⟩

theorem dcs_read_loop_eof {T : Type} (tr : Transport T) (size : Nat) :
    ∀ (fuel : Nat) (s : dcs_stream T) (bdest : List Byte) (read : Nat),
      s.read = true → s.fp_eof = true → s.pos ≤ s.len → (size - read) + 2 ≤ fuel →
      ∃ r, dcs_read_loop tr size fuel s bdest read = some r ∧ eof_step s r.1 ∧
        (s.pos = s.len → r.2.2 = read) := by
  intro fuel
  induction fuel with
  | zero => intro s bdest read _ _ _ h; omega
  | succ fuel ih =>
    intro s bdest read hr hf hp hfu
    unfold dcs_read_loop
    by_cases hlt : read < size
    · simp only [hlt, if_true]
      rw [dcs_moredata_at_eof tr s hr hf]
      by_cases hpe : s.pos = s.len
      · simp only [hpe, if_true, ne_eq, not_true_eq_false, if_false]
        exact ⟨_, rfl, eof_step_refl s hr hf hp, fun _ => rfl⟩
      · simp only [hpe, if_false, ne_eq, one_ne_zero, not_false_eq_true, if_true]
        rw [size_sub_of_le hp, dcs_size_min_eq]
        obtain ⟨r, h1, h2, _⟩ := ih
          { s with pos := s.pos + min (s.len - s.pos) (size - read) }
          (memcpy bdest read ((s.buf.drop s.pos).take (min (s.len - s.pos) (size - read))))
          (read + min (s.len - s.pos) (size - read)) hr hf
          (by show s.pos + min (s.len - s.pos) (size - read) ≤ s.len; omega) (by omega)
        refine ⟨r, h1, eof_step_trans ?_ h2, fun h0 => False.elim h0⟩
        exact eof_step_advance s hr hf _ (by omega) s.prevous_getc
    · simp only [hlt, if_false]
      exact ⟨_, rfl, eof_step_refl s hr hf hp, fun _ => rfl⟩

theorem bytes_to_delim_pos (b : List Byte) (delim : Byte) (n : Nat) (hn : 1 ≤ n) :
    1 ≤ (match memchr b delim with
      | some i => i + 1
      | none => n) := by
  cases memchr b delim with
  | none => exact hn
  | some i => exact Nat.succ_le_succ (Nat.zero_le i)

theorem dcs_getuntil_loop_eof {T : Type} (tr : Transport T) (alloc_ok : Nat → Bool)
    (delim : Byte) (gfuel : Nat) :
    ∀ (fuel : Nat) (s : dcs_stream T) (out : Option (List Byte)) (outsize outpos : Nat)
      (found overrun : Bool),
      s.read = true → s.fp_eof = true → s.pos ≤ s.len →
      (s.len - s.pos) + 2 ≤ fuel → outpos + (s.len - s.pos) + 2 ≤ gfuel →
      ∃ r, dcs_getuntil_loop tr alloc_ok delim gfuel fuel s out outsize outpos found overrun
          = some r ∧
        eof_step s r.stream ∧ (s.pos = s.len → r.ret = (outpos : Int)) := by
  intro fuel
  induction fuel with
  | zero => intro s out outsize outpos found overrun _ _ _ h; omega
  | succ fuel ih =>
    intro s out outsize outpos found overrun hr hf hp hfu hgf
    unfold dcs_getuntil_loop
    by_cases hfound : found = true
    · simp only [hfound, if_true]
      exact ⟨_, rfl, eof_step_refl s hr hf hp, fun _ => rfl⟩
    · simp only [hfound, Bool.false_eq_true, if_false]
      rw [dcs_moredata_at_eof tr s hr hf]
      by_cases hpe : s.pos = s.len
      · simp only [hpe, if_true]
        exact ⟨_, rfl, eof_step_refl s hr hf hp, fun _ => rfl⟩
      · simp only [hpe, if_false, one_ne_zero]
        rw [size_sub_of_le hp]
        have hle := bytes_to_delim_le ((s.buf.drop s.pos).take (s.len - s.pos)) delim
          (s.len - s.pos) (by rw [List.length_take]; exact Nat.min_le_left _ _)
        have hge := bytes_to_delim_pos ((s.buf.drop s.pos).take (s.len - s.pos)) delim
          (s.len - s.pos) (by omega)
        revert hle hge
        generalize (match memchr ((s.buf.drop s.pos).take (s.len - s.pos)) delim with
          | some i => i + 1
          | none => s.len - s.pos) = btd
        intro hle hge
        obtain ⟨g, hg⟩ := dcs_getuntil_grow_total alloc_ok btd outpos gfuel out outsize
          (by omega)
        obtain ⟨o1, os1, ok⟩ := g
        cases ok with
        | false =>
          simp only [hg]
          exact ⟨_, rfl, eof_step_refl s hr hf hp, fun h0 => False.elim h0⟩
        | true =>
          simp only [hg]
          obtain ⟨r, h1, h2, _⟩ := ih { s with pos := s.pos + btd }
            (some (((memcpy (o1.getD []) outpos ((s.buf.drop s.pos).take btd)).take
              (o1.getD []).length).set (outpos + btd) 0)) os1 (outpos + btd)
            (memchr ((s.buf.drop s.pos).take (s.len - s.pos)) delim).isSome
            (overrun || decide ((o1.getD []).length ≤ outpos + btd)) hr hf
            (by show s.pos + btd ≤ s.len; omega)
            (by show s.len - (s.pos + btd) + 2 ≤ fuel; omega)
            (by show outpos + btd + (s.len - (s.pos + btd)) + 2 ≤ gfuel; omega)
          refine ⟨r, h1, eof_step_trans ?_ h2, fun h0 => False.elim h0⟩
          exact eof_step_advance s hr hf btd (by omega) s.prevous_getc

theorem dcs_getc_eof {T : Type} (tr : Transport T) (s : dcs_stream T)
    (hr : s.read = true) (hf : s.fp_eof = true) (hp : s.pos ≤ s.len) :
    eof_step s (dcs_getc tr s).1 ∧ (s.pos = s.len → (dcs_getc tr s).2 = -1) := by
  by_cases hpe : s.pos = s.len
  · have hg : dcs_getc tr s = (s, -1) := by
      unfold dcs_getc
      rw [dcs_moredata_at_eof tr s hr hf]
      simp [hr, hpe]
    rw [hg]
    exact ⟨eof_step_refl s hr hf hp, fun _ => rfl⟩
  · have hg : dcs_getc tr s =
        ({ s with pos := s.pos + 1, prevous_getc := ((buf_at s.buf s.pos).val : Int) },
          ((buf_at s.buf s.pos).val : Int)) := by
      unfold dcs_getc
      rw [dcs_moredata_at_eof tr s hr hf]
      simp [hr, hpe]
    rw [hg]
    exact ⟨eof_step_advance s hr hf 1 (by omega) _, fun h0 => absurd h0 hpe⟩

theorem step_eof {T : Type} (tr : Transport T) (alloc_ok : Nat → Bool) (fuel : Nat)
    (s : dcs_stream T) (op : Op) (hop : consuming op)
    (hr : s.read = true) (hf : s.fp_eof = true) (hp : s.pos ≤ s.len)
    (hfu : s.len + 2 ≤ fuel) (hfu2 : ∀ d n, op = Op.read d n → n + 2 ≤ fuel) :
    ∃ r, step tr alloc_ok fuel s op = some r ∧ eof_step s r.1 ∧
      (s.pos = s.len → (op = Op.getc → r.2 = -1) ∧
        (∀ d n, op = Op.read (some d) n → r.2 = 0)) := by
  cases op with
  | setbufsize size => exact False.elim hop
  | ungetc => exact False.elim hop
  | write src size => exact False.elim hop
  | flush => exact False.elim hop
  | getc =>
    obtain ⟨h1, h2⟩ := dcs_getc_eof tr s hr hf hp
    exact ⟨_, rfl, h1, fun h0 => ⟨fun _ => h2 h0, fun d n h => by simp at h⟩⟩
  | read dest size =>
    cases dest with
    | none =>
      refine ⟨(s, -1), by simp [step, dcs_read], eof_step_refl s hr hf hp, fun _ => ?_⟩
      exact ⟨fun h => by simp at h, fun d n h => by simp at h⟩
    | some d =>
      obtain ⟨q, hq, h1, h2⟩ := dcs_read_loop_eof tr size fuel s d 0 hr hf hp
        (by have := hfu2 (some d) size rfl; omega)
      refine ⟨({ q.1 with prevous_getc := -1 }, (q.2.2 : Int)), ?_, ?_, fun h0 => ?_⟩
      · simp [step, dcs_read, hr, hq]
      · exact ⟨h1.compr_eq, h1.flag, h1.len_eq, h1.buf_eq, h1.is_read, h1.cap_eq,
          h1.pos_ge, h1.pos_le⟩
      · refine ⟨fun h => by simp at h, fun _ _ _ => ?_⟩
        show ((q.2.2 : Nat) : Int) = 0
        rw [h2 h0]
        rfl
  | getuntil dest size delim =>
    obtain ⟨q, hq, h1, _⟩ := dcs_getuntil_loop_eof tr alloc_ok delim fuel fuel s dest size 0
      false false hr hf hp (by omega) (by omega)
    refine ⟨(q.stream, q.ret), ?_, h1, fun _ => ⟨fun h => by simp at h, fun d n h => by simp at h⟩⟩
    simp [step, dcs_getuntil, hr, hq]

theorem run_eof {T : Type} (tr : Transport T) (alloc_ok : Nat → Bool) (fuel : Nat) :
    ∀ (ops : List Op) (s : dcs_stream T), (∀ op ∈ ops, consuming op) →
      s.read = true → s.fp_eof = true → s.pos ≤ s.len → s.len + 2 ≤ fuel →
      (∀ d n, Op.read d n ∈ ops → n + 2 ≤ fuel) →
      ∃ r, run tr alloc_ok fuel ops s = some r ∧ eof_step s r.1 ∧
        r.2.map Prod.fst = ops ∧
        (s.pos = s.len → ∀ p ∈ r.2, (p.1 = Op.getc → p.2 = -1) ∧
          (∀ d n, p.1 = Op.read (some d) n → p.2 = 0)) := by
  intro ops
  induction ops with
  | nil =>
    intro s _ hr hf hp _ _
    exact ⟨(s, []), rfl, eof_step_refl s hr hf hp, rfl, fun _ p hp => by simp at hp⟩
  | cons op ops ih =>
    intro s hops hr hf hp hfu hfu2
    obtain ⟨q, hq, h1, h2⟩ := step_eof tr alloc_ok fuel s op (hops op (by simp)) hr hf hp hfu
      (fun d n h => hfu2 d n (by simp [h]))
    obtain ⟨t, ht, g1, g2, g3⟩ := ih q.1 (fun o ho => hops o (by simp [ho])) h1.is_read h1.flag
      h1.pos_le (by rw [h1.len_eq]; exact hfu) (fun d n h => hfu2 d n (by simp [h]))
    refine ⟨(t.1, (op, q.2) :: t.2), ?_, eof_step_trans h1 g1, by simp [g2], ?_⟩
    · simp [run, hq, ht]
    · intro h0 p hpm
      simp only [List.mem_cons] at hpm
      rcases hpm with hpm | hpm
      · subst hpm
        exact h2 h0
      · have hq0 : q.1.pos = q.1.len := by
          have a := h1.pos_ge
          have b := h1.pos_le
          have c := h1.len_eq
          omega
        exact g3 hq0 p hpm

/-- C9 (short-read termination).  On a read stream over any transport (whose
calls are recorded by `traced`): a fill that leaves fewer valid bytes than the
capacity sets the source-exhausted flag; and from every state in which the flag
is set, any sequence of `dcs_read`, `dcs_getc` and `dcs_getuntil` calls, in any
order and number, returns, leaves the flag set and leaves the transport state
and the record of its calls unchanged, so the transport is never invoked again;
when moreover the bytes of the last fill have been consumed
(`pos = len`), every `dcs_getc` of the sequence returns -1 and every `dcs_read`
with a non-null destination returns 0. -/
theorem short_read_termination {T : Type} (tr : Transport T) (alloc_ok : Nat → Bool)
    (s : dcs_stream (T × List Call)) (hr : s.read = true) (hp : s.pos ≤ s.len)
    (ops : List Op) (hops : ∀ op ∈ ops, consuming op) (fuel : Nat)
    (hfu : s.len + 2 ≤ fuel) (hfu2 : ∀ d n, Op.read d n ∈ ops → n + 2 ≤ fuel) :
    ((_dcs_fillbuf (traced tr) s).1.len < (_dcs_fillbuf (traced tr) s).1.cap →
      (_dcs_fillbuf (traced tr) s).1.fp_eof = true) ∧
    (s.fp_eof = true →
      ∃ r, run (traced tr) alloc_ok fuel ops s = some r ∧
        r.2.map Prod.fst = ops ∧ r.1.fp_eof = true ∧ r.1.compr = s.compr ∧
        (s.pos = s.len → ∀ p ∈ r.2, (p.1 = Op.getc → p.2 = -1) ∧
          (∀ d n, p.1 = Op.read (some d) n → p.2 = 0))) := by
  constructor
  · rw [_dcs_fillbuf_eq (traced tr) s hr]
    intro h
    have h : ((traced tr).dcs_compr_read s.compr s.buf s.len s.cap).2.2.1 < s.cap := h
    show (s.fp_eof || decide (((traced tr).dcs_compr_read s.compr s.buf s.len s.cap).2.2.1
      < s.cap)) = true
    simp [h]
  · intro hf
    obtain ⟨r, h1, h2, h3, h4⟩ := run_eof (traced tr) alloc_ok fuel ops s hops hr hf hp hfu hfu2
    exact ⟨r, h1, h3, h2.flag, h2.compr_eq, h4⟩

/-- C9 on the stream reached from a fresh stream over `[5]` by reading its only
byte, followed by a `dcs_getc`, a `dcs_read` and a `dcs_getuntil`. -/
theorem short_read_termination_witness :
    (dcs_read (traced plain_source) 3 (fresh_stream ([5], []) true 2) (some [0]) 1
        = some (exhausted_example, some [5], 1) ∧
      exhausted_example.read = true ∧ exhausted_example.pos ≤ exhausted_example.len ∧
      (∀ op ∈ [Op.getc, Op.read (some [0]) 1, Op.getuntil none 0 10], consuming op) ∧
      exhausted_example.len + 2 ≤ 3 ∧
      (∀ d n, Op.read d n ∈ [Op.getc, Op.read (some [0]) 1, Op.getuntil none 0 10] →
        n + 2 ≤ 3)) ∧
    (exhausted_example.fp_eof = true →
      ∃ r, run (traced plain_source) alloc_always 3
            [Op.getc, Op.read (some [0]) 1, Op.getuntil none 0 10] exhausted_example = some r ∧
        r.2.map Prod.fst = [Op.getc, Op.read (some [0]) 1, Op.getuntil none 0 10] ∧
        r.1.fp_eof = true ∧ r.1.compr = exhausted_example.compr ∧
        (exhausted_example.pos = exhausted_example.len →
          ∀ p ∈ r.2, (p.1 = Op.getc → p.2 = -1) ∧
            (∀ d n, p.1 = Op.read (some d) n → p.2 = 0))) := by
  have hops : ∀ op ∈ [Op.getc, Op.read (some [0]) 1, Op.getuntil none 0 10], consuming op := by
    intro op hop
    simp only [List.mem_cons, List.mem_singleton, List.mem_nil_iff, or_false] at hop
    rcases hop with h | h | h <;> rw [h] <;> exact trivial
  have hfu2 : ∀ d n, Op.read d n ∈ [Op.getc, Op.read (some [0]) 1, Op.getuntil none 0 10] →
      n + 2 ≤ 3 := by
    intro d n h
    simp only [List.mem_cons, List.mem_singleton, List.mem_nil_iff, or_false,
      reduceCtorEq, false_or, Op.read.injEq] at h
    omega
  exact ⟨⟨rfl, rfl, by decide, hops, by decide, hfu2⟩,
    (short_read_termination plain_source alloc_always exhausted_example rfl (by decide)
      [Op.getc, Op.read (some [0]) 1, Op.getuntil none 0 10] hops 3 (by decide) hfu2).2⟩

/-! ## Transport failures during a bulk read -/

/-- C10 at a failing input.  On a fresh read stream of capacity 4 whose
transport fails on every read, `dcs_moredata` reports the failed fill (-1), but
`dcs_read` of 2 bytes returns 0 when the failing fill left no valid byte, and
when the failing fill left 2 valid bytes it copies them into the destination
and returns 2: in neither case is the result negative. -/
theorem read_ignores_failed_fill :
    (dcs_moredata (failing_source 0) (fresh_stream () true 4)).2 = -1 ∧
    (∃ s, dcs_read (failing_source 0) 4 (fresh_stream () true 4) (some [7, 7]) 2
        = some (s, some [7, 7], 0)) ∧
    (dcs_moredata (failing_source 2) (fresh_stream () true 4)).2 = -1 ∧
    (∃ s, dcs_read (failing_source 2) 4 (fresh_stream () true 4) (some [7, 7]) 2
        = some (s, some [0, 0], 2)) :=
  ⟨rfl, ⟨_, rfl⟩, rfl, ⟨_, rfl⟩⟩

/-! ## Calls in the wrong direction -/

theorem dcs_read_on_write {T : Type} (tr : Transport T) (fuel : Nat) (s : dcs_stream T)
    (h : s.read = false) (dest : Option (List Byte)) (size : Nat) :
    dcs_read tr fuel s dest size = some (s, dest, -1) := by
  cases dest <;> simp [dcs_read, h]

theorem dcs_getc_on_write {T : Type} (tr : Transport T) (s : dcs_stream T)
    (h : s.read = false) : dcs_getc tr s = (s, -1) := by
  simp [dcs_getc, h]

theorem dcs_ungetc_on_write {T : Type} (s : dcs_stream T) (h : s.read = false) :
    dcs_ungetc s = (s, -1) := by
  simp [dcs_ungetc, h]

theorem dcs_getuntil_on_write {T : Type} (tr : Transport T) (alloc_ok : Nat → Bool)
    (fuel : Nat) (s : dcs_stream T) (h : s.read = false) (dest : Option (List Byte))
    (size : Nat) (delim : Byte) :
    dcs_getuntil tr alloc_ok fuel s dest size delim = some ⟨s, dest, size, -1, false⟩ := by
  simp [dcs_getuntil, h]

theorem dcs_write_on_read {T : Type} (tr : Transport T) (fuel : Nat) (s : dcs_stream T)
    (h : s.read = true) (src : Option (List Byte)) (size : Nat) :
    dcs_write tr fuel s src size = some (s, -1) := by
  cases src <;> simp [dcs_write, h]

theorem dcs_flush_on_read {T : Type} (tr : Transport T) (s : dcs_stream T)
    (h : s.read = true) : dcs_flush tr s = (s, -1) := by
  simp [dcs_flush, h]

/-- C16 (wrong-direction calls).  Over any transport whose calls are recorded by
`traced`, and for every fuel: on a write stream `dcs_read`, `dcs_getc`,
`dcs_ungetc` and `dcs_getuntil`, and on a read stream `dcs_write` and
`dcs_flush`, return -1 and leave the stream exactly as it was: every field,
the transport state and the record of its calls included, so no transport
operation is invoked. -/
theorem wrong_direction_no_effect {T : Type} (tr : Transport T) (alloc_ok : Nat → Bool)
    (fuel : Nat) (s : dcs_stream (T × List Call)) :
    (s.read = false →
      (∀ dest size, dcs_read (traced tr) fuel s dest size = some (s, dest, -1)) ∧
      dcs_getc (traced tr) s = (s, -1) ∧
      dcs_ungetc s = (s, -1) ∧
      (∀ dest size delim,
        dcs_getuntil (traced tr) alloc_ok fuel s dest size delim
          = some ⟨s, dest, size, -1, false⟩)) ∧
    (s.read = true →
      (∀ src size, dcs_write (traced tr) fuel s src size = some (s, -1)) ∧
      dcs_flush (traced tr) s = (s, -1)) :=
  ⟨fun h => ⟨fun dest size => dcs_read_on_write (traced tr) fuel s h dest size,
      dcs_getc_on_write (traced tr) s h, dcs_ungetc_on_write s h,
      fun dest size delim => dcs_getuntil_on_write (traced tr) alloc_ok fuel s h dest size delim⟩,
    fun h => ⟨fun src size => dcs_write_on_read (traced tr) fuel s h src size,
      dcs_flush_on_read (traced tr) s h⟩⟩

/-! ## Transport failures during a delimiter read and at close -/

/-- C11 at a failing input.  On a fresh read stream of capacity 4 whose
transport fails on every read, `dcs_moredata` reports the failed fill (-1), but
`dcs_getuntil` returns the number of bytes it accumulated: 0 when the failing
fill left no valid byte, 2 (with the two bytes copied) when it left 2 valid
bytes; the result is never negative. -/
theorem getuntil_ignores_failed_fill :
    (dcs_moredata (failing_source 0) (fresh_stream () true 4)).2 = -1 ∧
    (∃ r, dcs_getuntil (failing_source 0) alloc_always 3 (fresh_stream () true 4) none 0 10
        = some r ∧ r.ret = 0) ∧
    (dcs_moredata (failing_source 2) (fresh_stream () true 4)).2 = -1 ∧
    (∃ r, dcs_getuntil (failing_source 2) alloc_always 3 (fresh_stream () true 4) none 0 10
        = some r ∧ r.ret = 2 ∧ (r.dest.getD []).take 2 = [0, 0]) :=
  ⟨rfl, ⟨_, rfl, rfl⟩, rfl, ⟨_, rfl, rfl, rfl⟩⟩

/-- C12 at a failing input.  On a fresh write stream of capacity 4 over a
transport whose write fails and whose close succeeds, after `dcs_write` has
accepted the byte `[1]`, the drain that `_dcs_close` performs fails
(`_dcs_writebuf` returns -1 after handing `[1]` to the transport), yet
`_dcs_close` returns 0. -/
theorem close_ignores_failed_drain :
    ∃ s, dcs_write failing_sink 2 (fresh_stream [] false 4) (some [1]) 1 = some (s, 1) ∧
      s.pos = 1 ∧ (_dcs_writebuf failing_sink s).2 = -1 ∧
      _dcs_close failing_sink s = ([[1]], 0) :=
  ⟨_, rfl, rfl, rfl, rfl⟩

/-! ## Flush -/

theorem nat_lor_eq_zero (m n : Nat) : m ||| n = 0 ↔ m = 0 ∧ n = 0 := by
  constructor
  · intro h
    constructor
    · apply Nat.eq_of_testBit_eq
      intro i
      have := congrArg (fun x => Nat.testBit x i) h
      simp only [Nat.testBit_lor, Nat.zero_testBit, Bool.or_eq_false_iff] at this
      simp [this.1]
    · apply Nat.eq_of_testBit_eq
      intro i
      have := congrArg (fun x => Nat.testBit x i) h
      simp only [Nat.testBit_lor, Nat.zero_testBit, Bool.or_eq_false_iff] at this
      simp [this.2]
  · rintro ⟨rfl, rfl⟩
    rfl

theorem int_lor_eq_zero (a b : Int) : Int.lor a b = 0 ↔ a = 0 ∧ b = 0 := by
  cases a <;> cases b <;> simp [Int.lor, nat_lor_eq_zero]

/-- C14 (flush).  Over any transport whose calls are recorded by `traced`: on a
write stream with no pending bytes (`pos = 0`) `dcs_flush` returns 0 and leaves
the stream, the transport state and the record of calls unchanged; on a write
stream with pending bytes it hands the valid bytes of the buffer (the pending
bytes, as `len = pos` on a write stream) to the transport in one write, then
invokes the transport's flush, adds exactly these two calls to the record,
leaves `pos = len = 0`, and returns 0 iff both calls returned 0; on a read
stream it returns -1 and changes nothing. -/
theorem flush_contract {T : Type} (tr : Transport T) (s : dcs_stream (T × List Call)) :
    (s.read = false → s.pos = 0 → dcs_flush (traced tr) s = (s, 0)) ∧
    (s.read = false → s.pos ≠ 0 →
      dcs_flush (traced tr) s
        = ({ s with
              compr := ((tr.dcs_compr_flush (tr.dcs_compr_write s.compr.1 s.buf s.len).1).1,
                s.compr.2 ++ [Call.write (s.buf.take s.len), Call.flush]),
              len := 0, pos := 0 },
            Int.lor (tr.dcs_compr_write s.compr.1 s.buf s.len).2
              (tr.dcs_compr_flush (tr.dcs_compr_write s.compr.1 s.buf s.len).1).2) ∧
      ((dcs_flush (traced tr) s).2 = 0 ↔
        (tr.dcs_compr_write s.compr.1 s.buf s.len).2 = 0 ∧
          (tr.dcs_compr_flush (tr.dcs_compr_write s.compr.1 s.buf s.len).1).2 = 0)) ∧
    (s.read = true → dcs_flush (traced tr) s = (s, -1)) := by
  refine ⟨fun hr hp => by simp [dcs_flush, hr, hp], fun hr hp => ?_,
    fun hr => dcs_flush_on_read (traced tr) s hr⟩
  have h : dcs_flush (traced tr) s
      = ({ s with
            compr := ((tr.dcs_compr_flush (tr.dcs_compr_write s.compr.1 s.buf s.len).1).1,
              s.compr.2 ++ [Call.write (s.buf.take s.len), Call.flush]),
            len := 0, pos := 0 },
          Int.lor (tr.dcs_compr_write s.compr.1 s.buf s.len).2
            (tr.dcs_compr_flush (tr.dcs_compr_write s.compr.1 s.buf s.len).1).2) := by
    simp [dcs_flush, hr, hp, traced]
  refine ⟨h, ?_⟩
  rw [h]
  exact int_lor_eq_zero _ _

/-! ## Single-character reads over `plain_source` -/

theorem buf_at_of_take (buf : List Byte) (pos : Nat) (b : Byte)
    (h : (buf.drop pos).take 1 = [b]) : buf_at buf pos = b := by
  unfold buf_at
  cases hd : buf.drop pos with
  | nil => simp [hd] at h
  | cons x xs =>
    simp only [hd, List.take_succ_cons, List.take_zero, List.cons.injEq, and_true] at h
    have hlt : pos < buf.length := by
      by_contra hge
      rw [List.drop_eq_nil_of_le (by omega)] at hd
      simp at hd
    rw [List.getD_eq_getElem _ _ hlt]
    have := List.getElem_drop buf (i := pos) (j := 0) (h := by simp [hd])
    simp only [hd, List.getElem_cons_zero, Nat.add_zero] at this
    rw [← this, h]

theorem dcs_getc_source (s : dcs_stream (List Byte)) (h : source_inv s) :
    source_inv (dcs_getc plain_source s).1 ∧
      (undelivered s = [] →
        (dcs_getc plain_source s).2 = -1 ∧ undelivered (dcs_getc plain_source s).1 = []) ∧
      (∀ b rest, undelivered s = b :: rest →
        (dcs_getc plain_source s).2 = (b.val : Int) ∧
          undelivered (dcs_getc plain_source s).1 = rest ∧
          (dcs_getc plain_source s).1.pos = (dcs_moredata plain_source s).1.pos + 1) := by
  obtain ⟨hinv1, hu1, _, hm2, hpl⟩ := dcs_moredata_source s h
  have hr := h.wf.is_read
  by_cases hnil : undelivered s = []
  · have hg : dcs_getc plain_source s = ((dcs_moredata plain_source s).1, -1) := by
      simp [dcs_getc, hr, hm2, hnil]
    rw [hg]
    refine ⟨hinv1, fun _ => ⟨rfl, by rw [hu1]; exact hnil⟩, fun b rest hb => ?_⟩
    rw [hnil] at hb
    simp at hb
  · have hg : dcs_getc plain_source s =
        ({ (dcs_moredata plain_source s).1 with
            pos := (dcs_moredata plain_source s).1.pos + 1,
            prevous_getc := ((buf_at (dcs_moredata plain_source s).1.buf
              (dcs_moredata plain_source s).1.pos).val : Int) },
          ((buf_at (dcs_moredata plain_source s).1.buf
              (dcs_moredata plain_source s).1.pos).val : Int)) := by
      simp [dcs_getc, hr, hm2, hnil]
    rw [hg]
    have hwf := hinv1.wf
    have hlt := hpl hnil
    obtain ⟨hch, hud⟩ := undelivered_step (s := (dcs_moredata plain_source s).1)
      (by rw [hwf.buf_len]; exact hwf.len_le) 1 (by omega)
    rw [hu1] at hch hud
    refine ⟨⟨⟨hwf.is_read, hwf.cap_pos, ?_, hwf.len_le, hwf.buf_len⟩, hinv1.eof_rest⟩,
      fun h0 => absurd h0 hnil, fun b rest hb => ?_⟩
    · show (dcs_moredata plain_source s).1.pos + 1 ≤ (dcs_moredata plain_source s).1.len
      omega
    · rw [hb] at hch hud
      simp only [List.take_succ_cons, List.take_zero, List.drop_succ_cons, List.drop_zero]
        at hch hud
      refine ⟨?_, ?_, rfl⟩
      · show ((buf_at (dcs_moredata plain_source s).1.buf
            (dcs_moredata plain_source s).1.pos).val : Int) = (b.val : Int)
        rw [buf_at_of_take _ _ b hch]
      · exact hud

theorem getc_seq_source :
    ∀ (k : Nat) (s : dcs_stream (List Byte)), source_inv s →
      (getc_seq plain_source k s).1
          = ((undelivered s).take k).map (fun b => (b.val : Int))
            ++ List.replicate (k - (undelivered s).length) (-1) ∧
        undelivered (getc_seq plain_source k s).2 = (undelivered s).drop k ∧
        source_inv (getc_seq plain_source k s).2 := by
  intro k
  induction k with
  | zero => intro s h; exact ⟨by simp [getc_seq], by simp [getc_seq], h⟩
  | succ k ih =>
    intro s h
    obtain ⟨h1, h2, h3⟩ := dcs_getc_source s h
    obtain ⟨g1, g2, g3⟩ := ih (dcs_getc plain_source s).1 h1
    cases hu : undelivered s with
    | nil =>
      obtain ⟨a1, a2⟩ := h2 hu
      rw [a2] at g1 g2
      refine ⟨?_, ?_, g3⟩
      · simp only [getc_seq, g1, a1]
        simp [List.replicate_succ]
      · simp only [getc_seq, g2]
        simp
    | cons b rest =>
      obtain ⟨a1, a2, _⟩ := h3 b rest hu
      rw [a2] at g1 g2
      refine ⟨?_, ?_, g3⟩
      · simp only [getc_seq, g1, a1]
        simp
      · simp only [getc_seq, g2]
        simp

/-- C15 (single-character reads).  On a fresh read stream of capacity `c ≥ 1`
over the plain source `src`, `k` consecutive `dcs_getc` calls return the first
`k` bytes of `src`, each as its value in `0..255`, followed by -1 for every
call past the end of `src`: call number `i + 1` returns `src[i]` when
`i < |src|` and -1 otherwise, and the stream is left with `src.drop k`
undelivered.  In every state of such a stream with an undelivered byte `b`,
`dcs_getc` returns the value of `b`, which is never -1 (also for `b = 255`),
consumes exactly that byte and advances the position by one. -/
theorem getc_sequence (src : List Byte) (c : Nat) (hc : 1 ≤ c) (k : Nat) :
    (getc_seq plain_source k (fresh_stream src true c)).1
        = (src.take k).map (fun b => (b.val : Int)) ++ List.replicate (k - src.length) (-1) ∧
    (∀ i, i < k → (getc_seq plain_source k (fresh_stream src true c)).1[i]?
        = some (if h : i < src.length then ((src[i]).val : Int) else -1)) ∧
    undelivered (getc_seq plain_source k (fresh_stream src true c)).2 = src.drop k ∧
    (∀ (s : dcs_stream (List Byte)) (b : Byte) (rest : List Byte),
      source_inv s → undelivered s = b :: rest →
      (dcs_getc plain_source s).2 = (b.val : Int) ∧ (dcs_getc plain_source s).2 ≠ -1 ∧
        0 ≤ (dcs_getc plain_source s).2 ∧ (dcs_getc plain_source s).2 ≤ 255 ∧
        undelivered (dcs_getc plain_source s).1 = rest ∧
        (dcs_getc plain_source s).1.pos = (dcs_moredata plain_source s).1.pos + 1) := by
  obtain ⟨hs, hu⟩ := fresh_source_inv src c hc
  obtain ⟨h1, h2, _⟩ := getc_seq_source k _ hs
  rw [hu] at h1 h2
  refine ⟨h1, ?_, h2, ?_⟩
  · intro i hi
    rw [h1]
    by_cases hlt : i < src.length
    · simp only [hlt, dite_true]
      rw [List.getElem?_append_left (by simp [List.length_take]; omega)]
      simp [List.getElem?_map, List.getElem?_take, hi, List.getElem?_eq_getElem hlt]
    · simp only [hlt, dite_false]
      have hl : ((src.take k).map (fun b => (b.val : Int))).length = src.length := by
        simp [List.length_take]
        omega
      rw [List.getElem?_append_right (by omega), hl, List.getElem?_replicate]
      simp
      omega
  · intro s b rest hinv hb
    obtain ⟨_, _, h3⟩ := dcs_getc_source s hinv
    obtain ⟨a1, a2, a3⟩ := h3 b rest hb
    have hb255 : b.val < 256 := b.isLt
    refine ⟨a1, ?_, ?_, ?_, a2, a3⟩ <;> rw [a1] <;> omega

/-- C15 on a fresh stream of capacity 1 over `[255, 0]`, with three calls. -/
theorem getc_sequence_witness :
    1 ≤ 1 ∧ (getc_seq plain_source 3 (fresh_stream [255, 0] true 1)).1 = [255, 0, -1] :=
  ⟨by decide, (getc_sequence [255, 0] 1 (by decide) 3).1⟩

/-! ## A failing drain during `dcs_write` -/

theorem handed_cons (e : Call × Int) (l : List (Call × Int)) :
    handed (e :: l) = call_bytes e.1 ++ handed l := by
  simp [handed]

theorem dcs_write_loop_recorded {T : Type} (tr : Transport T) (bsrc : List Byte) :
    ∀ (fuel wrote : Nat) (s : dcs_stream (T × List (Call × Int))),
      write_wf s → wrote ≤ bsrc.length → bsrc.length - wrote < fuel →
      ∃ r new, dcs_write_loop (recorded tr) bsrc bsrc.length fuel s wrote = some r ∧
        r.1.compr.2 = s.compr.2 ++ new ∧ r.1.cap = s.cap ∧
        (∀ e ∈ new, ∃ w, e.1 = Call.write w ∧ w.length = s.cap) ∧
        ((r.2 = (bsrc.length : Int) ∧ write_wf r.1 ∧ (∀ e ∈ new, e.2 = 0) ∧
            handed new ++ r.1.buf.take r.1.pos = s.buf.take s.pos ++ bsrc.drop wrote) ∨
          (r.2 = -1 ∧ r.1.pos = 0 ∧ r.1.len = 0 ∧
            ∃ init last k, new = init ++ [last] ∧ (∀ e ∈ init, e.2 = 0) ∧ last.2 ≠ 0 ∧
              wrote < k ∧ k ≤ bsrc.length ∧
              handed new = s.buf.take s.pos ++ (bsrc.drop wrote).take (k - wrote))) := by
  intro fuel
  induction fuel with
  | zero => intro wrote s _ _ h; omega
  | succ fuel ih =>
    intro wrote s hwf hw hf
    obtain ⟨hr, hlt, hlen, hbl, hne⟩ := hwf
    unfold dcs_write_loop
    by_cases hlt2 : wrote < bsrc.length
    · simp only [hlt2, if_true]
      have hsub : size_sub s.cap s.pos = s.cap - s.pos := size_sub_of_le (by omega)
      rw [hsub, dcs_size_min_eq]
      set tocpy := min (s.cap - s.pos) (bsrc.length - wrote) with htc
      set chunk := (bsrc.drop wrote).take tocpy with hchunk
      have hcl : chunk.length = tocpy := by
        simp [hchunk, List.length_take, List.length_drop]
        omega
      have htpos : 1 ≤ tocpy := by omega
      have hrest : chunk ++ bsrc.drop (wrote + tocpy) = bsrc.drop wrote := by
        rw [hchunk, ← List.drop_drop, List.take_append_drop]
      have hbt : (memcpy s.buf s.pos chunk).take (s.pos + tocpy)
          = s.buf.take s.pos ++ chunk := by
        rw [← hcl]; exact memcpy_take _ _ _ (by omega)
      have hbl2 : (memcpy s.buf s.pos chunk).length = s.cap := by
        rw [memcpy_length _ _ _ (by omega), hbl]
      have htake : ∀ k, wrote + tocpy ≤ k →
          chunk ++ (bsrc.drop (wrote + tocpy)).take (k - (wrote + tocpy))
            = (bsrc.drop wrote).take (k - wrote) := by
        intro k hk
        have : k - wrote = tocpy + (k - (wrote + tocpy)) := by omega
        rw [this, List.take_add, List.drop_drop, hchunk]
      by_cases hfull : s.pos + tocpy = s.cap
      · simp only [hfull, if_true]
        set st := (tr.dcs_compr_write s.compr.1 (memcpy s.buf s.pos chunk) s.cap) with hst
        have hwb : _dcs_writebuf (recorded tr)
            { s with buf := memcpy s.buf s.pos chunk, pos := s.cap, len := s.cap }
            = ({ s with buf := memcpy s.buf s.pos chunk,
                        compr := (st.1, s.compr.2
                          ++ [(Call.write ((memcpy s.buf s.pos chunk).take s.cap), st.2)]),
                        len := 0, pos := 0 }, st.2) := rfl
        rw [hwb]
        have hwl : ((memcpy s.buf s.pos chunk).take s.cap).length = s.cap := by
          rw [List.length_take, hbl2]
          omega
        have hwe : (memcpy s.buf s.pos chunk).take s.cap = s.buf.take s.pos ++ chunk := by
          rw [← hfull, hbt]
        by_cases hs0 : st.2 = 0
        · dsimp only
          rw [if_neg (not_not.mpr hs0)]
          obtain ⟨r, new, h1, h2, h3, h4, h5⟩ := ih (wrote + tocpy)
            { s with buf := memcpy s.buf s.pos chunk,
                     compr := (st.1, s.compr.2
                       ++ [(Call.write ((memcpy s.buf s.pos chunk).take s.cap), st.2)]),
                     len := 0, pos := 0 }
            ⟨hr, by show 0 < s.cap; omega, rfl, hbl2, hne⟩ (by omega) (by omega)
          refine ⟨r, (Call.write ((memcpy s.buf s.pos chunk).take s.cap), st.2) :: new,
            h1, ?_, h3, ?_, ?_⟩
          · rw [h2]
            simp
          · intro e he
            simp only [List.mem_cons] at he
            rcases he with he | he
            · exact ⟨_, by rw [he], hwl⟩
            · exact h4 e he
          · rcases h5 with ⟨a1, a2, a3, a4⟩ | ⟨a1, a2, a3, init, last, k, b1, b2, b3, b4, b5, b6⟩
            · left
              refine ⟨a1, a2, ?_, ?_⟩
              · intro e he
                simp only [List.mem_cons] at he
                rcases he with he | he
                · rw [he]; exact hs0
                · exact a3 e he
              · rw [handed_cons, List.append_assoc, a4]
                simp only [call_bytes, List.take_zero, List.nil_append]
                rw [hwe, List.append_assoc, hrest]
            · right
              refine ⟨a1, a2, a3,
                (Call.write ((memcpy s.buf s.pos chunk).take s.cap), st.2) :: init, last, k,
                by rw [b1]; rfl, ?_, b3, by omega, b5, ?_⟩
              · intro e he
                simp only [List.mem_cons] at he
                rcases he with he | he
                · rw [he]; exact hs0
                · exact b2 e he
              · rw [handed_cons, b6]
                simp only [call_bytes, List.take_zero, List.nil_append]
                rw [hwe, List.append_assoc, htake k (by omega)]
        · dsimp only
          rw [if_pos hs0]
          refine ⟨_, [(Call.write ((memcpy s.buf s.pos chunk).take s.cap), st.2)], rfl, rfl, rfl,
            ?_, Or.inr ⟨rfl, rfl, rfl, [], _, wrote + tocpy, rfl, ?_, hs0, by omega, by omega, ?_⟩⟩
          · intro e he
            simp only [List.mem_singleton] at he
            exact ⟨_, by rw [he], hwl⟩
          · intro e he
            simp at he
          · simp only [handed, List.map_cons, List.map_nil, call_bytes, List.flatten_cons,
              List.flatten_nil, List.append_nil]
            rw [hwe]
            congr 1
            rw [hchunk]
            congr 1
            omega
      · simp only [hfull, if_false]
        obtain ⟨r, new, h1, h2, h3, h4, h5⟩ := ih (wrote + tocpy)
          { s with buf := memcpy s.buf s.pos chunk, pos := s.pos + tocpy,
                   len := s.pos + tocpy }
          ⟨hr, by show s.pos + tocpy < s.cap; omega, rfl, hbl2, hne⟩ (by omega) (by omega)
        refine ⟨r, new, h1, h2, h3, h4, ?_⟩
        have hbt2 : (memcpy s.buf s.pos chunk).take (s.pos + tocpy)
            = s.buf.take s.pos ++ chunk := hbt
        rcases h5 with ⟨a1, a2, a3, a4⟩ | ⟨a1, a2, a3, init, last, k, b1, b2, b3, b4, b5, b6⟩
        · left
          refine ⟨a1, a2, a3, ?_⟩
          rw [a4]
          show (memcpy s.buf s.pos chunk).take (s.pos + tocpy) ++ _ = _
          rw [hbt2, List.append_assoc, hrest]
        · right
          refine ⟨a1, a2, a3, init, last, k, b1, b2, b3, by omega, b5, ?_⟩
          rw [b6]
          show (memcpy s.buf s.pos chunk).take (s.pos + tocpy) ++ _ = _
          rw [hbt2, List.append_assoc, htake k (by omega)]
    · have hweq : wrote = bsrc.length := by omega
      simp only [hlt2, if_false]
      refine ⟨(s, (wrote : Int)), [], rfl, by simp, rfl, by simp, Or.inl ⟨by rw [hweq], ?_, by simp, ?_⟩⟩
      · exact ⟨hr, hlt, hlen, hbl, hne⟩
      · rw [hweq, List.drop_length]
        simp [handed]

theorem fresh_write_wf {T : Type} (compr : T) (c : Nat) (hc : 1 ≤ c) :
    write_wf (fresh_stream compr false c) := by
  refine ⟨rfl, by show 0 < c; omega, rfl, ?_, rfl⟩
  simp [fresh_stream, calloc]

/-- C13 (write aborts on a failing drain).  On a well-formed write stream over
any transport, whose calls and their statuses are recorded by `recorded`,
`dcs_write` of the bytes `src` returns, and the calls it adds to the record are
all writes of exactly `cap` bytes.  If one of them failed (status not 0), then
`dcs_write` returned -1, the failing write is the last call made (all earlier
ones returned 0), the bytes handed to the transport are the pending bytes of
the buffer followed by the first `k` bytes of `src` for some `k`, so no source
byte was accepted after the failing drain, and the buffer is left empty
(`pos = len = 0`): the bytes of the failing drain are gone from the stream.  If
none failed, `dcs_write` returned the size. -/
theorem write_aborts_on_failing_drain {T : Type} (tr : Transport T)
    (s : dcs_stream (T × List (Call × Int))) (hwf : write_wf s) (src : List Byte)
    (fuel : Nat) (hfuel : src.length < fuel) :
    ∃ r new, dcs_write (recorded tr) fuel s (some src) src.length = some r ∧
      r.1.compr.2 = s.compr.2 ++ new ∧
      (∀ e ∈ new, ∃ w, e.1 = Call.write w ∧ w.length = s.cap) ∧
      ((∀ e ∈ new, e.2 = 0) → r.2 = (src.length : Int)) ∧
      ((∃ e ∈ new, e.2 ≠ 0) →
        r.2 = -1 ∧ r.1.pos = 0 ∧ r.1.len = 0 ∧
        ∃ init last k, new = init ++ [last] ∧ (∀ e ∈ init, e.2 = 0) ∧ last.2 ≠ 0 ∧
          k ≤ src.length ∧ handed new = s.buf.take s.pos ++ src.take k) := by
  obtain ⟨r, new, h1, h2, _, h4, h5⟩ :=
    dcs_write_loop_recorded tr src fuel 0 s hwf (Nat.zero_le _) (by omega)
  refine ⟨r, new, ?_, h2, h4, ?_, ?_⟩
  · simp only [dcs_write, hwf.is_write, Bool.false_eq_true, if_false]
    exact h1
  · intro hall
    rcases h5 with ⟨a1, _⟩ | ⟨_, _, _, init, last, k, b1, _, b3, _⟩
    · exact a1
    · exact absurd (hall last (by rw [b1]; simp)) b3
  · rintro ⟨e, he, hne⟩
    rcases h5 with ⟨_, _, a3, _⟩ | ⟨a1, a2, a3, init, last, k, b1, b2, b3, _, b5, b6⟩
    · exact absurd (a3 e he) hne
    · refine ⟨a1, a2, a3, init, last, k, b1, b2, b3, b5, ?_⟩
      rw [b6]
      simp

/-- C13 on a fresh write stream of capacity 2 over a transport whose write
always fails, writing `[1, 2, 3]`: the first drain, of `[1, 2]`, fails. -/
theorem write_aborts_on_failing_drain_witness :
    (write_wf (fresh_stream (([] : List (List Byte)), ([] : List (Call × Int))) false 2) ∧
      [(1 : Byte), 2, 3].length < 4) ∧
    ∃ r new, dcs_write (recorded failing_sink) 4 (fresh_stream ([], []) false 2)
          (some [1, 2, 3]) 3 = some r ∧
      r.1.compr.2 = [] ++ new ∧
      ((∃ e ∈ new, e.2 ≠ 0) → r.2 = -1 ∧ r.1.pos = 0 ∧ r.1.len = 0) ∧
      ∃ r0, dcs_write (recorded failing_sink) 4 (fresh_stream ([], []) false 2)
            (some [1, 2, 3]) 3 = some r0 ∧
        r0.2 = -1 ∧ r0.1.compr.2 = [(Call.write [1, 2], -1)] := by
  have hwf := fresh_write_wf (([] : List (List Byte)), ([] : List (Call × Int))) 2 (by decide)
  obtain ⟨r, new, h1, h2, _, _, h5⟩ :=
    write_aborts_on_failing_drain failing_sink _ hwf [1, 2, 3] 4 (by decide)
  exact ⟨⟨hwf, by decide⟩, r, new, h1, h2, fun h => ⟨(h5 h).1, (h5 h).2.1, (h5 h).2.2.1⟩,
    _, rfl, rfl, rfl⟩

/-! ## Opening a stream -/

theorem _dcs_init_bad_mode (bufsize : Nat) (m : List Char) (malloc_ok calloc_ok : Bool)
    (h : m.headD (Char.ofNat 0) ≠ 'r' ∧ m.headD (Char.ofNat 0) ≠ 'w') :
    _dcs_init bufsize (some m) malloc_ok calloc_ok = none := by
  dsimp only [_dcs_init]
  exact if_pos h

/-- C17 at failing inputs.  For every mode whose first character is neither
`r` nor `w` (the empty mode included) and a known algorithm, `_dcs_init`
returns the null pointer and `dcs_dopen`, which does not test it, dereferences
it, whether the transport opens or not; `dcs_open` does the same.  For the
modes `"x"` and `""` this is evaluated with a transport that opens and with one
that does not.  For a mode starting with `r` or `w`, successful allocations and
a transport that opens, both return a fresh stream of the default capacity. -/
theorem open_bad_mode_dereferences_null :
    (∀ (T : Type) (bufsize : Nat) (opener : Int → List Char → dcs_comp_algo → Option T)
        (malloc_ok calloc_ok : Bool) (fd : Int) (m : List Char) (algo : dcs_comp_algo),
      m.headD (Char.ofNat 0) ≠ 'r' ∧ m.headD (Char.ofNat 0) ≠ 'w' →
      algo ≠ dcs_comp_algo.DCS_UNKNOWN →
      dcs_dopen bufsize opener malloc_ok calloc_ok fd (some m) algo
        = open_result.null_dereference) ∧
    (∀ (T : Type) (bufsize : Nat) (stat : List Char → Option file_stat)
        (opener : List Char → List Char → dcs_comp_algo → Option T)
        (malloc_ok calloc_ok : Bool) (f m : List Char) (algo : dcs_comp_algo),
      m.headD (Char.ofNat 0) ≠ 'r' ∧ m.headD (Char.ofNat 0) ≠ 'w' →
      algo ≠ dcs_comp_algo.DCS_UNKNOWN →
      dcs_open bufsize stat opener malloc_ok calloc_ok (some f) (some m) algo
        = open_result.null_dereference) ∧
    dcs_dopen 8 (fun _ _ _ => some ()) true true 3 (some "x".toList)
        dcs_comp_algo.DCS_PLAIN = open_result.null_dereference ∧
    dcs_dopen 8 (fun _ _ _ => (none : Option Unit)) true true 3 (some "x".toList)
        dcs_comp_algo.DCS_PLAIN = open_result.null_dereference ∧
    dcs_dopen 8 (fun _ _ _ => some ()) true true 3 (some "".toList)
        dcs_comp_algo.DCS_PLAIN = open_result.null_dereference ∧
    dcs_open 8 (fun _ => none) (fun _ _ _ => some ()) true true (some "f.txt".toList)
        (some "a".toList) dcs_comp_algo.DCS_UNKNOWN = open_result.null_dereference ∧
    (∀ (T : Type) (bufsize : Nat) (opener : Int → List Char → dcs_comp_algo → Option T)
        (fd : Int) (m : List Char) (algo : dcs_comp_algo) (c : T),
      algo ≠ dcs_comp_algo.DCS_UNKNOWN →
      (opener fd ('r' :: m) algo = some c →
        dcs_dopen bufsize opener true true fd (some ('r' :: m)) algo
          = open_result.returned (some (fresh_stream c true bufsize))) ∧
      (opener fd ('w' :: m) algo = some c →
        dcs_dopen bufsize opener true true fd (some ('w' :: m)) algo
          = open_result.returned (some (fresh_stream c false bufsize)))) := by
  refine ⟨?_, ?_, by decide, by decide, by decide, by decide, ?_⟩
  · intro T bufsize opener malloc_ok calloc_ok fd m algo hm ha
    simp only [dcs_dopen, ha, if_false, _dcs_init_bad_mode bufsize m malloc_ok calloc_ok hm]
    cases opener fd m algo <;> rfl
  · intro T bufsize stat opener malloc_ok calloc_ok f m algo hm ha
    simp only [dcs_open, ha, if_false, _dcs_init_bad_mode bufsize m malloc_ok calloc_ok hm]
    cases opener f m algo <;> rfl
  · intro T bufsize opener fd m algo c ha
    constructor
    · intro ho
      simp [dcs_dopen, ha, ho, dcs_open_finish, _dcs_init, fresh_stream]
    · intro ho
      simp [dcs_dopen, ha, ho, dcs_open_finish, _dcs_init, fresh_stream]

/-! ## The terminating marker of `dcs_getuntil` -/

/-- C19 at failing inputs.  Over the plain source: with the 64 bytes
`1, …, 1, 10` (delimiter `10`) and a null destination of size 0, the destination
grows to 64 bytes once, the 64 bytes fill it exactly, and `dcs_getuntil` returns
64 with `*size = 64`; with the source `[1, 10]` and a destination block of 2
bytes it returns 2 with `*size = 2` and the block is not grown.  In both cases
the index `n` of the terminating marker is the size of the block, one past its
last byte, and the store of the marker is outside the block (`overrun`). -/
theorem getuntil_marker_out_of_block :
    (∃ r, dcs_getuntil plain_source alloc_always 3
          (fresh_stream (List.replicate 63 1 ++ [10]) true 64) none 0 10 = some r ∧
        r.ret = 64 ∧ r.size = 64 ∧ (r.dest.getD []).length = 64 ∧
        r.dest.getD [] = List.replicate 63 1 ++ [10] ∧ r.overrun = true) ∧
    (∃ r, dcs_getuntil plain_source alloc_always 3 (fresh_stream [1, 10] true 4)
          (some [0, 0]) 2 10 = some r ∧
        r.ret = 2 ∧ r.size = 2 ∧ r.dest = some [1, 10] ∧ r.overrun = true) :=
  ⟨⟨_, rfl, rfl, rfl, rfl, rfl, rfl⟩, ⟨_, rfl, rfl, rfl, rfl, rfl⟩⟩

/-! ## Well-formedness of reachable states -/

theorem dcs_moredata_len_le {T : Type} (tr : Transport T) (hg : good_read tr)
    (s : dcs_stream T) (h : s.len ≤ s.cap) :
    (dcs_moredata tr s).1.len ≤ (dcs_moredata tr s).1.cap := by
  cases hr : s.read
  · simp [dcs_moredata, hr, h]
  · by_cases hfill : s.fp_eof = false ∧ s.pos = s.len
    · rw [dcs_moredata_fill tr s hr hfill.1 hfill.2, _dcs_fillbuf_eq tr s hr]
      exact hg s.compr s.buf s.len s.cap
    · rw [dcs_moredata_nofill tr s hr hfill]
      exact h

theorem dcs_read_loop_len_le {T : Type} (tr : Transport T) (hg : good_read tr) (size : Nat) :
    ∀ (fuel : Nat) (s : dcs_stream T) (bdest : List Byte) (read : Nat)
      (r : dcs_stream T × List Byte × Nat),
      s.len ≤ s.cap → dcs_read_loop tr size fuel s bdest read = some r →
      r.1.len ≤ r.1.cap := by
  intro fuel
  induction fuel with
  | zero => intro s bdest read r _ h; simp [dcs_read_loop] at h
  | succ fuel ih =>
    intro s bdest read r hle h
    unfold dcs_read_loop at h
    have hm := dcs_moredata_len_le tr hg s hle
    by_cases hlt : read < size
    · simp only [hlt, if_true] at h
      by_cases hm0 : (dcs_moredata tr s).2 = 0
      · simp only [hm0, ne_eq, not_true_eq_false, if_false, Option.some.injEq] at h
        subst h
        exact hm
      · simp only [hm0, ne_eq, not_false_eq_true, if_true] at h
        refine ih _ _ _ r ?_ h
        exact hm
    · simp only [hlt, if_false, Option.some.injEq] at h
      subst h
      exact hle

theorem dcs_getuntil_loop_len_le {T : Type} (tr : Transport T) (hg : good_read tr)
    (alloc_ok : Nat → Bool) (delim : Byte) (gfuel : Nat) :
    ∀ (fuel : Nat) (s : dcs_stream T) (out : Option (List Byte)) (outsize outpos : Nat)
      (found overrun : Bool) (r : getuntil_result T),
      s.len ≤ s.cap →
      dcs_getuntil_loop tr alloc_ok delim gfuel fuel s out outsize outpos found overrun
        = some r →
      r.stream.len ≤ r.stream.cap := by
  intro fuel
  induction fuel with
  | zero => intro s out outsize outpos found overrun r _ h; simp [dcs_getuntil_loop] at h
  | succ fuel ih =>
    intro s out outsize outpos found overrun r hle h
    unfold dcs_getuntil_loop at h
    have hm := dcs_moredata_len_le tr hg s hle
    by_cases hfound : found = true
    · simp only [hfound, if_true, Option.some.injEq] at h
      subst h
      exact hle
    · simp only [hfound, Bool.false_eq_true, if_false] at h
      by_cases hm0 : (dcs_moredata tr s).2 = 0
      · simp only [hm0, if_true, Option.some.injEq] at h
        subst h
        exact hm
      · simp only [hm0, if_false] at h
        revert h
        generalize (match memchr (((dcs_moredata tr s).1.buf.drop (dcs_moredata tr s).1.pos).take
            (size_sub (dcs_moredata tr s).1.len (dcs_moredata tr s).1.pos)) delim with
          | some i => i + 1
          | none => size_sub (dcs_moredata tr s).1.len (dcs_moredata tr s).1.pos) = btd
        intro h
        cases hgr : dcs_getuntil_grow alloc_ok btd outpos gfuel out outsize with
        | none => simp [hgr] at h
        | some g =>
          obtain ⟨o1, os1, ok⟩ := g
          cases ok with
          | false =>
            simp only [hgr, Option.some.injEq] at h
            subst h
            exact hm
          | true =>
            simp only [hgr] at h
            refine ih _ _ _ _ _ _ r ?_ h
            exact hm

theorem step_read_len_le {T : Type} (tr : Transport T) (hg : good_read tr)
    (alloc_ok : Nat → Bool) (fuel : Nat) (s : dcs_stream T) (op : Op)
    (r : dcs_stream T × Int) (hr : s.read = true) (hle : s.len ≤ s.cap)
    (h : step tr alloc_ok fuel s op = some r) : r.1.len ≤ r.1.cap := by
  cases op with
  | setbufsize size =>
    simp only [step, Option.some.injEq] at h
    subst h
    unfold dcs_setbufsize
    split
    · exact hle
    · split
      · exact hle
      · rename_i hn
        have hl : s.len = 0 := by
          by_contra h0
          exact hn (Or.inr (Or.inl h0))
        split
        · exact hle
        · show s.len ≤ size
          omega
  | read dest size =>
    simp only [step, Option.map_eq_some'] at h
    obtain ⟨q, hq, rfl⟩ := h
    unfold dcs_read at hq
    cases dest with
    | none =>
      simp only [Option.some.injEq] at hq
      subst hq
      exact hle
    | some bdest =>
      simp only [hr, Bool.not_true, Bool.false_eq_true, if_false] at hq
      cases hl : dcs_read_loop tr size fuel s bdest 0 with
      | none => simp [hl] at hq
      | some t =>
        simp only [hl, Option.some.injEq] at hq
        subst hq
        exact dcs_read_loop_len_le tr hg size fuel s bdest 0 t hle hl
  | getc =>
    simp only [step, Option.some.injEq] at h
    subst h
    have hm := dcs_moredata_len_le tr hg s hle
    unfold dcs_getc
    split
    · exact hle
    · simp only
      split
      · exact hm
      · exact hm
  | ungetc =>
    simp only [step, Option.some.injEq] at h
    subst h
    unfold dcs_ungetc
    split
    · exact hle
    · split
      · exact hle
      · split
        · exact hle
        · exact hle
  | getuntil dest size delim =>
    simp only [step, Option.map_eq_some'] at h
    obtain ⟨q, hq, rfl⟩ := h
    unfold dcs_getuntil at hq
    simp only [hr, Bool.not_true, Bool.false_eq_true, if_false] at hq
    exact dcs_getuntil_loop_len_le tr hg alloc_ok delim fuel fuel s dest size 0 false false q
      hle hq
  | write src size =>
    rw [step, dcs_write_on_read tr fuel s hr src size] at h
    simp only [Option.some.injEq] at h
    subst h
    exact hle
  | flush =>
    simp only [step, dcs_flush_on_read tr s hr, Option.some.injEq] at h
    subst h
    exact hle

theorem dcs_write_loop_inv {T : Type} (tr : Transport T) (bsrc : List Byte) (size : Nat) :
    ∀ (fuel : Nat) (s : dcs_stream T) (wrote : Nat) (r : dcs_stream T × Int),
      write_inv s → dcs_write_loop tr bsrc size fuel s wrote = some r → write_inv r.1 := by
  intro fuel
  induction fuel with
  | zero => intro s wrote r _ h; simp [dcs_write_loop] at h
  | succ fuel ih =>
    intro s wrote r hinv h
    obtain ⟨hr, hlt, hlen⟩ := hinv
    unfold dcs_write_loop at h
    by_cases hlt2 : wrote < size
    · simp only [hlt2, if_true] at h
      rw [size_sub_of_le (by omega), dcs_size_min_eq] at h
      by_cases hfull : s.pos + min (s.cap - s.pos) (size - wrote) = s.cap
      · simp only [hfull, if_true] at h
        split at h
        · simp only [Option.some.injEq] at h
          subst h
          exact ⟨hr, by show 0 < s.cap; omega, rfl⟩
        · refine ih _ _ r ?_ h
          exact ⟨hr, by show 0 < s.cap; omega, rfl⟩
      · simp only [hfull, if_false] at h
        refine ih _ _ r ?_ h
        exact ⟨hr, by show s.pos + min (s.cap - s.pos) (size - wrote) < s.cap; omega, rfl⟩
    · simp only [hlt2, if_false, Option.some.injEq] at h
      subst h
      exact ⟨hr, hlt, hlen⟩

theorem step_write_inv {T : Type} (tr : Transport T) (alloc_ok : Nat → Bool) (fuel : Nat)
    (s : dcs_stream T) (op : Op) (r : dcs_stream T × Int) (hinv : write_inv s)
    (h : step tr alloc_ok fuel s op = some r) : write_inv r.1 := by
  have hr := hinv.is_write
  cases op with
  | setbufsize size =>
    simp only [step, Option.some.injEq] at h
    subst h
    unfold dcs_setbufsize
    split
    · exact hinv
    · rename_i hz
      split
      · exact hinv
      · rename_i hn
        have hp : s.pos = 0 := by
          by_contra h0
          exact hn (Or.inl h0)
        split
        · exact hinv
        · exact ⟨hr, by show s.pos < size; omega, hinv.len_eq⟩
  | read dest size =>
    rw [step, dcs_read_on_write tr fuel s hr dest size] at h
    simp only [Option.map_some', Option.some.injEq] at h
    subst h
    exact hinv
  | getc =>
    simp only [step, dcs_getc_on_write tr s hr, Option.some.injEq] at h
    subst h
    exact hinv
  | ungetc =>
    simp only [step, dcs_ungetc_on_write s hr, Option.some.injEq] at h
    subst h
    exact hinv
  | getuntil dest size delim =>
    rw [step, dcs_getuntil_on_write tr alloc_ok fuel s hr dest size delim] at h
    simp only [Option.map_some', Option.some.injEq] at h
    subst h
    exact hinv
  | write src size =>
    simp only [step] at h
    unfold dcs_write at h
    cases src with
    | none =>
      simp only [Option.some.injEq] at h
      subst h
      exact hinv
    | some bsrc =>
      simp only [hr, Bool.false_eq_true, if_false] at h
      exact dcs_write_loop_inv tr bsrc size fuel s 0 r hinv h
  | flush =>
    simp only [step, Option.some.injEq] at h
    subst h
    unfold dcs_flush
    simp only [hr, Bool.false_eq_true, if_false]
    split
    · exact hinv
    · exact ⟨rfl, by show 0 < s.cap; have := hinv.pos_lt; omega, rfl⟩

theorem step_reach {T : Type} (tr : Transport T) (hg : good_read tr)
    (alloc_ok : Nat → Bool) (fuel : Nat) (s : dcs_stream T) (op : Op)
    (r : dcs_stream T × Int) (hinv : reach_inv s)
    (h : step tr alloc_ok fuel s op = some r) : reach_inv r.1 := by
  rcases hinv with ⟨h1, h2⟩ | h1
  · exact Or.inl ⟨(step_inv tr alloc_ok fuel s op r h1 h).1,
      step_read_len_le tr hg alloc_ok fuel s op r h1.is_read h2 h⟩
  · exact Or.inr (step_write_inv tr alloc_ok fuel s op r h1 h)

theorem run_reach {T : Type} (tr : Transport T) (hg : good_read tr)
    (alloc_ok : Nat → Bool) (fuel : Nat) :
    ∀ (ops : List Op) (s : dcs_stream T) (r : dcs_stream T × List (Op × Int)),
      reach_inv s → run tr alloc_ok fuel ops s = some r → reach_inv r.1 := by
  intro ops
  induction ops with
  | nil =>
    intro s r hinv h
    simp only [run, Option.some.injEq] at h
    subst h
    exact hinv
  | cons op ops ih =>
    intro s r hinv h
    unfold run at h
    cases hs : step tr alloc_ok fuel s op with
    | none => simp [hs] at h
    | some q =>
      simp only [hs] at h
      cases hr : run tr alloc_ok fuel ops q.1 with
      | none => simp [hr] at h
      | some t =>
        simp only [hr, Option.some.injEq] at h
        subst h
        exact ih q.1 t (step_reach tr hg alloc_ok fuel s op q hinv hs) hr

theorem fresh_reach_inv {T : Type} (compr : T) (read : Bool) (c : Nat) (hc : 1 ≤ c) :
    reach_inv (fresh_stream compr read c) := by
  cases read
  · exact Or.inr ⟨rfl, by show 0 < c; omega, rfl⟩
  · exact Or.inl ⟨fresh_read_inv compr c hc, by show 0 ≤ c; omega⟩

theorem good_read_plain_source : good_read plain_source := by
  intro c buf len cap
  simp [plain_source, List.length_take]

/-- C18 (well-formedness is an invariant).  With a transport, failing or not,
whose read never reports more bytes than requested, every state reached from a
freshly opened stream of capacity at least 1 by any sequence of
`dcs_setbufsize`, `dcs_read`, `dcs_getc`, `dcs_ungetc`, `dcs_getuntil`,
`dcs_write` and `dcs_flush` calls has capacity at least 1; if it is a read
stream then `pos ≤ len ≤ cap`; if it is a write stream then `pos = len` and
`pos < cap`. -/
theorem reachable_well_formed {T : Type} (tr : Transport T) (hg : good_read tr)
    (alloc_ok : Nat → Bool) (fuel : Nat) (compr : T) (read : Bool) (c : Nat) (hc : 1 ≤ c)
    (ops : List Op) (r : dcs_stream T × List (Op × Int))
    (hrun : run tr alloc_ok fuel ops (fresh_stream compr read c) = some r) :
    1 ≤ r.1.cap ∧
      (r.1.read = true → r.1.pos ≤ r.1.len ∧ r.1.len ≤ r.1.cap) ∧
      (r.1.read = false → r.1.pos = r.1.len ∧ r.1.pos < r.1.cap) := by
  have h := run_reach tr hg alloc_ok fuel ops _ r (fresh_reach_inv compr read c hc) hrun
  rcases h with ⟨h1, h2⟩ | h1
  · refine ⟨h1.cap_pos, fun _ => ⟨h1.pos_le, h2⟩, fun hf => ?_⟩
    rw [h1.is_read] at hf
    exact absurd hf (by decide)
  · refine ⟨by have := h1.pos_lt; omega, fun ht => ?_, fun _ => ⟨h1.len_eq.symm, h1.pos_lt⟩⟩
    rw [h1.is_write] at ht
    exact absurd ht (by decide)

/-- C18 on a fresh read stream of capacity 2 over `[5, 6, 7]` after a `dcs_getc`,
a `dcs_read` of one byte and a `dcs_ungetc`, and on a fresh write stream of
capacity 2, whose drains fail, after a `dcs_write` of three bytes and a
`dcs_flush`. -/
theorem reachable_well_formed_witness :
    (good_read plain_source ∧ 1 ≤ 2) ∧
    (∃ r, run plain_source alloc_always 4 [Op.getc, Op.read (some [0]) 1, Op.ungetc]
          (fresh_stream [5, 6, 7] true 2) = some r ∧
        1 ≤ r.1.cap ∧
        (r.1.read = true → r.1.pos ≤ r.1.len ∧ r.1.len ≤ r.1.cap) ∧
        (r.1.read = false → r.1.pos = r.1.len ∧ r.1.pos < r.1.cap)) ∧
    (∃ r, run plain_source alloc_always 4 [Op.write (some [1, 2, 3]) 3, Op.flush]
          (fresh_stream [] false 2) = some r ∧
        1 ≤ r.1.cap ∧
        (r.1.read = true → r.1.pos ≤ r.1.len ∧ r.1.len ≤ r.1.cap) ∧
        (r.1.read = false → r.1.pos = r.1.len ∧ r.1.pos < r.1.cap)) :=
  ⟨⟨good_read_plain_source, by decide⟩,
    ⟨_, rfl, reachable_well_formed plain_source good_read_plain_source alloc_always 4
      [5, 6, 7] true 2 (by decide) [Op.getc, Op.read (some [0]) 1, Op.ungetc] _ rfl⟩,
    ⟨_, rfl, reachable_well_formed plain_source good_read_plain_source alloc_always 4
      [] false 2 (by decide) [Op.write (some [1, 2, 3]) 3, Op.flush] _ rfl⟩⟩

/-- C20 (pushback index safety).  Over any transport, failing or not, in every
state reached from a freshly opened read stream of capacity at least 1 by any
sequence of calls, a recorded pushback byte (`prevous_getc ≥ 0`) implies
`1 ≤ pos ≤ len`, so the index `pos - 1` used by `dcs_ungetc` does not wrap
around; when moreover the transport never reports more bytes than requested,
that index is below the capacity of the buffer. -/
theorem pushback_index_safe {T : Type} (tr : Transport T) (alloc_ok : Nat → Bool)
    (fuel : Nat) (compr : T) (c : Nat) (hc : 1 ≤ c) (ops : List Op)
    (r : dcs_stream T × List (Op × Int))
    (hrun : run tr alloc_ok fuel ops (fresh_stream compr true c) = some r)
    (hprev : 0 ≤ r.1.prevous_getc) :
    1 ≤ r.1.pos ∧ r.1.pos ≤ r.1.len ∧ size_sub r.1.pos 1 = r.1.pos - 1 ∧
      size_sub r.1.pos 1 < r.1.len ∧ (good_read tr → size_sub r.1.pos 1 < r.1.cap) := by
  obtain ⟨h1, _, _⟩ := run_inv tr alloc_ok fuel ops _ r (fresh_read_inv compr c hc) hrun
  have hp := h1.unget_ok hprev
  have hs := size_sub_of_le hp
  refine ⟨hp, h1.pos_le, hs, by rw [hs]; have := h1.pos_le; omega, fun hg => ?_⟩
  have h := run_reach tr hg alloc_ok fuel ops _ r (fresh_reach_inv compr true c hc) hrun
  rcases h with ⟨h2, h3⟩ | h2
  · rw [hs]
    have := h2.pos_le
    omega
  · have := h2.is_write
    rw [h1.is_read] at this
    exact absurd this (by decide)

/-- C20 on a fresh read stream of capacity 2 over `[5, 6]` after one `dcs_getc`,
which records the pushback byte 5. -/
theorem pushback_index_safe_witness :
    1 ≤ 2 ∧
    ∃ r, run plain_source alloc_always 2 [Op.getc] (fresh_stream [5, 6] true 2) = some r ∧
      r.1.prevous_getc = 5 ∧ 0 ≤ r.1.prevous_getc ∧
      1 ≤ r.1.pos ∧ r.1.pos ≤ r.1.len ∧ size_sub r.1.pos 1 = r.1.pos - 1 ∧
      size_sub r.1.pos 1 < r.1.len ∧ (good_read plain_source → size_sub r.1.pos 1 < r.1.cap) :=
  ⟨by decide, _, rfl, rfl, by decide,
    pushback_index_safe plain_source alloc_always 2 [5, 6] 2 (by decide) [Op.getc] _ rfl
      (by decide)⟩

/-! ## Resize gating -/

theorem dcs_write_loop_no_eof {T : Type} (tr : Transport T) (bsrc : List Byte) (size : Nat) :
    ∀ (fuel : Nat) (s : dcs_stream T) (wrote : Nat) (r : dcs_stream T × Int),
      s.fp_eof = false → dcs_write_loop tr bsrc size fuel s wrote = some r →
      r.1.fp_eof = false := by
  intro fuel
  induction fuel with
  | zero => intro s wrote r _ h; simp [dcs_write_loop] at h
  | succ fuel ih =>
    intro s wrote r hf h
    unfold dcs_write_loop at h
    by_cases hlt : wrote < size
    · simp only [hlt, if_true] at h
      split at h
      · split at h
        · simp only [Option.some.injEq] at h
          subst h
          exact hf
        · refine ih _ _ r ?_ h
          exact hf
      · refine ih _ _ r ?_ h
        exact hf
    · simp only [hlt, if_false, Option.some.injEq] at h
      subst h
      exact hf

theorem step_write_no_eof {T : Type} (tr : Transport T) (alloc_ok : Nat → Bool) (fuel : Nat)
    (s : dcs_stream T) (op : Op) (r : dcs_stream T × Int) (hr : s.read = false)
    (hf : s.fp_eof = false) (h : step tr alloc_ok fuel s op = some r) :
    r.1.fp_eof = false := by
  cases op with
  | setbufsize size =>
    simp only [step, Option.some.injEq] at h
    subst h
    unfold dcs_setbufsize
    split
    · exact hf
    · split
      · exact hf
      · split
        · exact hf
        · exact hf
  | read dest size =>
    rw [step, dcs_read_on_write tr fuel s hr dest size] at h
    simp only [Option.map_some', Option.some.injEq] at h
    subst h
    exact hf
  | getc =>
    simp only [step, dcs_getc_on_write tr s hr, Option.some.injEq] at h
    subst h
    exact hf
  | ungetc =>
    simp only [step, dcs_ungetc_on_write s hr, Option.some.injEq] at h
    subst h
    exact hf
  | getuntil dest size delim =>
    rw [step, dcs_getuntil_on_write tr alloc_ok fuel s hr dest size delim] at h
    simp only [Option.map_some', Option.some.injEq] at h
    subst h
    exact hf
  | write src size =>
    simp only [step] at h
    unfold dcs_write at h
    cases src with
    | none =>
      simp only [Option.some.injEq] at h
      subst h
      exact hf
    | some bsrc =>
      simp only [hr, Bool.false_eq_true, if_false] at h
      exact dcs_write_loop_no_eof tr bsrc size fuel s 0 r hf h
  | flush =>
    simp only [step, Option.some.injEq] at h
    subst h
    unfold dcs_flush
    simp only [hr, Bool.false_eq_true, if_false]
    split
    · exact hf
    · exact hf

theorem run_write_inv {T : Type} (tr : Transport T) (alloc_ok : Nat → Bool) (fuel : Nat) :
    ∀ (ops : List Op) (s : dcs_stream T) (r : dcs_stream T × List (Op × Int)),
      write_inv s → s.fp_eof = false → run tr alloc_ok fuel ops s = some r →
      write_inv r.1 ∧ r.1.fp_eof = false := by
  intro ops
  induction ops with
  | nil =>
    intro s r hinv hf h
    simp only [run, Option.some.injEq] at h
    subst h
    exact ⟨hinv, hf⟩
  | cons op ops ih =>
    intro s r hinv hf h
    unfold run at h
    cases hs : step tr alloc_ok fuel s op with
    | none => simp [hs] at h
    | some q =>
      simp only [hs] at h
      cases hr : run tr alloc_ok fuel ops q.1 with
      | none => simp [hr] at h
      | some t =>
        simp only [hr, Option.some.injEq] at h
        subst h
        exact ih q.1 t (step_write_inv tr alloc_ok fuel s op q hinv hs)
          (step_write_no_eof tr alloc_ok fuel s op q hinv.is_write hf hs) hr

theorem dcs_setbufsize_write {T : Type} (alloc_ok : Nat → Bool) (s : dcs_stream T)
    (size : Nat) (hsize : size ≠ 0) (hal : alloc_ok size = true) (hinv : write_inv s)
    (hf : s.fp_eof = false) :
    (s.pos ≠ 0 → dcs_setbufsize alloc_ok s size = (s, -1)) ∧
      (s.pos = 0 →
        dcs_setbufsize alloc_ok s size = ({ s with buf := calloc size, cap := size }, 0)) := by
  have hl := hinv.len_eq
  refine ⟨fun hp => ?_, fun hp => ?_⟩
  · simp [dcs_setbufsize, hsize, hp]
  · have h2 : s.len = 0 := by omega
    simp [dcs_setbufsize, hsize, hp, h2, hf, hal]

theorem dcs_flush_write {T : Type} (tr : Transport T) (s : dcs_stream T)
    (hinv : write_inv s) (hf : s.fp_eof = false) :
    write_inv (dcs_flush tr s).1 ∧ (dcs_flush tr s).1.fp_eof = false ∧
      (dcs_flush tr s).1.pos = 0 := by
  have hr := hinv.is_write
  unfold dcs_flush
  simp only [hr, Bool.false_eq_true, if_false]
  split
  · rename_i hp
    exact ⟨hinv, hf, hp⟩
  · exact ⟨⟨rfl, by show 0 < s.cap; have := hinv.pos_lt; omega, rfl⟩, hf, rfl⟩

theorem dcs_flush_sink {c : Nat} {d : List Byte} {s : dcs_stream (List (List Byte))}
    (h : sink_inv c d s) :
    (dcs_flush plain_sink s).2 = 0 ∧ (dcs_flush plain_sink s).1.compr.flatten = d := by
  have hr := h.wf.is_write
  have hl := h.wf.len_eq
  have hco := h.content
  by_cases hp : s.pos = 0
  · rw [hp, List.take_zero, List.append_nil] at hco
    simp [dcs_flush, hr, hp, hco]
  · simp [dcs_flush, hr, hp, plain_sink, hl, hco]
    rfl

/-- C8 as stated fails: on a fresh write stream of capacity 4 over the plain
transport, after `dcs_write` has accepted the 4 bytes `[1, 2, 3, 4]` (drained by
the full buffer), and likewise after one byte has been written and flushed,
`dcs_setbufsize` with size 8 succeeds. -/
theorem setbufsize_after_drain_succeeds :
    (∃ s, dcs_write plain_sink 5 (fresh_stream [] false 4) (some [1, 2, 3, 4]) 4
          = some (s, 4) ∧
        s.compr = [[1, 2, 3, 4]] ∧
        dcs_setbufsize alloc_always s 8 = ({ s with buf := calloc 8, cap := 8 }, 0)) ∧
    (∃ s, dcs_write plain_sink 2 (fresh_stream [] false 4) (some [9]) 1 = some (s, 1) ∧
        (dcs_flush plain_sink s).2 = 0 ∧ (dcs_flush plain_sink s).1.compr = [[9]] ∧
        (dcs_setbufsize alloc_always (dcs_flush plain_sink s).1 8).2 = 0) :=
  ⟨⟨_, rfl, rfl, rfl⟩, ⟨_, rfl, rfl, rfl, rfl⟩⟩

/-- C8, amended.  `dcs_setbufsize` with a non-zero size whose allocation succeeds
succeeds on a freshly opened stream.  It fails on every read stream reached from
a fresh one by any sequence of calls in which some call delivered at least one
byte, or whose source has been found exhausted.  On a write stream over the
plain transport that has accepted the bytes `d` it fails while written bytes
are pending in the buffer (`|d| % c ≠ 0`) and succeeds once every written byte
has been drained to the transport by a full buffer (`|d| % c = 0`); and after a
`dcs_flush`, which succeeds and leaves all of `d` at the transport, it succeeds
whatever `|d|` is.  Over any transport, failing or not, on every write stream
reached from a fresh one by any sequence of calls (writes of any sizes, flushes,
resizes, calls in the wrong direction): it fails when the buffer holds pending
bytes (`pos ≠ 0`), it succeeds when the buffer is empty (`pos = 0`), and it
succeeds after a further `dcs_flush`, which always leaves the buffer empty. -/
theorem resize_gating {T : Type} (tr : Transport T) (alloc_ok : Nat → Bool)
    (fuel c size : Nat) (hc : 1 ≤ c) (hsize : size ≠ 0) (hal : alloc_ok size = true) :
    (∀ (compr : T) (read : Bool),
      dcs_setbufsize alloc_ok (fresh_stream compr read c) size
        = (fresh_stream compr read size, 0)) ∧
    (∀ (compr : T) (ops : List Op) (r : dcs_stream T × List (Op × Int)),
      run tr alloc_ok fuel ops (fresh_stream compr true c) = some r →
      ((∃ p ∈ r.2, delivered p) ∨ r.1.fp_eof = true) →
      dcs_setbufsize alloc_ok r.1 size = (r.1, -1)) ∧
    (∀ (ds : List (List Byte)), (∀ x ∈ ds, x.length < fuel) →
      ∃ s, write_all plain_sink fuel (fresh_stream [] false c) ds
          = some (s, ds.map (fun x => (x.length : Int))) ∧
        (ds.flatten.length % c ≠ 0 → dcs_setbufsize alloc_ok s size = (s, -1)) ∧
        (ds.flatten.length % c = 0 →
          dcs_setbufsize alloc_ok s size = ({ s with buf := calloc size, cap := size }, 0)) ∧
        (dcs_flush plain_sink s).2 = 0 ∧
        (dcs_flush plain_sink s).1.compr.flatten = ds.flatten ∧
        dcs_setbufsize alloc_ok (dcs_flush plain_sink s).1 size
          = ({ (dcs_flush plain_sink s).1 with buf := calloc size, cap := size }, 0)) ∧
    (∀ (compr : T) (ops : List Op) (r : dcs_stream T × List (Op × Int)),
      run tr alloc_ok fuel ops (fresh_stream compr false c) = some r →
      (r.1.pos ≠ 0 → dcs_setbufsize alloc_ok r.1 size = (r.1, -1)) ∧
      (r.1.pos = 0 →
        dcs_setbufsize alloc_ok r.1 size
          = ({ r.1 with buf := calloc size, cap := size }, 0)) ∧
      (dcs_flush tr r.1).1.pos = 0 ∧
      dcs_setbufsize alloc_ok (dcs_flush tr r.1).1 size
        = ({ (dcs_flush tr r.1).1 with buf := calloc size, cap := size }, 0)) := by
  refine ⟨fun compr read => dcs_setbufsize_fresh alloc_ok compr read c size hsize hal, ?_, ?_,
    ?_⟩
  · intro compr ops r hrun hused
    obtain ⟨a1, _, a3⟩ := run_inv tr alloc_ok fuel ops _ r (fresh_read_inv compr c hc) hrun
    have hu : used r.1 := by
      rcases hused with h | h
      · exact a3 h
      · exact Or.inr h
    exact (dcs_setbufsize_inv alloc_ok r.1 size a1).2 hu
  · intro ds hfuel
    obtain ⟨s, hs, hinv⟩ := write_all_sink c fuel ds [] _ (fresh_sink_inv c hc) hfuel
    rw [List.nil_append] at hinv
    obtain ⟨_, hpos, _, _⟩ := sink_inv_count hinv
    have hlen := hinv.wf.len_eq
    have hwi : write_inv s := ⟨hinv.wf.is_write, hinv.wf.pos_lt, hinv.wf.len_eq⟩
    obtain ⟨f1, f2, f3⟩ := dcs_flush_write plain_sink s hwi hinv.wf.no_eof
    obtain ⟨g1, g2⟩ := dcs_flush_sink hinv
    refine ⟨s, hs, ?_, ?_, g1, g2,
      (dcs_setbufsize_write alloc_ok _ size hsize hal f1 f2).2 f3⟩
    · intro hm
      have : s.pos ≠ 0 := by omega
      simp [dcs_setbufsize, hsize, this]
    · intro hm
      have h1 : s.pos = 0 := by omega
      have h2 : s.len = 0 := by omega
      have h3 : s.fp_eof = false := hinv.wf.no_eof
      simp [dcs_setbufsize, hsize, h1, h2, h3, hal]
  · intro compr ops r hrun
    obtain ⟨a1, a2⟩ := run_write_inv tr alloc_ok fuel ops _ r
      ⟨rfl, by show 0 < c; omega, rfl⟩ rfl hrun
    obtain ⟨b1, b2⟩ := dcs_setbufsize_write alloc_ok r.1 size hsize hal a1 a2
    obtain ⟨f1, f2, f3⟩ := dcs_flush_write tr r.1 a1 a2
    exact ⟨b1, b2, f3, (dcs_setbufsize_write alloc_ok _ size hsize hal f1 f2).2 f3⟩

/-- C8 (amended) on streams of capacity 2 resized to 8: a fresh stream over
`[5, 6]`; the same stream after one `dcs_getc`; and a fresh write stream over
the plain transport after a write of one byte (pending), and after a write of
one byte and a flush (drained). -/
theorem resize_gating_witness :
    (1 ≤ 2 ∧ 8 ≠ 0 ∧ alloc_always 8 = true) ∧
    dcs_setbufsize alloc_always (fresh_stream ([5, 6] : List Byte) true 2) 8
      = (fresh_stream [5, 6] true 8, 0) ∧
    (∃ r, run plain_source alloc_always 4 [Op.getc] (fresh_stream [5, 6] true 2) = some r ∧
      r.2 = [(Op.getc, 5)] ∧ dcs_setbufsize alloc_always r.1 8 = (r.1, -1)) ∧
    (∃ r, run plain_sink alloc_always 4 [Op.write (some [7]) 1] (fresh_stream [] false 2)
        = some r ∧
      r.2 = [(Op.write (some [7]) 1, 1)] ∧ r.1.pos ≠ 0 ∧
      dcs_setbufsize alloc_always r.1 8 = (r.1, -1)) ∧
    (∃ r, run plain_sink alloc_always 4 [Op.write (some [7]) 1, Op.flush]
          (fresh_stream [] false 2) = some r ∧
      r.2 = [(Op.write (some [7]) 1, 1), (Op.flush, 0)] ∧ r.1.compr = [[7]] ∧ r.1.pos = 0 ∧
      dcs_setbufsize alloc_always r.1 8 = ({ r.1 with buf := calloc 8, cap := 8 }, 0)) :=
  ⟨⟨by decide, by decide, rfl⟩,
    (resize_gating plain_source alloc_always 4 2 8 (by decide) (by decide) rfl).1 [5, 6] true,
    ⟨_, rfl, rfl,
      (resize_gating plain_source alloc_always 4 2 8 (by decide) (by decide) rfl).2.1 [5, 6]
        [Op.getc] _ rfl
        (Or.inl ⟨(Op.getc, 5), List.mem_singleton.mpr rfl, by simp [delivered]⟩)⟩,
    ⟨_, rfl, rfl, by decide,
      ((resize_gating plain_sink alloc_always 4 2 8 (by decide) (by decide) rfl).2.2.2 []
        [Op.write (some [7]) 1] _ rfl).1 (by decide)⟩,
    ⟨_, rfl, rfl, rfl, rfl,
      ((resize_gating plain_sink alloc_always 4 2 8 (by decide) (by decide) rfl).2.2.2 []
        [Op.write (some [7]) 1, Op.flush] _ rfl).2.1 rfl⟩⟩

end Dcs
